import Mathlib

/-!
Deferred-call scheduler (`timeout` package).

A shallow embedding of `timeout.go`: the indexed min-heap `futures` driven by
Go's `container/heap`, the coordinator `callControl` with its `add` and
`cancel`, and the `watcher` goroutines, followed by the properties proved
about them.

Conventions of the embedding.

* A `*future` is an address `Ptr`; the objects live in a store `Ptr → future`.
* `time.Time` and `time.Duration` are integers (nanoseconds).
* Everything done between `cc.lock.Lock()` and `cc.lock.Unlock()` is one
  atomic step; a `watcher` goroutine is a small automaton whose steps are
  "run the carried callback", "critical section", "timer fired" and
  "wake signal received".
* An index expression that would be out of range makes Go panic; `heap.Pop`
  and `heap.Remove` return `none` there.
-/

namespace Timeout

/-- Address of a `future` object (a Go `*future`). -/
abbrev Ptr := Nat

/-- Identity of a non-nil Go function value `func()`. -/
abbrev Fn := Nat

/-- The Go struct `future`: `f` is `none` for a nil function. -/
structure future where
  f : Option Fn
  fireT : Int
  idx : Int
  deriving DecidableEq

/-- The slice `futures []*future` together with the store its elements point into. -/
structure futures where
  arr : List Ptr
  obj : Ptr → future

/-- Assignment `p.idx = v`. -/
def setIdx (obj : Ptr → future) (p : Ptr) (v : Int) : Ptr → future :=
  fun q => if q = p then { obj q with idx := v } else obj q

/-- Assignment `p.f = nil`. -/
def clearF (obj : Ptr → future) (p : Ptr) : Ptr → future :=
  fun q => if q = p then { obj q with f := none } else obj q

/-- Element `(*fs)[i]`. -/
def futures.elem (fs : futures) (i : Nat) : Ptr := fs.arr.getD i 0

/-- Go `futures.Len`. -/
def futures.Len (fs : futures) : Nat := fs.arr.length

/-- Go `futures.Less`: `fi.fireT.Before(fj.fireT)`. -/
def futures.Less (fs : futures) (i j : Nat) : Bool :=
  decide ((fs.obj (fs.elem i)).fireT < (fs.obj (fs.elem j)).fireT)

/-- Go `futures.Swap`: exchange the two slots, then store `i` and `j` into the
`idx` of the objects now found there, in that order. -/
def futures.Swap (fs : futures) (i j : Nat) : futures :=
  let fs1 : futures := { fs with arr := (fs.arr.set i (fs.elem j)).set j (fs.elem i) }
  { fs1 with obj := setIdx (setIdx fs1.obj (fs1.elem i) i) (fs1.elem j) j }

/-- Go `futures.Push`. -/
def futures.Push (fs : futures) (fu : Ptr) : futures :=
  { arr := fs.arr ++ [fu], obj := setIdx fs.obj fu fs.Len }

/-- Go `futures.Pop`: drop the last slot and mark its object as not present. -/
def futures.Pop (fs : futures) : futures × Ptr :=
  let last := fs.Len - 1
  let res := fs.elem last
  ({ arr := fs.arr.take last, obj := setIdx fs.obj res (-1) }, res)

namespace heap

/-- Loop of `container/heap.up`; `fuel` bounds the number of iterations. -/
def upLoop : Nat → futures → Nat → futures
  | 0, h, _ => h
  | fuel + 1, h, j =>
    let i := (j - 1) / 2
    if i = j ∨ h.Less j i = false then h
    else upLoop fuel (h.Swap i j) i

/-- Go `container/heap.up`. -/
def up (h : futures) (j : Nat) : futures := upLoop j h j

/-- Loop of `container/heap.down`, returning the heap and the final `i`. -/
def downLoop : Nat → futures → Nat → Nat → futures × Nat
  | 0, h, i, _ => (h, i)
  | fuel + 1, h, i, n =>
    let j1 := 2 * i + 1
    if n ≤ j1 then (h, i)
    else
      let j := if j1 + 1 < n ∧ h.Less (j1 + 1) j1 = true then j1 + 1 else j1
      if h.Less j i = false then (h, i)
      else downLoop fuel (h.Swap i j) j n

/-- Go `container/heap.down`; the flag is its result `i > i0`. -/
def down (h : futures) (i0 n : Nat) : futures × Bool :=
  let r := downLoop (n - i0) h i0 n
  (r.1, decide (i0 < r.2))

/-- Loop of `container/heap.Init`: `down(h, i, n)` for `i = k-1, ..., 0`. -/
def initLoop : Nat → futures → futures
  | 0, h => h
  | k + 1, h => initLoop k (down h k h.Len).1

/-- Go `container/heap.Init`. -/
def Init (h : futures) : futures := initLoop (h.Len / 2) h

/-- Go `container/heap.Push`. -/
def Push (h : futures) (x : Ptr) : futures :=
  let h1 := h.Push x
  up h1 (h1.Len - 1)

/-- Go `container/heap.Pop`; `none` when the heap is empty. -/
def Pop (h : futures) : Option (futures × Ptr) :=
  if h.Len = 0 then none
  else
    let n := h.Len - 1
    let h1 := h.Swap 0 n
    let h2 := (down h1 0 n).1
    some h2.Pop

/-- Go `container/heap.Remove`; `none` when `i` is not an index of the heap. -/
def Remove (h : futures) (i : Int) : Option (futures × Ptr) :=
  if i < 0 ∨ (h.Len : Int) ≤ i then none
  else
    let i := i.toNat
    let n := h.Len - 1
    if n ≠ i then
      let h1 := h.Swap i n
      let d := down h1 i n
      let h2 := if d.2 = false then up d.1 i else d.1
      some h2.Pop
    else some h.Pop

end heap

/-- The shared fields of the Go struct `callControl`; `wakeCh` is the number
of values buffered in the channel. -/
structure callControl where
  wakeCh : Nat
  futures : List Ptr
  watchers : Int
  deriving DecidableEq

/-- Capacity of `cc.wakeCh`. -/
def wakeCap : Nat := 100

/-- Bound on `cc.watchers` tested before a watcher is spawned. -/
def watcherCap : Int := 10

/-- Constant `time.Second * 30`. -/
def idleTimeout : Int := 30 * 1000000000

/-- A callback taken out of an entry; `owner` records the entry it was read from. -/
structure Job where
  owner : Ptr
  fn : Fn
  deriving DecidableEq

/-- Control state of one `watcher` goroutine. -/
inductive goroutine
  | top (f : Option Job) (misCount : Bool)
  | locking (misCount : Bool)
  | waiting (misCount : Bool) (tmt : Int)
  | done
  deriving DecidableEq

/-- Whole program state: the store of `future` objects with its allocation
pointer, the coordinator, the watcher goroutines and the record of callback
invocations, oldest first. -/
structure State where
  obj : Ptr → future
  next : Ptr
  cc : callControl
  workers : List goroutine
  calls : List Job

/-- The heap view of a state. -/
def State.heap (s : State) : futures := { arr := s.cc.futures, obj := s.obj }

/-- Store before any allocation. -/
def obj0 : Ptr → future := fun _ => { f := none, fireT := 0, idx := -1 }

/-- State after the package `init`. -/
def init : State :=
  { obj := obj0, next := 0,
    cc := { wakeCh := 0, futures := (heap.Init { arr := [], obj := obj0 }).arr, watchers := 0 },
    workers := [], calls := [] }

/-- Go `callControl.notifyWatcher`: a send that is dropped when the buffer is full. -/
def notifyWatcher (s : State) : State :=
  if s.cc.wakeCh < wakeCap then { s with cc := { s.cc with wakeCh := s.cc.wakeCh + 1 } } else s

/-- Go `callControl.add`. -/
def add (s : State) (fu : Ptr) : State :=
  let h := heap.Push s.heap fu
  let s1 : State := { s with obj := h.obj, cc := { s.cc with futures := h.arr } }
  if s1.cc.watchers = 0 then
    { s1 with cc := { s1.cc with watchers := s1.cc.watchers + 1 },
              workers := s1.workers ++ [goroutine.top none false] }
  else notifyWatcher s1

/-- Go `Call`, reading the clock as `now`; returns the new state and the handle. -/
def Call (s : State) (f : Option Fn) (timeout now : Int) : State × Ptr :=
  let fu := s.next
  let s1 : State :=
    { s with obj := fun q => if q = fu then { f := f, fireT := now + timeout, idx := -1 } else s.obj q,
             next := s.next + 1 }
  if f ≠ none then (add s1 fu, fu) else (s1, fu)

/-- Go `callControl.cancel`. -/
def cancel (s : State) (fu : Ptr) : Option State :=
  if (s.obj fu).idx < 0 then some s
  else
    let obj1 := clearF s.obj fu
    match heap.Remove { arr := s.cc.futures, obj := obj1 } (obj1 fu).idx with
    | none => none
    | some (h, _) =>
      let s1 : State := { s with obj := h.obj, cc := { s.cc with futures := h.arr } }
      some (if s1.cc.watchers > 0 then notifyWatcher s1 else s1)

/-- How one pass through the critical section of `watcher` leaves the loop. -/
inductive Outcome
  | exit
  | cont (f : Option Job) (spawned : Bool)
  | wait (misCount : Bool) (tmt : Int)
  deriving DecidableEq

/-- The critical section of Go `callControl.watcher`, from `cc.lock.Lock()` to
the `Unlock` on the path taken, with the clock read as `now`. -/
def watcherLocked (s : State) (misCount : Bool) (now : Int) : Option (State × Outcome) :=
  if s.heap.Len = 0 then
    if s.cc.watchers > 1 ∨ misCount = true then
      some ({ s with cc := { s.cc with watchers := s.cc.watchers - 1 } }, Outcome.exit)
    else some (s, Outcome.wait true idleTimeout)
  else
    let fireT := (s.obj (s.heap.elem 0)).fireT
    if fireT < now then
      match heap.Pop s.heap with
      | none => none
      | some (h, fu) =>
        let s1 : State := { s with obj := h.obj, cc := { s.cc with futures := h.arr } }
        let f : Option Job := (s1.obj fu).f.map (fun g => { owner := fu, fn := g })
        if s1.cc.watchers < watcherCap then
          some ({ s1 with cc := { s1.cc with watchers := s1.cc.watchers + 1 } }, Outcome.cont f true)
        else some (s1, Outcome.cont f false)
    else if s.cc.watchers > 1 then
      some ({ s with cc := { s.cc with watchers := s.cc.watchers - 1 } }, Outcome.exit)
    else some (s, Outcome.wait false (fireT - now))

/-- Scheduler-visible events. -/
inductive Action
  | call (f : Option Fn) (timeout now : Int)
  | cancel (fu : Ptr)
  | invoke (w : Nat)
  | lock (w : Nat) (now : Int)
  | timer (w : Nat)
  | wake (w : Nat)
  deriving DecidableEq

/-- One event. An event that is not enabled leaves the state as it is;
`none` is a run-time panic. -/
def step (s : State) : Action → Option State
  | Action.call f timeout now => some (Call s f timeout now).1
  | Action.cancel fu => if fu < s.next then cancel s fu else some s
  | Action.invoke w =>
    match s.workers.getD w goroutine.done with
    | goroutine.top f mis =>
      some { s with workers := s.workers.set w (goroutine.locking mis),
                    calls := s.calls ++ f.toList }
    | _ => some s
  | Action.lock w now =>
    match s.workers.getD w goroutine.done with
    | goroutine.locking mis =>
      match watcherLocked s mis now with
      | none => none
      | some (s1, Outcome.exit) =>
        some { s1 with workers := s1.workers.set w goroutine.done }
      | some (s1, Outcome.cont f true) =>
        some { s1 with workers := s1.workers.set w (goroutine.top none false) ++ [goroutine.top f false] }
      | some (s1, Outcome.cont f false) =>
        some { s1 with workers := s1.workers.set w (goroutine.top f false) }
      | some (s1, Outcome.wait mis1 tmt) =>
        some { s1 with workers := s1.workers.set w (goroutine.waiting mis1 tmt) }
    | _ => some s
  | Action.timer w =>
    match s.workers.getD w goroutine.done with
    | goroutine.waiting mis _ =>
      some { s with workers := s.workers.set w (goroutine.top none mis) }
    | _ => some s
  | Action.wake w =>
    match s.workers.getD w goroutine.done with
    | goroutine.waiting _ _ =>
      if 0 < s.cc.wakeCh then
        some { s with cc := { s.cc with wakeCh := s.cc.wakeCh - 1 },
                      workers := s.workers.set w (goroutine.top none false) }
      else some s
    | _ => some s

/-- A sequence of events, stopping at a panic. -/
def run (s : State) : List Action → Option State
  | [] => some s
  | a :: as => (step s a).bind (fun s1 => run s1 as)

/-- States the program can be in. -/
inductive Reachable : State → Prop
  | init : Reachable init
  | step {s s1 : State} (a : Action) : Reachable s → step s a = some s1 → Reachable s1

/-! ## Predicates, invariants and sample states used in the proofs -/

/-- Fire time of the entry in slot `k`. -/
def futures.key (h : futures) (k : Nat) : Int := (h.obj (h.elem k)).fireT

/-- Position invariant: the entry in slot `k` records `k` in its `idx`. -/
def Pos (h : futures) : Prop := ∀ k, k < h.Len → (h.obj (h.elem k)).idx = (k : Int)

/-- The heap `h1` is a rearrangement of `h`: the same pointers, the same
callbacks and fire times, and no object outside the slice touched. -/
structure Same (h h1 : futures) : Prop where
  perm : h1.arr.Perm h.arr
  f : ∀ q, (h1.obj q).f = (h.obj q).f
  fireT : ∀ q, (h1.obj q).fireT = (h.obj q).fireT
  frame : ∀ q, q ∉ h.arr → h1.obj q = h.obj q

/-- Heap order on the first `n` slots: no key is before its parent's. -/
def Ord (key : Nat → Int) (n : Nat) : Prop :=
  ∀ k, 0 < k → k < n → key ((k - 1) / 2) ≤ key k

/-- Heap order except that slot `j` may be before its parent. -/
def UpInv (key : Nat → Int) (n j : Nat) : Prop :=
  (∀ k, 0 < k → k < n → k ≠ j → key ((k - 1) / 2) ≤ key k) ∧
    ∀ c, 0 < c → c < n → (c - 1) / 2 = j → 0 < j → key ((j - 1) / 2) ≤ key c

/-- Heap order except at slot `i`, which may be out of order with its parent and
with its children. -/
def DownInv (key : Nat → Int) (n i : Nat) : Prop :=
  (∀ k, 0 < k → k < n → k ≠ i → (k - 1) / 2 ≠ i → key ((k - 1) / 2) ≤ key k) ∧
    ∀ c, 0 < c → c < n → (c - 1) / 2 = i → 0 < i → key ((i - 1) / 2) ≤ key c

/-- Keys after the slots `i` and `j` are exchanged. -/
def swapKey (key : Nat → Int) (i j : Nat) : Nat → Int :=
  fun k => if k = j then key i else if k = i then key j else key k

/-- The heap `h1` is `h` with the entry `r` taken out. -/
structure Removed (h h1 : futures) (r : Ptr) : Prop where
  perm : h.arr.Perm (r :: h1.arr)
  pos : Pos h → Pos h1
  ord : Ord h.key h.Len → Ord h1.key h1.Len
  idx : (h1.obj r).idx = -1
  f : ∀ q, (h1.obj q).f = (h.obj q).f
  fireT : ∀ q, (h1.obj q).fireT = (h.obj q).fireT
  frame : ∀ q, q ∉ h.arr → h1.obj q = h.obj q

/-- The heap `h1` is `h` with the entry `x` put in. -/
structure Added (h h1 : futures) (x : Ptr) : Prop where
  perm : h1.arr.Perm (x :: h.arr)
  pos : Pos h → x ∉ h.arr → Pos h1
  ord : Ord h.key h.Len → Ord h1.key h1.Len
  f : ∀ q, (h1.obj q).f = (h.obj q).f
  fireT : ∀ q, (h1.obj q).fireT = (h.obj q).fireT
  frame : ∀ q, q ∉ h.arr → q ≠ x → h1.obj q = h.obj q

/-- The callback a goroutine holds and has still to run. -/
def goroutine.job : goroutine → Option Job
  | goroutine.top f _ => f
  | _ => none

/-- A goroutine that has not returned. -/
def goroutine.live : goroutine → Bool
  | goroutine.done => false
  | _ => true

/-- Callbacks handed to watchers and not yet run. -/
def carried (ws : List goroutine) : List Job := ws.filterMap goroutine.job

/-- Number of watcher goroutines that have not returned. -/
def liveCount (ws : List goroutine) : Nat := ws.countP goroutine.live

/-- Entries whose callback has been taken out for running: still carried, or already run. -/
def State.owners (s : State) : List Ptr := (carried s.workers ++ s.calls).map Job.owner

/-- The store after `new(future)` and the three field assignments of `Call`. -/
def allocObj (s : State) (f : Option Fn) (t : Int) : Ptr → future :=
  fun q => if q = s.next then { f := f, fireT := t, idx := -1 } else s.obj q

/-- What holds in every state the program reaches. -/
structure Inv (s : State) : Prop where
  pos : Pos s.heap
  ord : Ord s.heap.key s.heap.Len
  bound : ∀ p, p ∈ s.cc.futures → p < s.next
  nonnil : ∀ p, p ∈ s.cc.futures → (s.obj p).f ≠ none
  detached : ∀ p, p ∉ s.cc.futures → (s.obj p).idx = -1
  watchers : s.cc.watchers = (liveCount s.workers : Int)
  cap : s.cc.watchers ≤ watcherCap
  nodup : s.owners.Nodup
  out : ∀ j, j ∈ carried s.workers ++ s.calls →
    j.owner ∉ s.cc.futures ∧ j.owner < s.next ∧ (s.obj j.owner).f = some j.fn
  fired : ∀ p, p < s.next → (s.obj p).f ≠ none → p ∉ s.cc.futures → p ∈ s.owners

/-- The state of `Call` between the allocation and `cc.add`. -/
def allocState (s : State) (f : Option Fn) (t : Int) : State :=
  { s with obj := allocObj s f t, next := s.next + 1 }

/-- The state `cancel` leaves when the heap removal yields `h`. -/
def cancelResult (s : State) (h : futures) : State :=
  let s1 : State := { s with obj := h.obj, cc := { s.cc with futures := h.arr } }
  if s1.cc.watchers > 0 then notifyWatcher s1 else s1

/-- The state the critical section leaves when `heap.Pop` yields `h`. -/
def popResult (s : State) (h : futures) : State :=
  let s1 : State := { s with obj := h.obj, cc := { s.cc with futures := h.arr } }
  if s1.cc.watchers < watcherCap then
    { s1 with cc := { s1.cc with watchers := s1.cc.watchers + 1 } }
  else s1

/-- The state the critical section leaves when the watcher returns. -/
def exitResult (s : State) : State :=
  { s with cc := { s.cc with watchers := s.cc.watchers - 1 } }

/-- How a step leaves the entries allocated before it. -/
structure Frame (s s1 : State) : Prop where
  next : s.next ≤ s1.next
  fireT : ∀ q, q < s.next → (s1.obj q).fireT = (s.obj q).fireT
  fnone : ∀ q, q < s.next → (s.obj q).f = none → (s1.obj q).f = none
  pend : ∀ q, q < s.next → q ∈ s1.cc.futures → q ∈ s.cc.futures

/-- A state with one charged entry: `Call(f, 5ns)` at clock 0 after `init`. -/
def exOne : State := (Call init (some 7) 5 0).1

/-- Repeated `Cancel` on one handle. -/
def cancelN (fu : Ptr) : Nat → State → Option State
  | 0, s => some s
  | n + 1, s => (cancel s fu).bind (cancelN fu n)

/-- A state with one charged entry and a watcher about to enter its critical section. -/
def exLocking : State := ((run init [Action.call (some 7) 5 0, Action.invoke 0]).getD init)

/-- State `exLocking` after the watcher has popped the entry at clock 9. -/
def exPopped : State := ((step exLocking (Action.lock 0 9)).getD init)

/-- Heaps built from the empty slice by `heap.Push`, `heap.Pop` and
`heap.Remove` at any position, with writes to objects outside the slice and to
the callback field allowed in between. -/
inductive HeapReach : futures → Prop
  | empty (obj : Ptr → future) : HeapReach { arr := [], obj := obj }
  | store {h : futures} (x : Ptr) (fu : future) : HeapReach h → x ∉ h.arr →
      HeapReach { h with obj := fun q => if q = x then fu else h.obj q }
  | clear {h : futures} (x : Ptr) : HeapReach h → HeapReach { h with obj := clearF h.obj x }
  | push {h : futures} (x : Ptr) : HeapReach h → HeapReach (heap.Push h x)
  | pop {h h1 : futures} {r : Ptr} : HeapReach h → heap.Pop h = some (h1, r) → HeapReach h1
  | remove {h h1 : futures} {r : Ptr} (i : Int) : HeapReach h →
      heap.Remove h i = some (h1, r) → HeapReach h1

/-- A heap of three entries pushed with fire times 5, 3 and 1. -/
def exHeap : futures :=
  heap.Push (heap.Push (heap.Push
    { arr := [], obj := fun q => { f := some q, fireT := 5 - 2 * (q : Int), idx := -1 } } 0) 1) 2

/-- The event is a `Cancel`. -/
def Action.isCancel : Action → Bool
  | Action.cancel _ => true
  | _ => false

/-- The invocations a trace owes when nothing is cancelled: the `Call` events
create the entries `k`, `k + 1`, ... in order, and each one given a callback
that is not nil owes one run of that callback. -/
def expectedFrom : Nat → List Action → List Job
  | _, [] => []
  | k, Action.call (some g) _ _ :: as => { owner := k, fn := g } :: expectedFrom (k + 1) as
  | k, Action.call none _ _ :: as => expectedFrom (k + 1) as
  | k, _ :: as => expectedFrom k as

/-- Two entries scheduled with delay 1 at clock 0. -/
def exSchedule : List Action := [Action.call (some 7) 1 0, Action.call (some 8) 1 0]

/-- The event is a step of a watcher goroutine. -/
def Action.isWorker : Action → Bool
  | Action.invoke _ => true
  | Action.lock _ _ => true
  | Action.timer _ => true
  | Action.wake _ => true
  | _ => false

/-- The event is a step of a watcher goroutine, a critical section reading the clock as `now`. -/
def Action.isWorkerAt (now : Int) : Action → Bool
  | Action.invoke _ => true
  | Action.lock _ t => decide (t = now)
  | Action.timer _ => true
  | Action.wake _ => true
  | _ => false

/-- Pending Sets built from the empty slice by `heap.Push` of an entry that is
not yet pending (the entry `Call` has just allocated), `heap.Pop` and
`heap.Remove` at any position, together with the intermediate states those
operations pass through: `futures.Push`, `futures.Pop` and every `Swap` of two
slots of the slice. -/
inductive PosReach : futures → Prop
  | empty (obj : Ptr → future) : PosReach { arr := [], obj := obj }
  | rawPush {h : futures} (x : Ptr) : PosReach h → x ∉ h.arr → PosReach (h.Push x)
  | swap {h : futures} (i j : Nat) : PosReach h → i < h.Len → j < h.Len →
      PosReach (h.Swap i j)
  | rawPop {h : futures} : PosReach h → h.Len ≠ 0 → PosReach h.Pop.1
  | push {h : futures} (x : Ptr) : PosReach h → x ∉ h.arr → PosReach (heap.Push h x)
  | pop {h h1 : futures} {r : Ptr} : PosReach h → heap.Pop h = some (h1, r) → PosReach h1
  | remove {h h1 : futures} {r : Ptr} (i : Int) : PosReach h →
      heap.Remove h i = some (h1, r) → PosReach h1

/-- A sole watcher in its idle wait: one entry scheduled, popped and run, the
popping watcher gone and the remaining one waiting on an empty Pending Set. -/
def exIdle : State :=
  ((run init [Action.call (some 7) 5 0, Action.invoke 0, Action.lock 0 9, Action.invoke 1,
    Action.invoke 0, Action.lock 0 10, Action.lock 1 11]).getD init)

/-- Critical sections taken one after the other by the listed watchers, each
with its own clock reading. -/
def lockActs (l : List (Nat × Int)) : List Action := l.map (fun p => Action.lock p.1 p.2)

/-- After a burst: the entry due at 1 has been popped and run, the entry due at
100 is pending, and two watchers are about to enter their critical sections. -/
def exBurst : State :=
  ((run init [Action.call (some 7) 1 0, Action.call (some 8) 100 0, Action.invoke 0,
    Action.lock 0 5, Action.invoke 0, Action.invoke 1]).getD init)

/-- State with the control state of goroutine `w` replaced. -/
def State.setWorker (s : State) (w : Nat) (g : goroutine) : State :=
  { s with workers := s.workers.set w g }

/-! ## The store and the slice -/

theorem setIdx_f (obj : Ptr → future) (p q : Ptr) (v : Int) :
    (setIdx obj p v q).f = (obj q).f := by
  unfold setIdx; split <;> rfl

theorem setIdx_fireT (obj : Ptr → future) (p q : Ptr) (v : Int) :
    (setIdx obj p v q).fireT = (obj q).fireT := by
  unfold setIdx; split <;> rfl

theorem setIdx_same (obj : Ptr → future) (p : Ptr) (v : Int) :
    (setIdx obj p v p).idx = v := by
  simp [setIdx]

theorem setIdx_ne (obj : Ptr → future) {p q : Ptr} (v : Int) (h : q ≠ p) :
    setIdx obj p v q = obj q := by
  simp [setIdx, h]

theorem elem_eq_getElem (h : futures) {k : Nat} (hk : k < h.Len) :
    h.elem k = h.arr[k] := by
  unfold futures.Len at hk
  simp [futures.elem, hk]

theorem elem_mem (h : futures) {k : Nat} (hk : k < h.Len) : h.elem k ∈ h.arr := by
  rw [elem_eq_getElem h hk]; exact List.getElem_mem _

theorem mem_iff_elem (h : futures) (q : Ptr) : q ∈ h.arr ↔ ∃ k, k < h.Len ∧ h.elem k = q := by
  constructor
  · intro hq
    obtain ⟨k, hk, e⟩ := List.getElem_of_mem hq
    exact ⟨k, hk, by rw [elem_eq_getElem h hk]; exact e⟩
  · rintro ⟨k, hk, rfl⟩
    exact elem_mem h hk

theorem Less_iff (h : futures) (i j : Nat) : h.Less i j = true ↔ h.key i < h.key j := by
  simp [futures.Less, futures.key]

theorem Less_false_iff (h : futures) (i j : Nat) : h.Less i j = false ↔ h.key j ≤ h.key i := by
  simp [futures.Less, futures.key]

/-! ## `Swap` -/

theorem Swap_Len (h : futures) (i j : Nat) : (h.Swap i j).Len = h.Len := by
  simp [futures.Swap, futures.Len]

theorem Swap_elem (h : futures) {i j : Nat} (hi : i < h.Len) (hj : j < h.Len) (k : Nat) :
    (h.Swap i j).elem k = if k = j then h.elem i else if k = i then h.elem j else h.elem k := by
  unfold futures.Len at hi hj
  simp only [futures.Swap, futures.elem, List.getD_eq_getElem?_getD, List.getElem?_set,
    List.length_set]
  by_cases h1 : j = k
  · subst h1; simp [hj]
  · by_cases h2 : i = k
    · subst h2; simp [h1, hi, Ne.symm h1]
    · simp [h1, h2, Ne.symm h1, Ne.symm h2]

theorem Swap_f (h : futures) (i j : Nat) (q : Ptr) :
    ((h.Swap i j).obj q).f = (h.obj q).f := by
  simp [futures.Swap, setIdx_f]

theorem Swap_fireT (h : futures) (i j : Nat) (q : Ptr) :
    ((h.Swap i j).obj q).fireT = (h.obj q).fireT := by
  simp [futures.Swap, setIdx_fireT]

theorem Swap_key (h : futures) {i j : Nat} (hi : i < h.Len) (hj : j < h.Len) (k : Nat) :
    (h.Swap i j).key k = if k = j then h.key i else if k = i then h.key j else h.key k := by
  unfold futures.key
  rw [Swap_fireT, Swap_elem h hi hj]
  split_ifs <;> rfl

theorem Swap_perm (h : futures) {i j : Nat} (hi : i < h.Len) (hj : j < h.Len) :
    (h.Swap i j).arr.Perm h.arr := by
  unfold futures.Len at hi hj
  rw [List.perm_iff_count]
  intro a
  have e : (h.Swap i j).arr = (h.arr.set i (h.elem j)).set j (h.elem i) := rfl
  rw [e, List.count_set _ _ _ _ (by simpa using hj), List.count_set _ _ _ _ hi]
  have ei : h.elem i = h.arr[i] := elem_eq_getElem h hi
  have ej : h.elem j = h.arr[j] := elem_eq_getElem h hj
  rw [ei, ej, List.getElem_set]
  have ci : 0 < (if (h.arr[i] == a) = true then 1 else 0) → 0 < h.arr.count a := by
    intro hpos
    split at hpos
    · rename_i hh
      have : h.arr[i] = a := by simpa using hh
      exact List.count_pos_iff.2 (this ▸ List.getElem_mem _)
    · omega
  have cj : 0 < (if (h.arr[j] == a) = true then 1 else 0) → 0 < h.arr.count a := by
    intro hpos
    split at hpos
    · rename_i hh
      have : h.arr[j] = a := by simpa using hh
      exact List.count_pos_iff.2 (this ▸ List.getElem_mem _)
    · omega
  by_cases hij : i = j
  · subst hij
    simp only [↓reduceIte]
    have := ci
    split at this <;> simp_all
  · simp only [hij, ↓reduceIte]
    split at ci <;> split at cj <;> simp_all

theorem Pos.inj {h : futures} (hp : Pos h) {a b : Nat} (ha : a < h.Len) (hb : b < h.Len)
    (e : h.elem a = h.elem b) : a = b := by
  have h1 := hp a ha
  have h2 := hp b hb
  rw [e] at h1
  have : (a : Int) = (b : Int) := h1.symm.trans h2
  exact_mod_cast this

theorem Pos.nodup {h : futures} (hp : Pos h) : h.arr.Nodup := by
  rw [List.nodup_iff_injective_get]
  intro a b e
  apply Fin.ext
  have ha : a.1 < h.Len := a.2
  have hb : b.1 < h.Len := b.2
  apply hp.inj ha hb
  rw [elem_eq_getElem h ha, elem_eq_getElem h hb]
  exact e

theorem Swap_pos {h : futures} (hp : Pos h) {i j : Nat} (hi : i < h.Len) (hj : j < h.Len) :
    Pos (h.Swap i j) := by
  intro k hk
  rw [Swap_Len] at hk
  have ek := Swap_elem h hi hj k
  have ei := Swap_elem h hi hj i
  have ej := Swap_elem h hi hj j
  simp only [↓reduceIte] at ej
  have ho : (h.Swap i j).obj
      = setIdx (setIdx h.obj ((h.Swap i j).elem i) i) ((h.Swap i j).elem j) j := rfl
  rw [ho]
  by_cases hkj : k = j
  · subst hkj
    rw [setIdx_same]
  · have hne : (h.Swap i j).elem k ≠ (h.Swap i j).elem j := by
      rw [ek, ej]
      simp only [hkj, ↓reduceIte]
      split
      · intro e
        have := hp.inj (by omega) (by omega) e
        omega
      · intro e
        have := hp.inj (by omega) (by omega) e
        omega
    rw [setIdx_ne _ _ hne]
    by_cases hki : k = i
    · subst hki
      rw [setIdx_same]
    · have hne2 : (h.Swap i j).elem k ≠ (h.Swap i j).elem i := by
        rw [ek, ei]
        simp only [hkj, hki, ↓reduceIte]
        split
        · intro e
          have := hp.inj (by omega) (by omega) e
          omega
        · intro e
          have := hp.inj (by omega) (by omega) e
          omega
      rw [setIdx_ne _ _ hne2, ek]
      simp only [hkj, hki, ↓reduceIte]
      exact hp k hk

theorem Swap_frame (h : futures) {i j : Nat} (hi : i < h.Len) (hj : j < h.Len) {q : Ptr}
    (hq : q ∉ h.arr) : (h.Swap i j).obj q = h.obj q := by
  have ho : (h.Swap i j).obj
      = setIdx (setIdx h.obj ((h.Swap i j).elem i) i) ((h.Swap i j).elem j) j := rfl
  have mi : (h.Swap i j).elem i ∈ h.arr :=
    (Swap_perm h hi hj).mem_iff.1 (elem_mem _ (by rw [Swap_Len]; exact hi))
  have mj : (h.Swap i j).elem j ∈ h.arr :=
    (Swap_perm h hi hj).mem_iff.1 (elem_mem _ (by rw [Swap_Len]; exact hj))
  rw [ho, setIdx_ne _ _ (fun e => hq (by rw [e]; exact mj)),
    setIdx_ne _ _ (fun e => hq (by rw [e]; exact mi))]

theorem Same.refl (h : futures) : Same h h :=
  ⟨List.Perm.refl _, fun _ => rfl, fun _ => rfl, fun _ _ => rfl⟩

theorem Same.trans {h h1 h2 : futures} (a : Same h h1) (b : Same h1 h2) : Same h h2 :=
  ⟨b.perm.trans a.perm, fun q => (b.f q).trans (a.f q), fun q => (b.fireT q).trans (a.fireT q),
    fun q hq => (b.frame q (fun m => hq (a.perm.mem_iff.1 m))).trans (a.frame q hq)⟩

theorem Same.len {h h1 : futures} (a : Same h h1) : h1.Len = h.Len := a.perm.length_eq

theorem Same.swap (h : futures) {i j : Nat} (hi : i < h.Len) (hj : j < h.Len) :
    Same h (h.Swap i j) :=
  ⟨Swap_perm h hi hj, Swap_f h i j, Swap_fireT h i j, fun _ hq => Swap_frame h hi hj hq⟩

/-! ## The loops of `container/heap` rearrange the slice -/

theorem upLoop_spec (fuel : Nat) : ∀ (h : futures) (j : Nat), j < h.Len →
    Same h (heap.upLoop fuel h j) ∧ (Pos h → Pos (heap.upLoop fuel h j)) ∧
      ∀ k, j < k → (heap.upLoop fuel h j).elem k = h.elem k := by
  induction fuel with
  | zero => intro h j _; exact ⟨Same.refl h, id, fun _ _ => rfl⟩
  | succ fuel ih =>
    intro h j hj
    unfold heap.upLoop
    simp only
    split
    · exact ⟨Same.refl h, id, fun _ _ => rfl⟩
    · have hi : (j - 1) / 2 < h.Len := by omega
      have hi1 : (j - 1) / 2 < (h.Swap ((j - 1) / 2) j).Len := by rw [Swap_Len]; exact hi
      obtain ⟨a, b, c⟩ := ih (h.Swap ((j - 1) / 2) j) ((j - 1) / 2) hi1
      refine ⟨(Same.swap h hi hj).trans a, fun hp => b (Swap_pos hp hi hj), ?_⟩
      intro k hk
      rw [c k (by omega), Swap_elem h hi hj]
      have h1 : k ≠ j := by omega
      have h2 : k ≠ (j - 1) / 2 := by omega
      simp [h1, h2]

theorem downLoop_spec (n : Nat) (fuel : Nat) : ∀ (h : futures) (i : Nat), n ≤ h.Len →
    Same h (heap.downLoop fuel h i n).1 ∧ (Pos h → Pos (heap.downLoop fuel h i n).1) ∧
      (∀ k, k < i ∨ n ≤ k → (heap.downLoop fuel h i n).1.elem k = h.elem k) ∧
      i ≤ (heap.downLoop fuel h i n).2 := by
  induction fuel with
  | zero => intro h i _; exact ⟨Same.refl h, id, fun _ _ => rfl, Nat.le_refl _⟩
  | succ fuel ih =>
    intro h i hn
    unfold heap.downLoop
    simp only
    split
    · exact ⟨Same.refl h, id, fun _ _ => rfl, Nat.le_refl _⟩
    · rename_i hj1
      generalize hjd : (if 2 * i + 1 + 1 < n ∧ h.Less (2 * i + 1 + 1) (2 * i + 1) = true
        then 2 * i + 1 + 1 else 2 * i + 1) = j
      have hjr : j = 2 * i + 1 ∨ j = 2 * i + 2 := by
        rw [← hjd]; split <;> omega
      have hjn : j < n := by
        rw [← hjd]; split <;> omega
      split
      · exact ⟨Same.refl h, id, fun _ _ => rfl, Nat.le_refl _⟩
      · have hi : i < h.Len := by omega
        have hj : j < h.Len := by omega
        obtain ⟨a, b, c, d⟩ := ih (h.Swap i j) j (by rw [Swap_Len]; exact hn)
        refine ⟨(Same.swap h hi hj).trans a, fun hp => b (Swap_pos hp hi hj), ?_, by omega⟩
        intro k hk
        rw [c k (by omega), Swap_elem h hi hj]
        have h1 : k ≠ j := by omega
        have h2 : k ≠ i := by omega
        simp [h1, h2]

/-! ## Heap order -/

theorem Swap_key_eq (h : futures) {i j : Nat} (hi : i < h.Len) (hj : j < h.Len) :
    (h.Swap i j).key = swapKey h.key i j :=
  funext (fun k => Swap_key h hi hj k)

theorem Ord.root_le {key : Nat → Int} {n : Nat} (ho : Ord key n) :
    ∀ k, k < n → key 0 ≤ key k := by
  intro k
  induction k using Nat.strong_induction_on with
  | _ k ih =>
    intro hk
    by_cases h0 : k = 0
    · subst h0; exact le_refl _
    · have h1 := ho k (by omega) hk
      have h2 := ih ((k - 1) / 2) (by omega) (by omega)
      exact le_trans h2 h1

theorem Ord.mono {key : Nat → Int} {n m : Nat} (ho : Ord key n) (hm : m ≤ n) : Ord key m :=
  fun k h0 hk => ho k h0 (by omega)

theorem up_done {key : Nat → Int} {n j : Nat} (hu : UpInv key n j)
    (hb : (j - 1) / 2 = j ∨ key ((j - 1) / 2) ≤ key j) : Ord key n := by
  intro k h0 hk
  by_cases hkj : k = j
  · subst hkj
    rcases hb with hb | hb
    · omega
    · exact hb
  · exact hu.1 k h0 hk hkj

theorem up_step {key : Nat → Int} {n j : Nat} (hu : UpInv key n j) (h0 : (j - 1) / 2 ≠ j)
    (hjn : j < n) (hlt : key j < key ((j - 1) / 2)) :
    UpInv (swapKey key ((j - 1) / 2) j) n ((j - 1) / 2) := by
  have hj0 : 0 < j := by omega
  constructor
  · intro k hk0 hkn hki
    by_cases hkj : k = j
    · subst hkj
      simp only [swapKey, if_true]
      have : ¬ (k - 1) / 2 = k := h0
      simp only [this, if_false, if_true]
      exact le_of_lt hlt
    · have hk1 := hu.1 k hk0 hkn hkj
      simp only [swapKey, hkj, hki, if_false]
      by_cases hpj : (k - 1) / 2 = j
      · simp only [hpj, if_true]
        have := hu.2 k hk0 hkn hpj hj0
        exact this
      · simp only [hpj, if_false]
        by_cases hpi : (k - 1) / 2 = (j - 1) / 2
        · simp only [hpi, if_true]
          rw [hpi] at hk1
          exact le_trans (le_of_lt hlt) hk1
        · simp only [hpi, if_false]
          exact hk1
  · intro c hc0 hcn hpc hi0
    have hpi : (j - 1) / 2 ≠ 0 := by omega
    have e1 : ((j - 1) / 2 - 1) / 2 ≠ j := by omega
    have e2 : ((j - 1) / 2 - 1) / 2 ≠ (j - 1) / 2 := by omega
    have hpar := hu.1 ((j - 1) / 2) hi0 (by omega) h0
    simp only [swapKey, e1, e2, if_false]
    by_cases hcj : c = j
    · simp only [hcj, if_true]
      exact hpar
    · have hci : c ≠ (j - 1) / 2 := by omega
      simp only [hcj, hci, if_false]
      have := hu.1 c hc0 hcn hcj
      rw [hpc] at this
      exact le_trans hpar this

theorem down_done {key : Nat → Int} {n i : Nat} (hd : DownInv key n i)
    (hc : ∀ c, c < n → c = 2 * i + 1 ∨ c = 2 * i + 2 → key i ≤ key c)
    (hp : 0 < i → i < n → key ((i - 1) / 2) ≤ key i) : Ord key n := by
  intro k h0 hk
  by_cases hki : k = i
  · subst hki; exact hp h0 hk
  · by_cases hpi : (k - 1) / 2 = i
    · rw [hpi]; exact hc k hk (by omega)
    · exact hd.1 k h0 hk hki hpi

theorem down_nomove {key : Nat → Int} {n i : Nat} (hd : DownInv key n i)
    (hc : ∀ c, c < n → c = 2 * i + 1 ∨ c = 2 * i + 2 → key i ≤ key c) : UpInv key n i := by
  constructor
  · intro k h0 hk hki
    by_cases hpi : (k - 1) / 2 = i
    · rw [hpi]; exact hc k hk (by omega)
    · exact hd.1 k h0 hk hki hpi
  · exact hd.2

theorem down_step {key : Nat → Int} {n i j : Nat} (hd : DownInv key n i) (hjn : j < n)
    (hj : j = 2 * i + 1 ∨ j = 2 * i + 2)
    (hmin : ∀ c, c < n → c = 2 * i + 1 ∨ c = 2 * i + 2 → key j ≤ key c)
    (hlt : key j < key i) :
    DownInv (swapKey key i j) n j ∧
      swapKey key i j ((j - 1) / 2) ≤ swapKey key i j j := by
  have hpj : (j - 1) / 2 = i := by omega
  have hij : i ≠ j := by omega
  refine ⟨⟨?_, ?_⟩, ?_⟩
  · intro k hk0 hkn hkj hpk
    by_cases hki : k = i
    · subst hki
      have e1 : (k - 1) / 2 ≠ j := by omega
      have e2 : (k - 1) / 2 ≠ k := by omega
      simp only [swapKey, hkj, e1, e2, if_false, if_true]
      exact hd.2 j (by omega) hjn hpj hk0
    · by_cases hpi : (k - 1) / 2 = i
      · simp only [swapKey, hkj, hki, hpi, hij, if_false, if_true]
        exact hmin k hkn (by omega)
      · simp only [swapKey, hkj, hki, hpi, hpk, if_false]
        exact hd.1 k hk0 hkn hki hpi
  · intro c hc0 hcn hpc _
    have hcj : c ≠ j := by omega
    have hci : c ≠ i := by omega
    simp only [swapKey, hpj, hcj, hci, hij, if_false, if_true]
    have hpci : (c - 1) / 2 ≠ i := by omega
    have := hd.1 c hc0 hcn hci hpci
    rw [hpc] at this
    exact this
  · simp only [swapKey, hpj, hij, if_false, if_true]
    exact le_of_lt hlt

theorem upLoop_ord (n : Nat) (fuel : Nat) : ∀ (h : futures) (j : Nat), j ≤ fuel → j < n →
    n ≤ h.Len → UpInv h.key n j → Ord (heap.upLoop fuel h j).key n := by
  induction fuel with
  | zero =>
    intro h j hj _ _ hu
    exact up_done hu (Or.inl (by omega))
  | succ fuel ih =>
    intro h j hj hjn hn hu
    unfold heap.upLoop
    simp only
    split
    · rename_i hb
      refine up_done hu ?_
      rcases hb with hb | hb
      · exact Or.inl hb
      · exact Or.inr ((Less_false_iff h _ _).1 hb)
    · rename_i hb
      have hb1 : (j - 1) / 2 ≠ j := fun e => hb (Or.inl e)
      have hb2 : h.key j < h.key ((j - 1) / 2) := by
        rw [← Less_iff]
        cases hl : h.Less j ((j - 1) / 2)
        · exact absurd (Or.inr hl) hb
        · rfl
      have hi : (j - 1) / 2 < h.Len := by omega
      have hjl : j < h.Len := by omega
      apply ih (h.Swap ((j - 1) / 2) j) ((j - 1) / 2) (by omega) (by omega)
        (by rw [Swap_Len]; exact hn)
      rw [Swap_key_eq h hi hjl]
      exact up_step hu hb1 hjn hb2

theorem minChild (h : futures) (n i : Nat) (hj1 : ¬ n ≤ 2 * i + 1) (j : Nat)
    (hjd : (if 2 * i + 1 + 1 < n ∧ h.Less (2 * i + 1 + 1) (2 * i + 1) = true
        then 2 * i + 1 + 1 else 2 * i + 1) = j) :
    (j = 2 * i + 1 ∨ j = 2 * i + 2) ∧ j < n ∧
      ∀ c, c < n → c = 2 * i + 1 ∨ c = 2 * i + 2 → h.key j ≤ h.key c := by
  split at hjd
  · rename_i hc
    subst hjd
    refine ⟨Or.inr rfl, hc.1, ?_⟩
    intro c _ hcc
    rcases hcc with rfl | rfl
    · exact le_of_lt ((Less_iff h _ _).1 hc.2)
    · exact le_refl _
  · rename_i hc
    subst hjd
    refine ⟨Or.inl rfl, by omega, ?_⟩
    intro c hcn hcc
    rcases hcc with rfl | rfl
    · exact le_refl _
    · have : h.Less (2 * i + 1 + 1) (2 * i + 1) = false := by
        cases hl : h.Less (2 * i + 1 + 1) (2 * i + 1)
        · rfl
        · exact absurd ⟨hcn, hl⟩ hc
      exact (Less_false_iff h _ _).1 this

theorem downLoop_ord (n : Nat) (fuel : Nat) : ∀ (h : futures) (i : Nat), n - i ≤ fuel →
    n ≤ h.Len → DownInv h.key n i → (0 < i → i < n → h.key ((i - 1) / 2) ≤ h.key i) →
    Ord (heap.downLoop fuel h i n).1.key n := by
  induction fuel with
  | zero =>
    intro h i hf _ hd hp
    exact down_done hd (fun c hc hcc => by omega) hp
  | succ fuel ih =>
    intro h i hf hn hd hp
    unfold heap.downLoop
    simp only
    split
    · exact down_done hd (fun c hc hcc => by omega) hp
    · rename_i hj1
      generalize hjd : (if 2 * i + 1 + 1 < n ∧ h.Less (2 * i + 1 + 1) (2 * i + 1) = true
        then 2 * i + 1 + 1 else 2 * i + 1) = j
      obtain ⟨hjr, hjn, hmin⟩ := minChild h n i hj1 j hjd
      split
      · rename_i hb
        have hb1 := (Less_false_iff h _ _).1 hb
        exact down_done hd (fun c hc hcc => le_trans hb1 (hmin c hc hcc)) hp
      · rename_i hb
        have hb2 : h.key j < h.key i := by
          rw [← Less_iff]
          cases hl : h.Less j i
          · exact absurd hl hb
          · rfl
        have hi : i < h.Len := by omega
        have hjl : j < h.Len := by omega
        obtain ⟨d1, d2⟩ := down_step hd hjn hjr hmin hb2
        apply ih (h.Swap i j) j (by omega) (by rw [Swap_Len]; exact hn)
        · rw [Swap_key_eq h hi hjl]; exact d1
        · intro _ _
          rw [Swap_key_eq h hi hjl]; exact d2

theorem downLoop_nomove (n : Nat) (fuel : Nat) (h : futures) (i : Nat) (hf : n - i ≤ fuel)
    (hn : n ≤ h.Len) (he : (heap.downLoop fuel h i n).2 = i) :
    (heap.downLoop fuel h i n).1 = h ∧
      ∀ c, c < n → c = 2 * i + 1 ∨ c = 2 * i + 2 → h.key i ≤ h.key c := by
  cases fuel with
  | zero => exact ⟨rfl, fun c hc hcc => by omega⟩
  | succ fuel =>
    unfold heap.downLoop at he ⊢
    simp only at he ⊢
    split
    · exact ⟨rfl, fun c hc hcc => by omega⟩
    · rename_i hj1
      rw [if_neg hj1] at he
      generalize hjd : (if 2 * i + 1 + 1 < n ∧ h.Less (2 * i + 1 + 1) (2 * i + 1) = true
        then 2 * i + 1 + 1 else 2 * i + 1) = j at he ⊢
      obtain ⟨hjr, hjn, hmin⟩ := minChild h n i hj1 j hjd
      split
      · rename_i hb
        have hb1 := (Less_false_iff h _ _).1 hb
        exact ⟨rfl, fun c hc hcc => le_trans hb1 (hmin c hc hcc)⟩
      · rename_i hb
        rw [if_neg hb] at he
        have := (downLoop_spec n fuel (h.Swap i j) j (by rw [Swap_Len]; exact hn)).2.2.2
        omega

theorem downLoop_moved (n : Nat) (fuel : Nat) (h : futures) (i : Nat) (hf : n - i ≤ fuel)
    (hn : n ≤ h.Len) (hd : DownInv h.key n i) (he : (heap.downLoop fuel h i n).2 ≠ i) :
    Ord (heap.downLoop fuel h i n).1.key n := by
  cases fuel with
  | zero => exact absurd rfl he
  | succ fuel =>
    unfold heap.downLoop at he ⊢
    simp only at he ⊢
    split
    · rename_i hj1; rw [if_pos hj1] at he; exact absurd rfl he
    · rename_i hj1
      rw [if_neg hj1] at he
      generalize hjd : (if 2 * i + 1 + 1 < n ∧ h.Less (2 * i + 1 + 1) (2 * i + 1) = true
        then 2 * i + 1 + 1 else 2 * i + 1) = j at he ⊢
      obtain ⟨hjr, hjn, hmin⟩ := minChild h n i hj1 j hjd
      split
      · rename_i hb; rw [if_pos hb] at he; exact absurd rfl he
      · rename_i hb
        have hb2 : h.key j < h.key i := by
          rw [← Less_iff]
          cases hl : h.Less j i
          · exact absurd hl hb
          · rfl
        have hi : i < h.Len := by omega
        have hjl : j < h.Len := by omega
        obtain ⟨d1, d2⟩ := down_step hd hjn hjr hmin hb2
        apply downLoop_ord n fuel (h.Swap i j) j (by omega) (by rw [Swap_Len]; exact hn)
        · rw [Swap_key_eq h hi hjl]; exact d1
        · intro _ _
          rw [Swap_key_eq h hi hjl]; exact d2

/-- Extra fuel does not change `upLoop`: the loop has reached its `break`. -/
theorem upLoop_fuel (fuel : Nat) : ∀ (h : futures) (j : Nat), j ≤ fuel →
    heap.upLoop (fuel + 1) h j = heap.upLoop fuel h j := by
  induction fuel with
  | zero =>
    intro h j hj
    have : j = 0 := by omega
    subst this
    simp [heap.upLoop]
  | succ fuel ih =>
    intro h j hj
    rw [heap.upLoop]
    conv => rhs; rw [heap.upLoop]
    split
    · rfl
    · exact ih _ _ (by omega)

/-- Extra fuel does not change `downLoop`: the loop has reached its `break`. -/
theorem downLoop_fuel (n : Nat) (fuel : Nat) : ∀ (h : futures) (i : Nat), n - i ≤ fuel →
    heap.downLoop (fuel + 1) h i n = heap.downLoop fuel h i n := by
  induction fuel with
  | zero =>
    intro h i hf
    have : n ≤ 2 * i + 1 := by omega
    simp [heap.downLoop, this]
  | succ fuel ih =>
    intro h i hf
    rw [heap.downLoop]
    conv => rhs; rw [heap.downLoop]
    simp only
    split
    · rfl
    · rename_i hj1
      generalize hjd : (if 2 * i + 1 + 1 < n ∧ h.Less (2 * i + 1 + 1) (2 * i + 1) = true
        then 2 * i + 1 + 1 else 2 * i + 1) = j
      have hj := minChild h n i hj1 j hjd
      split
      · rfl
      · exact ih _ _ (by omega)

/-! ## `heap.Push`, `heap.Pop` and `heap.Remove` -/

theorem take_elem (h : futures) (n : Nat) (obj : Ptr → future) {k : Nat} (hk : k < n) :
    futures.elem { arr := h.arr.take n, obj := obj } k = h.elem k := by
  simp [futures.elem, List.getElem?_take, hk]

theorem removed_of {h h2 : futures} {n : Nat} {r : Ptr} (hs : Same h h2)
    (hpp : Pos h → Pos h2)
    (hl : h2.Len = n + 1) (hr : h2.elem n = r) (ho : Ord h.key h.Len → Ord h2.key n) :
    Removed h h2.Pop.1 r ∧ h2.Pop.2 = r := by
  have e2 : h2.Pop.2 = r := by simp [futures.Pop, hl, hr]
  have e1 : h2.Pop.1 = { arr := h2.arr.take n, obj := setIdx h2.obj r (-1) } := by
    simp [futures.Pop, hl, hr]
  have hlen : h2.arr.length = n + 1 := hl
  have harr : h2.arr = h2.arr.take n ++ [r] := by
    have h3 := List.take_succ (l := h2.arr) (n := n)
    have h4 : h2.arr[n]? = some r := by
      rw [List.getElem?_eq_getElem (by omega), ← elem_eq_getElem h2 (by omega), hr]
    rw [h4, List.take_of_length_le (by omega)] at h3
    simpa using h3
  have hlen1 : (h2.arr.take n).length = n := by simp [hlen]
  refine ⟨?_, e2⟩
  rw [e1]
  refine ⟨?_, ?_, ?_, setIdx_same _ _ _, ?_, ?_, ?_⟩
  · have : h2.arr.Perm (r :: h2.arr.take n) := by
      conv => lhs; rw [harr]
      exact List.perm_append_singleton _ _
    exact hs.perm.symm.trans this
  · intro hp k hk
    have hp2 := hpp hp
    have hk' : k < n := by simpa [futures.Len, hlen1] using hk
    have hne : h2.elem k ≠ r := by
      intro e
      have := hp2.inj (a := k) (b := n) (by omega) (by omega) (e.trans hr.symm)
      omega
    rw [take_elem h2 n _ hk']
    show (setIdx h2.obj r (-1) (h2.elem k)).idx = k
    rw [setIdx_ne _ _ hne]
    exact hp2 k (by omega)
  · intro hord
    have hk2 := ho hord
    intro k h0 hk
    have hk' : k < n := by simpa [futures.Len, hlen1] using hk
    have ek : ∀ m, m < n → futures.key { arr := h2.arr.take n, obj := setIdx h2.obj r (-1) } m
        = h2.key m := by
      intro m hm
      unfold futures.key
      rw [take_elem h2 n _ hm]
      exact setIdx_fireT _ _ _ _
    rw [ek k hk', ek _ (by omega)]
    exact hk2 k h0 hk'
  · intro q
    show (setIdx h2.obj r (-1) q).f = _
    rw [setIdx_f]; exact hs.f q
  · intro q
    show (setIdx h2.obj r (-1) q).fireT = _
    rw [setIdx_fireT]; exact hs.fireT q
  · intro q hq
    have hrm : r ∈ h.arr := by
      apply hs.perm.mem_iff.1
      rw [← hr]; exact elem_mem h2 (by omega)
    show setIdx h2.obj r (-1) q = _
    rw [setIdx_ne _ _ (fun e => hq (by rw [e]; exact hrm))]
    exact hs.frame q hq

theorem Pop_spec {h : futures} (hl : h.Len ≠ 0) :
    ∃ h1, heap.Pop h = some (h1, h.elem 0) ∧ Removed h h1 (h.elem 0) := by
  obtain ⟨n, hn⟩ : ∃ n, h.Len = n + 1 := ⟨h.Len - 1, by omega⟩
  have h0 : 0 < h.Len := by omega
  have hnl : n < h.Len := by omega
  have hL1 : n ≤ (h.Swap 0 n).Len := by rw [Swap_Len]; omega
  obtain ⟨a, b, c, _⟩ := downLoop_spec n (n - 0) (h.Swap 0 n) 0 hL1
  have key1 := Swap_key_eq h h0 hnl
  have hrem := @removed_of h (heap.downLoop (n - 0) (h.Swap 0 n) 0 n).1 n
    (h.elem 0) ((Same.swap h h0 hnl).trans a) (fun hp => b (Swap_pos hp h0 hnl))
    (by rw [a.len, Swap_Len]; exact hn)
    (by rw [c n (Or.inr (Nat.le_refl _)), Swap_elem h h0 hnl]; simp)
    (by
      intro hord
      apply downLoop_ord n (n - 0) (h.Swap 0 n) 0 (by omega) hL1
      · rw [key1]
        constructor
        · intro k hk0 hkn hk1 hk2
          have e1 : k ≠ n := by omega
          have e2 : (k - 1) / 2 ≠ n := by omega
          have e3 : k ≠ 0 := by omega
          simp only [swapKey, e1, e2, e3, hk2, if_false]
          exact hord k hk0 (by omega)
        · intro c _ _ _ hc; omega
      · intro hc; omega)
  refine ⟨_, ?_, hrem.1⟩
  unfold heap.Pop
  rw [if_neg hl]
  simp only [heap.down, hn, Nat.add_sub_cancel]
  rw [← hrem.2]

theorem Remove_spec {h : futures} {i : Nat} (hi : i < h.Len) :
    ∃ h1, heap.Remove h (i : Int) = some (h1, h.elem i) ∧ Removed h h1 (h.elem i) := by
  obtain ⟨n, hn⟩ : ∃ n, h.Len = n + 1 := ⟨h.Len - 1, by omega⟩
  have hnl : n < h.Len := by omega
  have hg : ¬ ((i : Int) < 0 ∨ (h.Len : Int) ≤ (i : Int)) := by omega
  unfold heap.Remove
  rw [if_neg hg]
  simp only [Int.toNat_ofNat, hn, Nat.add_sub_cancel]
  by_cases hin : n = i
  · subst hin
    simp only [ne_eq, not_true_eq_false, if_false]
    have hrem := @removed_of h h n (h.elem n) (Same.refl h) id hn rfl
      (fun hord => by rw [hn] at hord; exact hord.mono (by omega))
    refine ⟨_, ?_, hrem.1⟩
    rw [← hrem.2]
  · have hin' : i < n := by omega
    simp only [ne_eq, hin, not_false_eq_true, if_true]
    have hL1 : n ≤ (h.Swap i n).Len := by rw [Swap_Len]; omega
    obtain ⟨a, b, c, d⟩ := downLoop_spec n (n - i) (h.Swap i n) i hL1
    have key1 := Swap_key_eq h hi hnl
    have hdi : Ord h.key h.Len → DownInv (h.Swap i n).key n i := by
      intro hord
      rw [key1]
      constructor
      · intro k hk0 hkn hk1 hk2
        have e1 : k ≠ n := by omega
        have e2 : (k - 1) / 2 ≠ n := by omega
        simp only [swapKey, e1, e2, hk1, hk2, if_false]
        exact hord k hk0 (by omega)
      · intro c hc0 hcn hpc hi0
        have e1 : c ≠ n := by omega
        have e2 : c ≠ i := by omega
        have e3 : (i - 1) / 2 ≠ n := by omega
        have e4 : (i - 1) / 2 ≠ i := by omega
        simp only [swapKey, e1, e2, e3, e4, if_false]
        have h1 := hord i hi0 (by omega)
        have h2 := hord c hc0 (by omega)
        rw [hpc] at h2
        exact le_trans h1 h2
    have hs1 := (Same.swap h hi hnl).trans a
    have hp1 : Pos h → Pos (heap.downLoop (n - i) (h.Swap i n) i n).1 :=
      fun hp => b (Swap_pos hp hi hnl)
    have hel : (heap.downLoop (n - i) (h.Swap i n) i n).1.elem n = h.elem i := by
      rw [c n (Or.inr (Nat.le_refl _)), Swap_elem h hi hnl]; simp
    have hlen1 : (heap.downLoop (n - i) (h.Swap i n) i n).1.Len = n + 1 := by
      rw [a.len, Swap_Len]; exact hn
    by_cases hmv : i < (heap.downLoop (n - i) (h.Swap i n) i n).2
    · have hflag : (heap.down (h.Swap i n) i n).2 = true := by
        simp [heap.down, hmv]
      have hrem := @removed_of h (heap.downLoop (n - i) (h.Swap i n) i n).1
        n (h.elem i) hs1 hp1 hlen1 hel
        (fun hord => downLoop_moved n (n - i) (h.Swap i n) i (Nat.le_refl _) hL1 (hdi hord)
          (by omega))
      refine ⟨_, ?_, hrem.1⟩
      rw [hflag]
      simp only [Bool.true_eq_false, if_false]
      rw [← hrem.2]
      rfl
    · have hflag : (heap.down (h.Swap i n) i n).2 = false := by
        simp [heap.down, hmv]
      have heq : (heap.downLoop (n - i) (h.Swap i n) i n).2 = i := by omega
      obtain ⟨e1, hch⟩ := downLoop_nomove n (n - i) (h.Swap i n) i (Nat.le_refl _) hL1 heq
      have hd1 : (heap.down (h.Swap i n) i n).1 = h.Swap i n := by
        simp only [heap.down]; exact e1
      have hiL : i < (h.Swap i n).Len := by rw [Swap_Len]; exact hi
      obtain ⟨ua, ub, uc⟩ := upLoop_spec i (h.Swap i n) i hiL
      have hrem := @removed_of h (heap.upLoop i (h.Swap i n) i)
        n (h.elem i) ((Same.swap h hi hnl).trans ua) (fun hp => ub (Swap_pos hp hi hnl))
        (by rw [ua.len, Swap_Len]; exact hn)
        (by rw [uc n hin', Swap_elem h hi hnl]; simp)
        (fun hord => upLoop_ord n i (h.Swap i n) i (Nat.le_refl _) hin' hL1
          (down_nomove (hdi hord) hch))
      refine ⟨_, ?_, hrem.1⟩
      rw [hflag, hd1]
      simp only [if_true]
      rw [← hrem.2]
      rfl

theorem Push_spec (h : futures) (x : Ptr) : Added h (heap.Push h x) x := by
  have hL : (h.Push x).Len = h.Len + 1 := by simp [futures.Push, futures.Len]
  have helt : ∀ k, k < h.Len → (h.Push x).elem k = h.elem k := by
    intro k hk
    unfold futures.Len at hk
    simp [futures.elem, futures.Push, List.getElem?_append_left, hk]
  have hell : (h.Push x).elem h.Len = x := by
    simp [futures.elem, futures.Push, futures.Len]
  have hp1 : Pos h → x ∉ h.arr → Pos (h.Push x) := by
    intro hp hx k hk
    rw [hL] at hk
    by_cases hkl : k = h.Len
    · subst hkl
      rw [hell]
      exact setIdx_same _ _ _
    · have hk' : k < h.Len := by omega
      rw [helt k hk']
      show (setIdx h.obj x h.Len (h.elem k)).idx = k
      rw [setIdx_ne _ _ (fun e => hx (by rw [← e]; exact elem_mem h hk'))]
      exact hp k hk'
  have hkey : ∀ k, k < h.Len → (h.Push x).key k = h.key k := by
    intro k hk
    unfold futures.key
    rw [helt k hk]
    exact setIdx_fireT _ _ _ _
  have hj : (h.Push x).Len - 1 < (h.Push x).Len := by omega
  obtain ⟨a, b, _⟩ := upLoop_spec ((h.Push x).Len - 1) (h.Push x) ((h.Push x).Len - 1) hj
  refine ⟨?_, fun hp hx => b (hp1 hp hx), ?_, ?_, ?_, ?_⟩
  · exact a.perm.trans (List.perm_append_singleton _ _)
  · intro hord
    have : (heap.Push h x).Len = (h.Push x).Len := a.len
    rw [this]
    apply upLoop_ord (h.Push x).Len _ (h.Push x) _ (Nat.le_refl _) hj (Nat.le_refl _)
    rw [hL]
    simp only [Nat.add_sub_cancel]
    constructor
    · intro k hk0 hkn hkj
      rw [hkey k (by omega), hkey _ (by omega)]
      exact hord k hk0 (by omega)
    · intro c _ hcn hpc _
      omega
  · intro q
    rw [show (heap.Push h x) = heap.upLoop ((h.Push x).Len - 1) (h.Push x) ((h.Push x).Len - 1)
      from rfl, a.f]
    exact setIdx_f _ _ _ _
  · intro q
    rw [show (heap.Push h x) = heap.upLoop ((h.Push x).Len - 1) (h.Push x) ((h.Push x).Len - 1)
      from rfl, a.fireT]
    exact setIdx_fireT _ _ _ _
  · intro q hq hqx
    rw [show (heap.Push h x) = heap.upLoop ((h.Push x).Len - 1) (h.Push x) ((h.Push x).Len - 1)
      from rfl, a.frame q (by simp [futures.Push, hq, hqx])]
    exact setIdx_ne _ _ hqx

/-! ## Watcher goroutines -/

theorem getD_lt {ws : List goroutine} {w : Nat} (h : ws.getD w goroutine.done ≠ goroutine.done) :
    w < ws.length := by
  by_contra hc
  apply h
  simp [List.getElem?_eq_none (Nat.le_of_not_lt hc)]

theorem getD_getElem {ws : List goroutine} {w : Nat} (hw : w < ws.length) :
    ws.getD w goroutine.done = ws[w] := by
  simp [hw]

theorem carried_set : ∀ (ws : List goroutine) (w : Nat) (y : goroutine) (hw : w < ws.length),
    (carried (ws.set w y) ++ (ws[w]).job.toList).Perm (carried ws ++ y.job.toList) := by
  intro ws
  induction ws with
  | nil => intro w y hw; simp at hw
  | cons a ws ih =>
    intro w y hw
    cases w with
    | zero =>
      simp only [List.set_cons_zero, List.getElem_cons_zero, carried, List.filterMap_cons]
      cases hy : y.job <;> cases ha : a.job <;> simp
      · exact (List.perm_append_singleton _ _).symm
      · rename_i j2 j1
        have h1 : (j1 :: (List.filterMap goroutine.job ws ++ [j2])).Perm
            (j1 :: j2 :: List.filterMap goroutine.job ws) :=
          List.Perm.cons _ (List.perm_append_singleton _ _)
        have h2 : (j2 :: (List.filterMap goroutine.job ws ++ [j1])).Perm
            (j2 :: j1 :: List.filterMap goroutine.job ws) :=
          List.Perm.cons _ (List.perm_append_singleton _ _)
        exact (h1.trans ((List.Perm.swap _ _ _).trans h2.symm)).symm
    | succ w =>
      have hw' : w < ws.length := by simpa using hw
      have := ih w y hw'
      simp only [List.set_cons_succ, List.getElem_cons_succ, carried, List.filterMap_cons]
      unfold carried at this
      cases ha : a.job
      · simpa using this
      · simpa using this

theorem liveCount_set (ws : List goroutine) (w : Nat) (y : goroutine) (hw : w < ws.length)
    (hl : (ws[w]).live = true) :
    liveCount (ws.set w y) + 1 = liveCount ws + (if y.live = true then 1 else 0) := by
  unfold liveCount
  rw [List.countP_set _ _ _ _ hw]
  have : 0 < List.countP goroutine.live ws := by
    rw [List.countP_pos_iff]
    exact ⟨ws[w], List.getElem_mem _, hl⟩
  simp only [hl, if_true]
  omega

theorem liveCount_append (ws : List goroutine) (y : goroutine) :
    liveCount (ws ++ [y]) = liveCount ws + (if y.live = true then 1 else 0) := by
  simp [liveCount, List.countP_cons]

theorem carried_append (ws : List goroutine) (y : goroutine) :
    carried (ws ++ [y]) = carried ws ++ y.job.toList := by
  unfold carried
  rw [List.filterMap_append]
  cases hy : y.job <;> simp [List.filterMap_cons, hy]

/-! ## Projections of the coordinator operations -/

@[simp] theorem notifyWatcher_obj (s : State) : (notifyWatcher s).obj = s.obj := by
  unfold notifyWatcher; split <;> rfl

@[simp] theorem notifyWatcher_next (s : State) : (notifyWatcher s).next = s.next := by
  unfold notifyWatcher; split <;> rfl

@[simp] theorem notifyWatcher_futures (s : State) :
    (notifyWatcher s).cc.futures = s.cc.futures := by
  unfold notifyWatcher; split <;> rfl

@[simp] theorem notifyWatcher_watchers (s : State) :
    (notifyWatcher s).cc.watchers = s.cc.watchers := by
  unfold notifyWatcher; split <;> rfl

@[simp] theorem notifyWatcher_workers (s : State) : (notifyWatcher s).workers = s.workers := by
  unfold notifyWatcher; split <;> rfl

@[simp] theorem notifyWatcher_calls (s : State) : (notifyWatcher s).calls = s.calls := by
  unfold notifyWatcher; split <;> rfl

@[simp] theorem notifyWatcher_heap (s : State) : (notifyWatcher s).heap = s.heap := by
  simp [State.heap]

@[simp] theorem notifyWatcher_owners (s : State) : (notifyWatcher s).owners = s.owners := by
  simp [State.owners]

theorem add_obj (s : State) (fu : Ptr) : (add s fu).obj = (heap.Push s.heap fu).obj := by
  unfold add; simp only; split <;> simp

theorem add_futures (s : State) (fu : Ptr) :
    (add s fu).cc.futures = (heap.Push s.heap fu).arr := by
  unfold add; simp only; split <;> simp

theorem add_next (s : State) (fu : Ptr) : (add s fu).next = s.next := by
  unfold add; simp only; split <;> simp

theorem add_calls (s : State) (fu : Ptr) : (add s fu).calls = s.calls := by
  unfold add; simp only; split <;> simp

theorem add_carried (s : State) (fu : Ptr) : carried (add s fu).workers = carried s.workers := by
  unfold add; simp only; split
  · simp [carried_append, goroutine.job]
  · simp

theorem add_watchers (s : State) (fu : Ptr) (h : s.cc.watchers = (liveCount s.workers : Int))
    (hc : s.cc.watchers ≤ watcherCap) :
    (add s fu).cc.watchers = (liveCount (add s fu).workers : Int) ∧
      (add s fu).cc.watchers ≤ watcherCap := by
  unfold add; simp only; split
  · rename_i h0
    simp only [liveCount_append, goroutine.live, if_true]
    rw [h0] at h
    constructor
    · push_cast; omega
    · rw [h0]; decide
  · exact ⟨by simpa using h, by simpa using hc⟩

/-! ## The invariant of the program -/

theorem Pos.congr {h h1 : futures} (hp : Pos h) (ha : h1.arr = h.arr)
    (ho : ∀ q, q ∈ h.arr → (h1.obj q).idx = (h.obj q).idx) : Pos h1 := by
  intro k hk
  have hk' : k < h.Len := by simpa [futures.Len, ha] using hk
  have e : h1.elem k = h.elem k := by simp [futures.elem, ha]
  rw [e, ho _ (elem_mem h hk')]
  exact hp k hk'

theorem Ord.transfer {h h1 : futures} (hp : Ord h.key h.Len) (ha : h1.arr = h.arr)
    (ho : ∀ q, q ∈ h.arr → (h1.obj q).fireT = (h.obj q).fireT) : Ord h1.key h1.Len := by
  have hl : h1.Len = h.Len := by simp [futures.Len, ha]
  have hk : ∀ k, k < h.Len → h1.key k = h.key k := by
    intro k hk
    have e : h1.elem k = h.elem k := by simp [futures.elem, ha]
    unfold futures.key
    rw [e, ho _ (elem_mem h hk)]
  intro k h0 hkl
  rw [hl] at hkl
  rw [hk k hkl, hk _ (by omega)]
  exact hp k h0 hkl

theorem Inv.init : Inv init := by
  have hl : Timeout.init.heap.Len = 0 := rfl
  have hf : Timeout.init.cc.futures = [] := rfl
  have hn : Timeout.init.next = 0 := rfl
  have hj : carried Timeout.init.workers ++ Timeout.init.calls = [] := rfl
  refine ⟨?_, ?_, ?_, ?_, ?_, ?_, ?_, ?_, ?_, ?_⟩
  · intro k hk; rw [hl] at hk; exact absurd hk (Nat.not_lt_zero _)
  · intro k _ hk; rw [hl] at hk; exact absurd hk (Nat.not_lt_zero _)
  · intro p hp; rw [hf] at hp; exact absurd hp (List.not_mem_nil _)
  · intro p hp; rw [hf] at hp; exact absurd hp (List.not_mem_nil _)
  · intro p _; rfl
  · rfl
  · decide
  · exact List.nodup_nil
  · intro j hj1; rw [hj] at hj1; exact absurd hj1 (List.not_mem_nil _)
  · intro p hp; rw [hn] at hp; exact absurd hp (Nat.not_lt_zero _)

/-- A step that touches only the goroutines and the record of calls. -/
theorem Inv.workers_only {s s1 : State} (hi : Inv s) (ho : s1.obj = s.obj)
    (hn : s1.next = s.next) (hf : s1.cc.futures = s.cc.futures)
    (hw : s1.cc.watchers = (liveCount s1.workers : Int)) (hc : s1.cc.watchers ≤ watcherCap)
    (hj : (carried s1.workers ++ s1.calls).Perm (carried s.workers ++ s.calls)) : Inv s1 := by
  have hh : s1.heap = s.heap := by simp [State.heap, ho, hf]
  have hown : s1.owners.Perm s.owners := hj.map _
  refine ⟨?_, ?_, ?_, ?_, ?_, hw, hc, ?_, ?_, ?_⟩
  · rw [hh]; exact hi.pos
  · rw [hh]; exact hi.ord
  · rw [hf, hn]; exact hi.bound
  · rw [hf, ho]; exact hi.nonnil
  · rw [hf, ho]; exact hi.detached
  · exact hown.symm.nodup hi.nodup
  · intro j hjm
    rw [hf, hn, ho]
    exact hi.out j (hj.mem_iff.1 hjm)
  · intro p hp hfp hnp
    rw [hn] at hp
    rw [ho] at hfp
    rw [hf] at hnp
    exact hown.mem_iff.2 (hi.fired p hp hfp hnp)

/-- Allocation of a detached entry by `Call(nil, ...)`. -/
theorem Inv.alloc_nil {s s1 : State} (hi : Inv s) (t : Int) (ho : s1.obj = allocObj s none t)
    (hn : s1.next = s.next + 1) (hc : s1.cc = s.cc) (hw : s1.workers = s.workers)
    (hl : s1.calls = s.calls) : Inv s1 := by
  have hne : ∀ q, q ∈ s.cc.futures → q ≠ s.next := fun q hq => Nat.ne_of_lt (hi.bound q hq)
  have hsame : ∀ q, q ≠ s.next → s1.obj q = s.obj q := by
    intro q hq; rw [ho]; simp [allocObj, hq]
  have hown : s1.owners = s.owners := by simp [State.owners, hw, hl]
  refine ⟨?_, ?_, ?_, ?_, ?_, ?_, ?_, ?_, ?_, ?_⟩
  · exact hi.pos.congr (by simp [State.heap, hc])
      (fun q hq => by show (s1.obj q).idx = (s.obj q).idx; rw [hsame q (hne q hq)])
  · exact hi.ord.transfer (by simp [State.heap, hc])
      (fun q hq => by show (s1.obj q).fireT = (s.obj q).fireT; rw [hsame q (hne q hq)])
  · intro p hp; rw [hc] at hp; rw [hn]; exact Nat.lt_succ_of_lt (hi.bound p hp)
  · intro p hp; rw [hc] at hp; rw [hsame p (hne p hp)]; exact hi.nonnil p hp
  · intro p hp
    rw [hc] at hp
    by_cases hpn : p = s.next
    · rw [ho, hpn]; simp [allocObj]
    · rw [hsame p hpn]; exact hi.detached p hp
  · rw [hc, hw]; exact hi.watchers
  · rw [hc]; exact hi.cap
  · rw [hown]; exact hi.nodup
  · intro j hj
    rw [hw, hl] at hj
    obtain ⟨a, b, c⟩ := hi.out j hj
    rw [hc, hn, hsame _ (Nat.ne_of_lt b)]
    exact ⟨a, Nat.lt_succ_of_lt b, c⟩
  · intro p hp hfp hnp
    rw [hown]
    rw [hc] at hnp
    by_cases hpn : p = s.next
    · rw [ho, hpn] at hfp; simp [allocObj] at hfp
    · rw [hsame p hpn] at hfp
      rw [hn] at hp
      exact hi.fired p (Nat.lt_of_le_of_ne (Nat.le_of_lt_succ hp) hpn) hfp hnp

theorem clearF_same (obj : Ptr → future) (p : Ptr) : (clearF obj p p).f = none := by
  simp [clearF]

theorem clearF_ne (obj : Ptr → future) {p q : Ptr} (h : q ≠ p) : clearF obj p q = obj q := by
  simp [clearF, h]

theorem clearF_idx (obj : Ptr → future) (p q : Ptr) : (clearF obj p q).idx = (obj q).idx := by
  unfold clearF; split <;> rfl

theorem clearF_fireT (obj : Ptr → future) (p q : Ptr) :
    (clearF obj p q).fireT = (obj q).fireT := by
  unfold clearF; split <;> rfl

theorem heap_eq {s : State} {h : futures} (ho : s.obj = h.obj) (hf : s.cc.futures = h.arr) :
    s.heap = h := by
  cases h
  simp only [State.heap] at *
  rw [ho, hf]

/-- A step that pushes the entry just allocated by `Call(f, ...)`, `f` not nil. -/
theorem Inv.added {s s1 : State} (hi : Inv s) (g : Fn) (t : Int) {h1 : futures}
    (had : Added { arr := s.cc.futures, obj := allocObj s (some g) t } h1 s.next)
    (ho : s1.obj = h1.obj) (hf : s1.cc.futures = h1.arr) (hn : s1.next = s.next + 1)
    (hw : s1.cc.watchers = (liveCount s1.workers : Int)) (hc : s1.cc.watchers ≤ watcherCap)
    (hj : carried s1.workers ++ s1.calls = carried s.workers ++ s.calls) : Inv s1 := by
  have hne : ∀ q, q ∈ s.cc.futures → q ≠ s.next := fun q hq => Nat.ne_of_lt (hi.bound q hq)
  have hal : ∀ q, q ≠ s.next → allocObj s (some g) t q = s.obj q := by
    intro q hq; simp [allocObj, hq]
  have hmem : ∀ q, q ∈ h1.arr ↔ q = s.next ∨ q ∈ s.cc.futures := by
    intro q; rw [had.perm.mem_iff]; simp
  have hown : s1.owners = s.owners := by simp [State.owners, hj]
  have hh := heap_eq ho hf
  have hord0 : Ord (futures.key { arr := s.cc.futures, obj := allocObj s (some g) t })
      (futures.Len { arr := s.cc.futures, obj := allocObj s (some g) t }) :=
    hi.ord.transfer rfl (fun q hq => by
      show (allocObj s (some g) t q).fireT = (s.obj q).fireT; rw [hal q (hne q hq)])
  refine ⟨?_, ?_, ?_, ?_, ?_, hw, hc, ?_, ?_, ?_⟩
  · rw [hh]
    exact had.pos (hi.pos.congr rfl (fun q hq => by
      show (allocObj s (some g) t q).idx = (s.obj q).idx; rw [hal q (hne q hq)]))
      (fun hm => hne _ hm rfl)
  · rw [hh]; exact had.ord hord0
  · intro q hq
    rw [hf, hmem] at hq
    rw [hn]
    rcases hq with rfl | hq
    · exact Nat.lt_succ_self _
    · exact Nat.lt_succ_of_lt (hi.bound q hq)
  · intro q hq
    rw [hf, hmem] at hq
    rw [ho, had.f]
    rcases hq with rfl | hq
    · simp [allocObj]
    · show (allocObj s (some g) t q).f ≠ none
      rw [hal q (hne q hq)]; exact hi.nonnil q hq
  · intro q hq
    rw [hf, hmem] at hq
    have h1 : q ≠ s.next := fun e => hq (Or.inl e)
    have h2 : q ∉ s.cc.futures := fun e => hq (Or.inr e)
    rw [ho, had.frame q h2 h1]
    show (allocObj s (some g) t q).idx = -1
    rw [hal q h1]; exact hi.detached q h2
  · rw [hown]; exact hi.nodup
  · intro j hjm
    rw [hj] at hjm
    obtain ⟨a, b, c⟩ := hi.out j hjm
    have h1 : j.owner ≠ s.next := Nat.ne_of_lt b
    refine ⟨?_, ?_, ?_⟩
    · rw [hf, hmem]; exact fun e => e.elim h1 a
    · rw [hn]; exact Nat.lt_succ_of_lt b
    · rw [ho, had.f]
      show (allocObj s (some g) t j.owner).f = _
      rw [hal _ h1]; exact c
  · intro q hq hfq hnq
    rw [hf, hmem] at hnq
    have h1 : q ≠ s.next := fun e => hnq (Or.inl e)
    have h2 : q ∉ s.cc.futures := fun e => hnq (Or.inr e)
    rw [ho, had.f] at hfq
    have hfq' : (allocObj s (some g) t q).f ≠ none := hfq
    rw [hal q h1] at hfq'
    rw [hn] at hq
    rw [hown]
    exact hi.fired q (Nat.lt_of_le_of_ne (Nat.le_of_lt_succ hq) h1) hfq' h2

/-- A step that removes the charged entry `p` in `cancel`. -/
theorem Inv.cancelled {s s1 : State} (hi : Inv s) {p : Ptr} {h1 : futures}
    (hr : Removed { arr := s.cc.futures, obj := clearF s.obj p } h1 p)
    (ho : s1.obj = h1.obj) (hf : s1.cc.futures = h1.arr) (hn : s1.next = s.next)
    (hw : s1.cc.watchers = s.cc.watchers) (hws : s1.workers = s.workers)
    (hl : s1.calls = s.calls) : Inv s1 := by
  have hpos0 : Pos { arr := s.cc.futures, obj := clearF s.obj p } :=
    hi.pos.congr rfl (fun q _ => clearF_idx _ _ _)
  have hord0 : Ord (futures.key { arr := s.cc.futures, obj := clearF s.obj p })
      (futures.Len { arr := s.cc.futures, obj := clearF s.obj p }) :=
    hi.ord.transfer rfl (fun q _ => clearF_fireT _ _ _)
  have hnd : (p :: h1.arr).Nodup := hr.perm.nodup hpos0.nodup
  have hpn : p ∉ h1.arr := (List.nodup_cons.1 hnd).1
  have hmem : ∀ q, q ∈ s.cc.futures ↔ q = p ∨ q ∈ h1.arr := by
    intro q
    have := hr.perm.mem_iff (a := q)
    simpa using this
  have hown : s1.owners = s.owners := by simp [State.owners, hws, hl]
  have hh := heap_eq ho hf
  refine ⟨?_, ?_, ?_, ?_, ?_, ?_, ?_, ?_, ?_, ?_⟩
  · rw [hh]; exact hr.pos hpos0
  · rw [hh]; exact hr.ord hord0
  · intro q hq
    rw [hf] at hq
    rw [hn]
    exact hi.bound q ((hmem q).2 (Or.inr hq))
  · intro q hq
    rw [hf] at hq
    have hqp : q ≠ p := fun e => hpn (e ▸ hq)
    rw [ho, hr.f]
    show (clearF s.obj p q).f ≠ none
    rw [clearF_ne _ hqp]
    exact hi.nonnil q ((hmem q).2 (Or.inr hq))
  · intro q hq
    rw [hf] at hq
    rw [ho]
    by_cases hqp : q = p
    · rw [hqp]; exact hr.idx
    · have hqn : q ∉ s.cc.futures := fun e => ((hmem q).1 e).elim hqp hq
      rw [hr.frame q hqn]
      show (clearF s.obj p q).idx = -1
      rw [clearF_idx]
      exact hi.detached q hqn
  · rw [hw, hws]; exact hi.watchers
  · rw [hw]; exact hi.cap
  · rw [hown]; exact hi.nodup
  · intro j hjm
    rw [hws, hl] at hjm
    obtain ⟨a, b, c⟩ := hi.out j hjm
    have hjp : j.owner ≠ p := fun e => a ((hmem _).2 (Or.inl e))
    refine ⟨?_, ?_, ?_⟩
    · rw [hf]; exact fun e => a ((hmem _).2 (Or.inr e))
    · rw [hn]; exact b
    · rw [ho, hr.f]
      show (clearF s.obj p j.owner).f = _
      rw [clearF_ne _ hjp]; exact c
  · intro q hq hfq hnq
    rw [hf] at hnq
    rw [ho, hr.f] at hfq
    have hfq' : (clearF s.obj p q).f ≠ none := hfq
    have hqp : q ≠ p := by
      intro e; rw [e, clearF_same] at hfq'; exact hfq' rfl
    rw [clearF_ne _ hqp] at hfq'
    rw [hn] at hq
    rw [hown]
    exact hi.fired q hq hfq' (fun e => ((hmem q).1 e).elim hqp hnq)

/-- A step in which a watcher pops the entry `r` and takes its callback. -/
theorem Inv.popped {s s1 : State} (hi : Inv s) {r : Ptr} {g : Fn} {h1 : futures}
    (hr : Removed s.heap h1 r) (hg : (s.obj r).f = some g)
    (ho : s1.obj = h1.obj) (hf : s1.cc.futures = h1.arr) (hn : s1.next = s.next)
    (hw : s1.cc.watchers = (liveCount s1.workers : Int)) (hc : s1.cc.watchers ≤ watcherCap)
    (hj : (carried s1.workers ++ s1.calls).Perm
      ({ owner := r, fn := g } :: (carried s.workers ++ s.calls))) : Inv s1 := by
  have hnd : (r :: h1.arr).Nodup := hr.perm.nodup hi.pos.nodup
  have hrn : r ∉ h1.arr := (List.nodup_cons.1 hnd).1
  have hmem : ∀ q, q ∈ s.cc.futures ↔ q = r ∨ q ∈ h1.arr := by
    intro q
    have := hr.perm.mem_iff (a := q)
    simpa [State.heap] using this
  have hrm : r ∈ s.cc.futures := (hmem r).2 (Or.inl rfl)
  have hown : s1.owners.Perm (r :: s.owners) := hj.map Job.owner
  have hh := heap_eq ho hf
  have hobj : ∀ q, (h1.obj q).f = (s.obj q).f := hr.f
  refine ⟨?_, ?_, ?_, ?_, ?_, hw, hc, ?_, ?_, ?_⟩
  · rw [hh]; exact hr.pos hi.pos
  · rw [hh]; exact hr.ord hi.ord
  · intro q hq
    rw [hf] at hq
    rw [hn]
    exact hi.bound q ((hmem q).2 (Or.inr hq))
  · intro q hq
    rw [hf] at hq
    rw [ho, hobj]
    exact hi.nonnil q ((hmem q).2 (Or.inr hq))
  · intro q hq
    rw [hf] at hq
    rw [ho]
    by_cases hqr : q = r
    · rw [hqr]; exact hr.idx
    · have hqn : q ∉ s.cc.futures := fun e => ((hmem q).1 e).elim hqr hq
      rw [hr.frame q hqn]
      exact hi.detached q hqn
  · apply hown.symm.nodup
    rw [List.nodup_cons]
    refine ⟨?_, hi.nodup⟩
    intro hm
    obtain ⟨j, hjm, hjo⟩ := List.mem_map.1 hm
    exact (hi.out j hjm).1 (hjo ▸ hrm)
  · intro j hjm
    have := hj.mem_iff.1 hjm
    rw [List.mem_cons] at this
    rcases this with rfl | hjo
    · exact ⟨by rw [hf]; exact hrn, by rw [hn]; exact hi.bound r hrm, by rw [ho, hobj]; exact hg⟩
    · obtain ⟨a, b, c⟩ := hi.out j hjo
      refine ⟨?_, ?_, ?_⟩
      · rw [hf]; exact fun e => a ((hmem _).2 (Or.inr e))
      · rw [hn]; exact b
      · rw [ho, hobj]; exact c
  · intro q hq hfq hnq
    rw [hf] at hnq
    apply hown.mem_iff.2
    rw [List.mem_cons]
    by_cases hqr : q = r
    · exact Or.inl hqr
    · right
      rw [ho, hobj] at hfq
      rw [hn] at hq
      exact hi.fired q hq hfq (fun e => ((hmem q).1 e).elim hqr hnq)

/-! ## The operations preserve the invariant -/

theorem Call_none (s : State) (timeout now : Int) :
    Call s none timeout now = (allocState s none (now + timeout), s.next) := by
  simp [Call, allocState]
  rfl

theorem Call_some (s : State) (g : Fn) (timeout now : Int) :
    Call s (some g) timeout now
      = (add (allocState s (some g) (now + timeout)) s.next, s.next) := by
  simp [Call, allocState]
  rfl

theorem Call_added {s : State} (_ : Inv s) (g : Fn) (t : Int) :
    Added { arr := s.cc.futures, obj := allocObj s (some g) t }
      (heap.Push (allocState s (some g) t).heap s.next) s.next := by
  exact Push_spec _ _

theorem Inv.Call {s : State} (hi : Inv s) (f : Option Fn) (timeout now : Int) :
    Inv (Call s f timeout now).1 := by
  cases f with
  | none =>
    rw [Call_none]
    exact hi.alloc_nil (now + timeout) rfl rfl rfl rfl rfl
  | some g =>
    rw [Call_some]
    have hw := add_watchers (allocState s (some g) (now + timeout)) s.next hi.watchers hi.cap
    refine hi.added g (now + timeout) (Call_added hi g (now + timeout))
      (add_obj _ _) (add_futures _ _) (add_next _ _) hw.1 hw.2 ?_
    rw [add_carried, add_calls]
    rfl

/-- A charged entry sits in the slot its `idx` names. -/
theorem Inv.slot {s : State} (hi : Inv s) {p : Ptr} (hp : 0 ≤ (s.obj p).idx) :
    ∃ k, k < s.heap.Len ∧ s.heap.elem k = p ∧ (s.obj p).idx = (k : Int) := by
  have hm : p ∈ s.cc.futures := by
    by_contra hn
    have := hi.detached p hn
    omega
  obtain ⟨k, hk, e⟩ := (mem_iff_elem s.heap p).1 hm
  refine ⟨k, hk, e, ?_⟩
  have := hi.pos k hk
  rw [e] at this
  exact this

theorem cancel_charged {s : State} (hi : Inv s) {p : Ptr} (hp : 0 ≤ (s.obj p).idx) :
    ∃ h1, Removed { arr := s.cc.futures, obj := clearF s.obj p } h1 p ∧
      cancel s p = some (cancelResult s h1) := by
  obtain ⟨k, hk, e, hidx⟩ := hi.slot hp
  have hpos0 : Pos { arr := s.cc.futures, obj := clearF s.obj p } :=
    hi.pos.congr rfl (fun q _ => clearF_idx _ _ _)
  obtain ⟨h1, hrm, hrem⟩ :=
    @Remove_spec { arr := s.cc.futures, obj := clearF s.obj p } k hk
  have e0 : futures.elem { arr := s.cc.futures, obj := clearF s.obj p } k = p := e
  rw [e0] at hrm hrem
  refine ⟨h1, hrem, ?_⟩
  unfold cancel
  rw [if_neg (by omega)]
  simp only [clearF_idx, hidx, hrm]
  rfl

theorem cancel_detached (s : State) {p : Ptr} (hp : (s.obj p).idx < 0) :
    cancel s p = some s := by
  unfold cancel
  rw [if_pos hp]

theorem cancelResult_inv {s : State} (hi : Inv s) {p : Ptr} {h1 : futures}
    (hr : Removed { arr := s.cc.futures, obj := clearF s.obj p } h1 p) :
    Inv (cancelResult s h1) := by
  apply hi.cancelled hr <;> (unfold cancelResult; simp only; split <;> simp)

theorem Inv.cancel {s s1 : State} (hi : Inv s) {p : Ptr} (h : cancel s p = some s1) :
    Inv s1 := by
  by_cases hp : (s.obj p).idx < 0
  · rw [cancel_detached s hp] at h
    cases h
    exact hi
  · obtain ⟨h1, hr, e⟩ := cancel_charged hi (p := p) (by omega)
    rw [e] at h
    cases h
    exact cancelResult_inv hi hr

theorem watcherLocked_cases {s : State} (hi : Inv s) (mis : Bool) (now : Int) :
    (watcherLocked s mis now = some (exitResult s, Outcome.exit) ∧
        (s.heap.Len = 0 ∨ ¬ (s.obj (s.heap.elem 0)).fireT < now) ∧
        (1 < s.cc.watchers ∨ (s.heap.Len = 0 ∧ mis = true))) ∨
      (∃ m t, watcherLocked s mis now = some (s, Outcome.wait m t) ∧
        (s.heap.Len = 0 ∨ ¬ (s.obj (s.heap.elem 0)).fireT < now)) ∨
      (∃ h1 g, Removed s.heap h1 (s.heap.elem 0) ∧ s.heap.Len ≠ 0 ∧
        (s.obj (s.heap.elem 0)).fireT < now ∧ (s.obj (s.heap.elem 0)).f = some g ∧
        watcherLocked s mis now = some (popResult s h1,
          Outcome.cont (some { owner := s.heap.elem 0, fn := g })
            (decide (s.cc.watchers < watcherCap)))) := by
  unfold watcherLocked
  by_cases hl : s.heap.Len = 0
  · rw [if_pos hl]
    by_cases hc : s.cc.watchers > 1 ∨ mis = true
    · rw [if_pos hc]
      left
      refine ⟨rfl, Or.inl hl, ?_⟩
      rcases hc with hc | hc
      · exact Or.inl hc
      · exact Or.inr ⟨hl, hc⟩
    · rw [if_neg hc]
      exact Or.inr (Or.inl ⟨_, _, rfl, Or.inl hl⟩)
  · rw [if_neg hl]
    simp only
    by_cases hd : (s.obj (s.heap.elem 0)).fireT < now
    · rw [if_pos hd]
      right; right
      obtain ⟨h1, hp, hr⟩ := Pop_spec hl
      have hm : s.heap.elem 0 ∈ s.cc.futures := elem_mem s.heap (by omega)
      obtain ⟨g, hg⟩ := Option.ne_none_iff_exists'.1 (hi.nonnil _ hm)
      refine ⟨h1, g, hr, hl, hd, hg, ?_⟩
      rw [hp]
      simp only
      have hf : (h1.obj (s.heap.elem 0)).f = some g := by
        rw [hr.f]; exact hg
      rw [hf]
      unfold popResult
      simp only [Option.map_some']
      split <;> rename_i hc <;> simp [hc]
    · rw [if_neg hd]
      by_cases hc : s.cc.watchers > 1
      · rw [if_pos hc]
        exact Or.inl ⟨rfl, Or.inr hd, Or.inl hc⟩
      · rw [if_neg hc]
        exact Or.inr (Or.inl ⟨_, _, rfl, Or.inr hd⟩)

theorem Frame.same (s : State) : Frame s s :=
  ⟨Nat.le_refl _, fun _ _ => rfl, fun _ _ h => h, fun _ _ h => h⟩

theorem Frame.chain {s s1 s2 : State} (a : Frame s s1) (b : Frame s1 s2) : Frame s s2 :=
  ⟨Nat.le_trans a.next b.next,
    fun q hq => (b.fireT q (Nat.lt_of_lt_of_le hq a.next)).trans (a.fireT q hq),
    fun q hq h => b.fnone q (Nat.lt_of_lt_of_le hq a.next) (a.fnone q hq h),
    fun q hq h => a.pend q hq (b.pend q (Nat.lt_of_lt_of_le hq a.next) h)⟩

theorem Frame.workers {s s1 : State} (ho : s1.obj = s.obj) (hn : s1.next = s.next)
    (hf : s1.cc.futures = s.cc.futures) : Frame s s1 :=
  ⟨by rw [hn], fun _ _ => by rw [ho], fun _ _ h => by rw [ho]; exact h,
    fun _ _ h => by rw [hf] at h; exact h⟩

theorem Frame.removed {s s1 : State} {h0 h1 : futures} {r : Ptr} (hr : Removed h0 h1 r)
    (ha : h0.arr = s.cc.futures) (hfi : ∀ q, (h0.obj q).fireT = (s.obj q).fireT)
    (hfn : ∀ q, (s.obj q).f = none → (h0.obj q).f = none)
    (ho : s1.obj = h1.obj) (hf : s1.cc.futures = h1.arr) (hn : s1.next = s.next) :
    Frame s s1 := by
  refine ⟨by rw [hn], ?_, ?_, ?_⟩
  · intro q _; rw [ho, hr.fireT, hfi]
  · intro q _ h; rw [ho, hr.f]; exact hfn q h
  · intro q _ h
    rw [hf] at h
    rw [← ha]
    exact hr.perm.mem_iff.2 (List.mem_cons_of_mem _ h)

theorem worker_set {ws : List goroutine} {w : Nat} {x : goroutine} (y : goroutine)
    (hx : ws.getD w goroutine.done = x) (hl : x.live = true) :
    (liveCount (ws.set w y) : Int) = liveCount ws - 1 + (if y.live = true then 1 else 0) ∧
      (carried (ws.set w y) ++ x.job.toList).Perm (carried ws ++ y.job.toList) ∧
      ∀ j, j ∈ x.job.toList → j ∈ carried ws := by
  have hne : ws.getD w goroutine.done ≠ goroutine.done := by
    rw [hx]; intro e; rw [e] at hl; exact absurd hl (by decide)
  have hw := getD_lt hne
  have he : ws[w] = x := by rw [← getD_getElem hw]; exact hx
  refine ⟨?_, ?_, ?_⟩
  · have := liveCount_set ws w y hw (by rw [he]; exact hl)
    by_cases hy : y.live = true
    · simp only [hy, ↓reduceIte] at this ⊢; omega
    · simp only [hy, ↓reduceIte, Bool.false_eq_true] at this ⊢; omega
  · have := carried_set ws w y hw
    rw [he] at this
    exact this
  · intro j hj
    unfold carried
    rw [List.mem_filterMap]
    refine ⟨x, he ▸ List.getElem_mem _, ?_⟩
    cases hxj : x.job with
    | none => rw [hxj] at hj; simp at hj
    | some j1 =>
      rw [hxj] at hj
      simp at hj
      rw [hj]

theorem Frame.ofCall (s : State) (hi : Inv s) (f : Option Fn) (timeout now : Int) :
    Frame s (Call s f timeout now).1 := by
  cases f with
  | none =>
    rw [Call_none]
    refine ⟨Nat.le_succ _, ?_, ?_, fun _ _ h => h⟩
    · intro q hq
      show (allocObj s none (now + timeout) q).fireT = _
      simp [allocObj, Nat.ne_of_lt hq]
    · intro q hq h
      show (allocObj s none (now + timeout) q).f = _
      simp [allocObj, Nat.ne_of_lt hq, h]
  | some g =>
    rw [Call_some]
    have had := Call_added hi g (now + timeout)
    refine ⟨?_, ?_, ?_, ?_⟩
    · rw [add_next]; exact Nat.le_succ _
    · intro q hq
      rw [add_obj, had.fireT]
      show (allocObj s (some g) (now + timeout) q).fireT = _
      simp [allocObj, Nat.ne_of_lt hq]
    · intro q hq h
      rw [add_obj, had.f]
      show (allocObj s (some g) (now + timeout) q).f = _
      simp [allocObj, Nat.ne_of_lt hq, h]
    · intro q hq h
      rw [add_futures] at h
      have := had.perm.mem_iff.1 h
      rw [List.mem_cons] at this
      rcases this with e | e
      · exact absurd e (Nat.ne_of_lt hq)
      · exact e

theorem cancelResult_frame {s : State} {p : Ptr} {h1 : futures}
    (hr : Removed { arr := s.cc.futures, obj := clearF s.obj p } h1 p) :
    Frame s (cancelResult s h1) := by
  apply Frame.removed hr rfl (fun q => clearF_fireT _ _ _)
  · intro q h
    show (clearF s.obj p q).f = none
    by_cases hq : q = p
    · rw [hq]; exact clearF_same _ _
    · rw [clearF_ne _ hq]; exact h
  all_goals (unfold cancelResult; simp only; split <;> simp)

theorem popResult_fields (s : State) (h1 : futures) :
    (popResult s h1).obj = h1.obj ∧ (popResult s h1).cc.futures = h1.arr ∧
      (popResult s h1).next = s.next ∧ (popResult s h1).calls = s.calls ∧
      (popResult s h1).workers = s.workers ∧
      (popResult s h1).cc.watchers
        = s.cc.watchers + (if s.cc.watchers < watcherCap then 1 else 0) ∧
      (popResult s h1).cc.wakeCh = s.cc.wakeCh := by
  unfold popResult
  simp only
  split <;> simp

/-- Every step keeps the invariant and leaves the earlier entries in place. -/
theorem step_spec {s s1 : State} (hi : Inv s) (a : Action) (h : step s a = some s1) :
    Inv s1 ∧ Frame s s1 := by
  cases a with
  | call f timeout now =>
    simp only [step, Option.some.injEq] at h
    subst h
    exact ⟨hi.Call f timeout now, Frame.ofCall s hi f timeout now⟩
  | cancel fu =>
    simp only [step] at h
    split at h
    · by_cases hp : (s.obj fu).idx < 0
      · rw [cancel_detached s hp] at h
        cases h
        exact ⟨hi, Frame.same s⟩
      · obtain ⟨h1, hr, e⟩ := cancel_charged hi (p := fu) (by omega)
        rw [e] at h
        cases h
        exact ⟨cancelResult_inv hi hr, cancelResult_frame hr⟩
    · cases h
      exact ⟨hi, Frame.same s⟩
  | invoke w =>
    simp only [step] at h
    split at h
    · rename_i f mis hx
      cases h
      obtain ⟨h1, h2, h3⟩ := worker_set (goroutine.locking mis) hx rfl
      refine ⟨hi.workers_only rfl rfl rfl ?_ hi.cap ?_, Frame.workers rfl rfl rfl⟩
      · show s.cc.watchers = _
        rw [h1, hi.watchers]; simp [goroutine.live]
      · show (carried (s.workers.set w (goroutine.locking mis)) ++ (s.calls ++ f.toList)).Perm _
        have h4 : (carried (s.workers.set w (goroutine.locking mis)) ++ (s.calls ++ f.toList)).Perm
            ((carried (s.workers.set w (goroutine.locking mis)) ++ f.toList) ++ s.calls) := by
          rw [List.append_assoc]
          exact List.Perm.append_left _ List.perm_append_comm
        have h5 := h2.append_right s.calls
        simp only [goroutine.job, Option.toList, List.append_nil] at h5
        exact h4.trans h5
    all_goals (cases h; exact ⟨hi, Frame.same s⟩)
  | lock w now =>
    simp only [step] at h
    split at h
    · rename_i mis hx
      rcases watcherLocked_cases hi mis now with ⟨e, _, _⟩ | ⟨m, t, e, _⟩ | ⟨h1, g, hr, _, _, hg, e⟩
      · rw [e] at h
        simp only [Option.some.injEq] at h
        subst h
        obtain ⟨h1, h2, _⟩ := worker_set goroutine.done hx rfl
        refine ⟨hi.workers_only rfl rfl rfl ?_ ?_ ?_, Frame.workers rfl rfl rfl⟩
        · show s.cc.watchers - 1 = (liveCount (s.workers.set w goroutine.done) : Int)
          rw [h1, hi.watchers]; simp [goroutine.live]
        · show s.cc.watchers - 1 ≤ watcherCap
          have := hi.cap; omega
        · have h2' : (carried (s.workers.set w goroutine.done)).Perm (carried s.workers) := by
            simpa [goroutine.job] using h2
          exact h2'.append_right s.calls
      · rw [e] at h
        simp only [Option.some.injEq] at h
        subst h
        obtain ⟨h1, h2, _⟩ := worker_set (goroutine.waiting m t) hx rfl
        refine ⟨hi.workers_only rfl rfl rfl ?_ hi.cap ?_, Frame.workers rfl rfl rfl⟩
        · show s.cc.watchers = (liveCount (s.workers.set w (goroutine.waiting m t)) : Int)
          rw [h1, hi.watchers]; simp [goroutine.live]
        · have h2' : (carried (s.workers.set w (goroutine.waiting m t))).Perm
              (carried s.workers) := by
            simpa [goroutine.job] using h2
          exact h2'.append_right s.calls
      · rw [e] at h
        obtain ⟨f1, f2, f3, f4, f5, f6, _⟩ := popResult_fields s h1
        have hfr : ∀ s2 : State, s2.obj = (popResult s h1).obj →
            s2.cc.futures = (popResult s h1).cc.futures → s2.next = (popResult s h1).next →
            Frame s s2 := by
          intro s2 a b c
          exact Frame.removed hr rfl (fun _ => rfl) (fun _ hq => hq) (a.trans f1) (b.trans f2)
            (c.trans f3)
        by_cases hc : s.cc.watchers < watcherCap
        · simp only [hc, decide_True, Option.some.injEq] at h
          subst h
          obtain ⟨h2, h3, _⟩ := worker_set (goroutine.top none false) hx rfl
          refine ⟨hi.popped hr hg f1 f2 f3 ?_ ?_ ?_, hfr _ rfl rfl rfl⟩
          · show (popResult s h1).cc.watchers = _
            rw [f6, if_pos hc, f5, liveCount_append, hi.watchers]
            simp only [goroutine.live, ↓reduceIte] at h2 ⊢
            push_cast
            omega
          · show (popResult s h1).cc.watchers ≤ _
            rw [f6, if_pos hc]; omega
          · show (carried ((popResult s h1).workers.set w (goroutine.top none false)
              ++ [goroutine.top (some { owner := s.heap.elem 0, fn := g }) false])
              ++ (popResult s h1).calls).Perm _
            rw [f5, f4, carried_append]
            simp only [goroutine.job, Option.toList, List.append_nil] at h3 ⊢
            have h4 := (h3.append_right [{ owner := s.heap.elem 0, fn := g }]).append_right
              s.calls
            refine h4.trans ?_
            rw [List.append_assoc]
            exact List.perm_middle
        · simp only [hc, decide_False, Option.some.injEq] at h
          subst h
          obtain ⟨h2, h3, _⟩ :=
            worker_set (goroutine.top (some { owner := s.heap.elem 0, fn := g }) false) hx rfl
          refine ⟨hi.popped hr hg f1 f2 f3 ?_ ?_ ?_, hfr _ rfl rfl rfl⟩
          · show (popResult s h1).cc.watchers = _
            rw [f6, if_neg hc, f5, hi.watchers]
            simp only [goroutine.live, ↓reduceIte] at h2 ⊢
            omega
          · show (popResult s h1).cc.watchers ≤ _
            rw [f6, if_neg hc]; simpa using hi.cap
          · show (carried ((popResult s h1).workers.set w
              (goroutine.top (some { owner := s.heap.elem 0, fn := g }) false))
              ++ (popResult s h1).calls).Perm _
            rw [f5, f4]
            simp only [goroutine.job, Option.toList, List.append_nil] at h3
            refine (h3.append_right s.calls).trans ?_
            rw [List.append_assoc]
            exact List.perm_middle
    all_goals (cases h; exact ⟨hi, Frame.same s⟩)
  | timer w =>
    simp only [step] at h
    split at h
    · rename_i mis tmt hx
      cases h
      obtain ⟨h1, h2, _⟩ := worker_set (goroutine.top none mis) hx rfl
      refine ⟨hi.workers_only rfl rfl rfl ?_ hi.cap ?_, Frame.workers rfl rfl rfl⟩
      · show s.cc.watchers = (liveCount (s.workers.set w (goroutine.top none mis)) : Int)
        rw [h1, hi.watchers]; simp [goroutine.live]
      · have h2' : (carried (s.workers.set w (goroutine.top none mis))).Perm
            (carried s.workers) := by
          simpa [goroutine.job] using h2
        exact h2'.append_right s.calls
    all_goals (cases h; exact ⟨hi, Frame.same s⟩)
  | wake w =>
    simp only [step] at h
    split at h
    · rename_i mis tmt hx
      split at h
      · cases h
        obtain ⟨h1, h2, _⟩ := worker_set (goroutine.top none false) hx rfl
        refine ⟨hi.workers_only rfl rfl rfl ?_ hi.cap ?_, Frame.workers rfl rfl rfl⟩
        · show s.cc.watchers = (liveCount (s.workers.set w (goroutine.top none false)) : Int)
          rw [h1, hi.watchers]; simp [goroutine.live]
        · have h2' : (carried (s.workers.set w (goroutine.top none false))).Perm
              (carried s.workers) := by
            simpa [goroutine.job] using h2
          exact h2'.append_right s.calls
      · cases h; exact ⟨hi, Frame.same s⟩
    all_goals (cases h; exact ⟨hi, Frame.same s⟩)

theorem Reachable.inv {s : State} (hr : Reachable s) : Inv s := by
  induction hr with
  | init => exact Inv.init
  | step a _ h ih => exact (step_spec ih a h).1

theorem run_spec : ∀ (acts : List Action) {s s1 : State}, Inv s → run s acts = some s1 →
    Inv s1 ∧ Frame s s1 := by
  intro acts
  induction acts with
  | nil =>
    intro s s1 hi h
    simp only [run, Option.some.injEq] at h
    subst h
    exact ⟨hi, Frame.same s⟩
  | cons a as ih =>
    intro s s1 hi h
    simp only [run] at h
    cases hs : step s a with
    | none => rw [hs] at h; simp at h
    | some s0 =>
      rw [hs] at h
      simp only [Option.some_bind] at h
      obtain ⟨i0, f0⟩ := step_spec hi a hs
      obtain ⟨i1, f1⟩ := ih i0 h
      exact ⟨i1, f0.chain f1⟩

theorem Reachable.run : ∀ (acts : List Action) {s s1 : State}, Reachable s →
    run s acts = some s1 → Reachable s1 := by
  intro acts
  induction acts with
  | nil =>
    intro s s1 hr h
    simp only [Timeout.run, Option.some.injEq] at h
    subst h
    exact hr
  | cons a as ih =>
    intro s s1 hr h
    simp only [Timeout.run] at h
    cases hs : Timeout.step s a with
    | none => rw [hs] at h; simp at h
    | some s0 =>
      rw [hs] at h
      simp only [Option.some_bind] at h
      exact ih (Reachable.step a hr hs) h

theorem exOne_reachable : Reachable exOne :=
  Reachable.step (Action.call (some 7) 5 0) Reachable.init rfl

theorem cancel_charged_spec {s : State} (hi : Inv s) {p : Ptr} (hp : 0 ≤ (s.obj p).idx) :
    ∃ s1, cancel s p = some s1 ∧ Inv s1 ∧ Frame s s1 ∧ s.cc.futures.Perm (p :: s1.cc.futures) ∧
      p ∉ s1.cc.futures ∧ (s1.obj p).f = none ∧ (s1.obj p).idx = -1 := by
  obtain ⟨h1, hr, e⟩ := cancel_charged hi hp
  have hpos0 : Pos { arr := s.cc.futures, obj := clearF s.obj p } :=
    hi.pos.congr rfl (fun q _ => clearF_idx _ _ _)
  have hnd : (p :: h1.arr).Nodup := hr.perm.nodup hpos0.nodup
  have ho : (cancelResult s h1).obj = h1.obj := by
    unfold cancelResult; simp only; split <;> simp
  have hf : (cancelResult s h1).cc.futures = h1.arr := by
    unfold cancelResult; simp only; split <;> simp
  refine ⟨_, e, cancelResult_inv hi hr, cancelResult_frame hr, ?_, ?_, ?_, ?_⟩
  · rw [hf]; exact hr.perm
  · rw [hf]; exact (List.nodup_cons.1 hnd).1
  · rw [ho, hr.f]; exact clearF_same _ _
  · rw [ho]; exact hr.idx

/-- Claim C1: in a reachable state, cancelling an entry that is charged
(`idx >= 0`) succeeds, and in every continuation of the execution no watcher
holds that entry's callback and the record of invocations has none for that
entry: a callback never fires after a successful cancel. -/
theorem C1_no_fire_after_cancel (s : State) (hs : Reachable s) (e : Ptr)
    (hc : 0 ≤ (s.obj e).idx) :
    ∃ s1, cancel s e = some s1 ∧
      ∀ (acts : List Action) (s2 : State), run s1 acts = some s2 →
        (∀ j, j ∈ s2.calls → j.owner ≠ e) ∧ (∀ j, j ∈ carried s2.workers → j.owner ≠ e) := by
  obtain ⟨s1, h1, i1, _, hperm, _, hf, _⟩ := cancel_charged_spec hs.inv hc
  refine ⟨s1, h1, ?_⟩
  intro acts s2 hrun
  obtain ⟨i2, f2⟩ := run_spec acts i1 hrun
  have hlt : e < s1.next := by
    have := (step_spec hs.inv (Action.cancel e) (by
      show (if e < s.next then cancel s e else some s) = some s1
      rw [if_pos (hs.inv.bound e (hperm.mem_iff.2 (List.mem_cons_self _ _)))]
      exact h1)).2.next
    exact Nat.lt_of_lt_of_le (hs.inv.bound e (hperm.mem_iff.2 (List.mem_cons_self _ _))) this
  have hnone : (s2.obj e).f = none := f2.fnone e hlt hf
  have key : ∀ j, j ∈ carried s2.workers ++ s2.calls → j.owner ≠ e := by
    intro j hj he
    have := (i2.out j hj).2.2
    rw [he, hnone] at this
    exact Option.noConfusion this
  exact ⟨fun j hj => key j (List.mem_append_right _ hj),
    fun j hj => key j (List.mem_append_left _ hj)⟩

theorem C1_no_fire_after_cancel_witness :
    Reachable exOne ∧ 0 ≤ (exOne.obj 0).idx ∧
      ∃ s1, cancel exOne 0 = some s1 ∧
        ∀ (acts : List Action) (s2 : State), run s1 acts = some s2 →
          (∀ j, j ∈ s2.calls → j.owner ≠ 0) ∧ (∀ j, j ∈ carried s2.workers → j.owner ≠ 0) :=
  ⟨exOne_reachable, by decide,
    C1_no_fire_after_cancel exOne exOne_reachable 0 (by decide)⟩

/-- Claim C2: in a reachable state, `cancel` of a charged entry `e` (`idx >= 0`)
returns a state in which `e`, pending before, is no longer in the Pending Set,
its callback is nil, its `idx` is the sentinel -1, and the Pending Set is
exactly one element shorter. -/
theorem C2_cancel_removes_entry (s : State) (hs : Reachable s) (e : Ptr)
    (hc : 0 ≤ (s.obj e).idx) :
    ∃ s1, cancel s e = some s1 ∧ e ∈ s.cc.futures ∧ e ∉ s1.cc.futures ∧
      (s1.obj e).f = none ∧ (s1.obj e).idx = -1 ∧
      s1.cc.futures.length + 1 = s.cc.futures.length := by
  obtain ⟨s1, h1, _, _, hperm, hn, hf, hi⟩ := cancel_charged_spec hs.inv hc
  refine ⟨s1, h1, hperm.mem_iff.2 (List.mem_cons_self _ _), hn, hf, hi, ?_⟩
  have := hperm.length_eq
  simpa using this.symm

theorem C2_cancel_removes_entry_witness :
    Reachable exOne ∧ 0 ≤ (exOne.obj 0).idx ∧
      ∃ s1, cancel exOne 0 = some s1 ∧ 0 ∈ exOne.cc.futures ∧ 0 ∉ s1.cc.futures ∧
        (s1.obj 0).f = none ∧ (s1.obj 0).idx = -1 ∧
        s1.cc.futures.length + 1 = exOne.cc.futures.length :=
  ⟨exOne_reachable, by decide, C2_cancel_removes_entry exOne exOne_reachable 0 (by decide)⟩

/-- Claim C5: cancel is idempotent. In a reachable state, `cancel` of any entry
returns a state, and cancelling the same entry again returns that very state
(Pending Set, entry fields, active-worker count and wake signals all equal). -/
theorem C5_cancel_idempotent (s : State) (hs : Reachable s) (e : Ptr) :
    ∃ s1, cancel s e = some s1 ∧ cancel s1 e = some s1 := by
  by_cases hp : (s.obj e).idx < 0
  · exact ⟨s, cancel_detached s hp, cancel_detached s hp⟩
  · obtain ⟨s1, h1, _, _, _, _, _, hi⟩ := cancel_charged_spec hs.inv (p := e) (by omega)
    exact ⟨s1, h1, cancel_detached s1 (by rw [hi]; decide)⟩

theorem C5_cancel_idempotent_witness :
    Reachable exOne ∧ ∃ s1, cancel exOne 0 = some s1 ∧ cancel s1 0 = some s1 :=
  ⟨exOne_reachable, C5_cancel_idempotent exOne exOne_reachable 0⟩

/-- Claim C7: in every state and for every delay, `Call(nil, delay)` leaves the
coordinator (Pending Set, active-worker count, wake signals), the goroutines,
the record of invocations and every other entry as they were, and returns a
handle with `idx = -1`; any number of `Cancel` calls on that handle then
return the state unchanged. -/
theorem C7_nil_call_detached (s : State) (delay now : Int) (n : Nat) :
    (Call s none delay now).1.cc = s.cc ∧
      (Call s none delay now).1.workers = s.workers ∧
      (Call s none delay now).1.calls = s.calls ∧
      (∀ q, q ≠ (Call s none delay now).2 → (Call s none delay now).1.obj q = s.obj q) ∧
      ((Call s none delay now).1.obj (Call s none delay now).2).idx = -1 ∧
      cancelN (Call s none delay now).2 n (Call s none delay now).1
        = some (Call s none delay now).1 := by
  rw [Call_none]
  have hidx : ((allocState s none (now + delay)).obj s.next).idx = -1 := by
    simp [allocState, allocObj]
  refine ⟨rfl, rfl, rfl, ?_, hidx, ?_⟩
  · intro q hq
    show allocObj s none (now + delay) q = s.obj q
    simp only [allocObj]
    rw [if_neg hq]
  · induction n with
    | zero => rfl
    | succ n ih =>
      simp only [cancelN]
      rw [cancel_detached _ (by rw [hidx]; decide)]
      exact ih

/-- In a reachable state the handle returned by `Call` is not yet in the Pending Set. -/
theorem Call_fresh (s : State) (hs : Reachable s) (f : Option Fn) (delay now : Int) :
    (Call s f delay now).2 ∉ s.cc.futures := by
  have : (Call s f delay now).2 = s.next := by cases f <;> rfl
  rw [this]
  intro hm
  exact absurd (hs.inv.bound _ hm) (Nat.lt_irrefl _)

/-- Claim C8: in a reachable state, `Call(f, d)` with `f` not nil at clock `t0`,
for any delay `d` of either sign, returns an entry that is charged: it sits in
the Pending Set at the slot its `idx >= 0` names, carries callback `f` and
`fireT = t0 + d`, and the Pending Set is the old one with exactly that entry
added. -/
theorem C8_call_charges_entry (s : State) (hs : Reachable s) (f : Fn) (d t0 : Int) :
    ∃ k : Nat, ((Call s (some f) d t0).1.obj (Call s (some f) d t0).2).idx = (k : Int) ∧
      (Call s (some f) d t0).1.cc.futures[k]? = some (Call s (some f) d t0).2 ∧
      ((Call s (some f) d t0).1.obj (Call s (some f) d t0).2).f = some f ∧
      ((Call s (some f) d t0).1.obj (Call s (some f) d t0).2).fireT = t0 + d ∧
      (Call s (some f) d t0).2 ∉ s.cc.futures ∧
      (Call s (some f) d t0).1.cc.futures.Perm ((Call s (some f) d t0).2 :: s.cc.futures) := by
  have hi := hs.inv
  have had := Call_added hi f (t0 + d)
  have hi1 := hi.Call (some f) d t0
  rw [Call_some] at hi1 ⊢
  simp only
  have hm : s.next ∈ (add (allocState s (some f) (t0 + d)) s.next).cc.futures := by
    rw [add_futures]
    exact had.perm.mem_iff.2 (List.mem_cons_self _ _)
  obtain ⟨k, hk, hek⟩ :=
    (mem_iff_elem (add (allocState s (some f) (t0 + d)) s.next).heap s.next).1 hm
  have hpk := hi1.pos k hk
  rw [hek] at hpk
  refine ⟨k, hpk, ?_, ?_, ?_, ?_, ?_⟩
  · have hk' : k < (add (allocState s (some f) (t0 + d)) s.next).cc.futures.length := hk
    rw [List.getElem?_eq_getElem hk']
    have hel := elem_eq_getElem (add (allocState s (some f) (t0 + d)) s.next).heap hk
    rw [hek] at hel
    exact congrArg some hel.symm
  · rw [add_obj, had.f]
    simp [allocObj]
  · rw [add_obj, had.fireT]
    simp [allocObj]
  · intro hm0
    exact absurd (hi.bound _ hm0) (Nat.lt_irrefl _)
  · rw [add_futures]
    exact had.perm

theorem C8_call_charges_entry_witness :
    Reachable exOne ∧
      ∃ k : Nat, ((Call exOne (some 9) (-2) 1).1.obj (Call exOne (some 9) (-2) 1).2).idx = (k : Int) ∧
      (Call exOne (some 9) (-2) 1).1.cc.futures[k]? = some (Call exOne (some 9) (-2) 1).2 ∧
      ((Call exOne (some 9) (-2) 1).1.obj (Call exOne (some 9) (-2) 1).2).f = some 9 ∧
      ((Call exOne (some 9) (-2) 1).1.obj (Call exOne (some 9) (-2) 1).2).fireT = 1 + -2 ∧
      (Call exOne (some 9) (-2) 1).2 ∉ exOne.cc.futures ∧
      (Call exOne (some 9) (-2) 1).1.cc.futures.Perm
        ((Call exOne (some 9) (-2) 1).2 :: exOne.cc.futures) :=
  ⟨exOne_reachable, C8_call_charges_entry exOne exOne_reachable 9 (-2) 1⟩

/-- Claim C10: in every state reachable from the initial state by `Call` (hence
`add`), `Cancel` and watcher steps, the active-worker count is between 0 and
the cap 10. -/
theorem C10_watchers_bounded (s : State) (hs : Reachable s) :
    0 ≤ s.cc.watchers ∧ s.cc.watchers ≤ 10 := by
  have hi := hs.inv
  refine ⟨?_, hi.cap⟩
  rw [hi.watchers]
  exact Int.ofNat_nonneg _

theorem C10_watchers_bounded_witness :
    Reachable exOne ∧ 0 ≤ exOne.cc.watchers ∧ exOne.cc.watchers ≤ 10 :=
  ⟨exOne_reachable, C10_watchers_bounded exOne exOne_reachable⟩

/-- What a pass through the critical section does to the Pending Set: nothing,
or it takes out the root, whose fire time is then before the clock reading. -/
theorem lock_pending {s s1 : State} (hi : Inv s) (w : Nat) (now : Int)
    (h : step s (Action.lock w now) = some s1) :
    s1.cc.futures = s.cc.futures ∨
      (s.heap.Len ≠ 0 ∧ (s.obj (s.heap.elem 0)).fireT < now ∧
        s.cc.futures.Perm (s.heap.elem 0 :: s1.cc.futures)) := by
  simp only [step] at h
  split at h
  · rename_i mis hx
    rcases watcherLocked_cases hi mis now with ⟨e, _, _⟩ | ⟨m, t, e, _⟩ | ⟨h1, g, hr, hl, hd, _, e⟩
    · rw [e] at h
      simp only [Option.some.injEq] at h
      subst h
      exact Or.inl rfl
    · rw [e] at h
      simp only [Option.some.injEq] at h
      subst h
      exact Or.inl rfl
    · rw [e] at h
      obtain ⟨_, f2, _⟩ := popResult_fields s h1
      right
      refine ⟨hl, hd, ?_⟩
      by_cases hc : s.cc.watchers < watcherCap
      · simp only [hc, decide_True, Option.some.injEq] at h
        subst h
        show s.cc.futures.Perm (s.heap.elem 0 :: (popResult s h1).cc.futures)
        rw [f2]; exact hr.perm
      · simp only [hc, decide_False, Option.some.injEq] at h
        subst h
        show s.cc.futures.Perm (s.heap.elem 0 :: (popResult s h1).cc.futures)
        rw [f2]; exact hr.perm
  all_goals (cases h; exact Or.inl rfl)

theorem Call_fireT {s : State} (hi : Inv s) (f : Option Fn) (d t0 : Int) :
    (Call s f d t0).2 = s.next ∧ s.next < (Call s f d t0).1.next ∧
      ((Call s f d t0).1.obj s.next).fireT = t0 + d := by
  cases f with
  | none =>
    rw [Call_none]
    exact ⟨rfl, Nat.lt_succ_self _, by simp [allocState, allocObj]⟩
  | some g =>
    rw [Call_some]
    refine ⟨rfl, by rw [add_next]; exact Nat.lt_succ_self _, ?_⟩
    show ((add (allocState s (some g) (t0 + d)) s.next).obj s.next).fireT = t0 + d
    rw [add_obj, (Call_added hi g (t0 + d)).fireT]
    simp [allocObj]

theorem exLocking_reachable : Reachable exLocking :=
  Reachable.run [Action.call (some 7) 5 0, Action.invoke 0] Reachable.init rfl

/-- Claim C3: take an entry scheduled by `Call` at clock `t0` with delay `d`
in a reachable state, any continuation of the execution, and a watcher
critical section at clock `now` that takes that entry out of the Pending Set.
The entry's `fireT` is `t0 + d`, still so when it is popped, and
`t0 + d <= now`: a callback is never popped for firing before its fire time. -/
theorem C3_never_early (s : State) (hs : Reachable s) (f : Option Fn) (d t0 : Int)
    (acts : List Action) (s1 s2 : State) (w : Nat) (now : Int)
    (hrun : run (Call s f d t0).1 acts = some s1)
    (hstep : step s1 (Action.lock w now) = some s2)
    (hin : (Call s f d t0).2 ∈ s1.cc.futures) (hout : (Call s f d t0).2 ∉ s2.cc.futures) :
    ((Call s f d t0).1.obj (Call s f d t0).2).fireT = t0 + d ∧
      (s1.obj (Call s f d t0).2).fireT = t0 + d ∧ t0 + d ≤ now := by
  obtain ⟨hp, hlt, hft⟩ := Call_fireT hs.inv f d t0
  obtain ⟨i1, f1⟩ := run_spec acts (hs.inv.Call f d t0) hrun
  rw [hp] at hin hout ⊢
  have hf1 : (s1.obj s.next).fireT = t0 + d := (f1.fireT _ hlt).trans hft
  refine ⟨hft, hf1, ?_⟩
  rcases lock_pending i1 w now hstep with e | ⟨_, hd, hperm⟩
  · rw [e] at hout; exact absurd hin hout
  · have := hperm.mem_iff.1 hin
    rw [List.mem_cons] at this
    rcases this with e | e
    · rw [← e, hf1] at hd
      exact le_of_lt hd
    · exact absurd e hout

theorem C3_never_early_witness :
    Reachable init ∧
      run (Call init (some 7) 5 0).1 [Action.invoke 0] = some exLocking ∧
      step exLocking (Action.lock 0 9) = some exPopped ∧
      (Call init (some 7) 5 0).2 ∈ exLocking.cc.futures ∧
      (Call init (some 7) 5 0).2 ∉ exPopped.cc.futures ∧
      ((Call init (some 7) 5 0).1.obj (Call init (some 7) 5 0).2).fireT = 0 + 5 ∧
      (exLocking.obj (Call init (some 7) 5 0).2).fireT = 0 + 5 ∧ (0 : Int) + 5 ≤ 9 :=
  ⟨Reachable.init, rfl, rfl, by decide, by decide,
    C3_never_early init Reachable.init (some 7) 5 0 [Action.invoke 0] exLocking exPopped 0 9
      rfl rfl (by decide) (by decide)⟩

/-- Claim C6: once a watcher's critical section has taken an entry out of the
Pending Set for firing, then at any later point of the execution `cancel` of
that entry returns the state it was given: Pending Set, entry fields,
active-worker count, wake signals, goroutines and the record of invocations
are all unchanged, so the cancel causes no invocation. -/
theorem C6_cancel_after_fire (s : State) (hs : Reachable s) (w : Nat) (now : Int)
    (s1 : State) (hstep : step s (Action.lock w now) = some s1) (p : Ptr)
    (hin : p ∈ s.cc.futures) (hout : p ∉ s1.cc.futures)
    (acts : List Action) (s2 : State) (hrun : run s1 acts = some s2) :
    cancel s2 p = some s2 := by
  obtain ⟨i1, f1⟩ := step_spec hs.inv _ hstep
  obtain ⟨i2, f2⟩ := run_spec acts i1 hrun
  have hlt : p < s1.next := Nat.lt_of_lt_of_le (hs.inv.bound p hin) f1.next
  have hn : p ∉ s2.cc.futures := fun hm => hout (f2.pend p hlt hm)
  exact cancel_detached s2 (by rw [i2.detached p hn]; decide)

theorem C6_cancel_after_fire_witness :
    Reachable exLocking ∧ step exLocking (Action.lock 0 9) = some exPopped ∧
      0 ∈ exLocking.cc.futures ∧ 0 ∉ exPopped.cc.futures ∧
      run exPopped [Action.invoke 1] = some ((run exPopped [Action.invoke 1]).getD init) ∧
      cancel ((run exPopped [Action.invoke 1]).getD init) 0
        = some ((run exPopped [Action.invoke 1]).getD init) :=
  ⟨exLocking_reachable, rfl, by decide, by decide, rfl,
    C6_cancel_after_fire exLocking exLocking_reachable 0 9 exPopped rfl 0 (by decide)
      (by decide) [Action.invoke 1] _ rfl⟩

theorem Pop_some {h h1 : futures} {r : Ptr} (e : heap.Pop h = some (h1, r)) :
    r = h.elem 0 ∧ Removed h h1 r := by
  have hl : h.Len ≠ 0 := by
    intro h0
    unfold heap.Pop at e
    rw [if_pos h0] at e
    exact Option.noConfusion e
  obtain ⟨h2, e2, hr⟩ := Pop_spec hl
  rw [e2] at e
  simp only [Option.some.injEq, Prod.mk.injEq] at e
  obtain ⟨e3, e4⟩ := e
  subst e3
  subst e4
  exact ⟨rfl, hr⟩

theorem Remove_some {h h1 : futures} {r : Ptr} {i : Int}
    (e : heap.Remove h i = some (h1, r)) :
    ∃ k : Nat, i = (k : Int) ∧ k < h.Len ∧ r = h.elem k ∧ Removed h h1 r := by
  have hg : ¬ (i < 0 ∨ (h.Len : Int) ≤ i) := by
    intro hc
    unfold heap.Remove at e
    rw [if_pos hc] at e
    exact Option.noConfusion e
  have hk : i = ((i.toNat : Nat) : Int) := by omega
  have hkl : i.toNat < h.Len := by omega
  obtain ⟨h2, e2, hr⟩ := @Remove_spec h i.toNat hkl
  rw [← hk, e] at e2
  simp only [Option.some.injEq, Prod.mk.injEq] at e2
  obtain ⟨e3, e4⟩ := e2
  subst e3
  refine ⟨i.toNat, hk, hkl, e4, ?_⟩
  rw [e4]; exact hr

theorem HeapReach.ordered {h : futures} (hr : HeapReach h) : Ord h.key h.Len := by
  induction hr with
  | empty obj => exact fun k _ hk => absurd hk (Nat.not_lt_zero _)
  | store x fu _ hx ih =>
    refine ih.transfer rfl ?_
    intro q hq
    have : q ≠ x := fun e => hx (e ▸ hq)
    simp [this]
  | clear x _ ih => exact ih.transfer rfl (fun q _ => clearF_fireT _ _ _)
  | push x _ ih => exact (Push_spec _ x).ord ih
  | pop _ e ih => exact (Pop_some e).2.ord ih
  | remove i _ e ih =>
    obtain ⟨k, _, _, _, this⟩ := Remove_some e
    exact this.ord ih

theorem exHeap_reach : HeapReach exHeap :=
  HeapReach.push 2 (HeapReach.push 1 (HeapReach.push 0 (HeapReach.empty _)))

/-- Claim C9: the Pending Set is a min-heap keyed by `fireT`. In every heap
reached from the empty slice by `heap.Push`, `heap.Pop` and `heap.Remove` at
any position, the entry in each slot fires no earlier than the entry in its
parent slot, the entry in slot 0 fires no later than any other, and
`heap.Pop` on a non-empty heap returns the entry of slot 0, whose `fireT` is
at most that of every entry remaining. -/
theorem C9_min_heap (h : futures) (hr : HeapReach h) :
    (∀ k, 0 < k → k < h.Len →
        (h.obj (h.elem ((k - 1) / 2))).fireT ≤ (h.obj (h.elem k)).fireT) ∧
      (∀ k, k < h.Len → (h.obj (h.elem 0)).fireT ≤ (h.obj (h.elem k)).fireT) ∧
      (h.Len ≠ 0 → ∃ h1, heap.Pop h = some (h1, h.elem 0)) ∧
      (∀ h1 r, heap.Pop h = some (h1, r) →
        r = h.elem 0 ∧ ∀ q, q ∈ h1.arr → (h1.obj r).fireT ≤ (h1.obj q).fireT) := by
  have ho := hr.ordered
  refine ⟨ho, ho.root_le, ?_, ?_⟩
  · intro hl
    obtain ⟨h1, e, _⟩ := Pop_spec hl
    exact ⟨h1, e⟩
  · intro h1 r e
    obtain ⟨er, hrem⟩ := Pop_some e
    refine ⟨er, ?_⟩
    intro q hq
    have hm : q ∈ h.arr := hrem.perm.mem_iff.2 (List.mem_cons_of_mem _ hq)
    obtain ⟨k, hk, ek⟩ := (mem_iff_elem h q).1 hm
    rw [hrem.fireT, hrem.fireT, er, ← ek]
    exact ho.root_le k hk

theorem C9_min_heap_witness :
    HeapReach exHeap ∧
      (∀ k, 0 < k → k < exHeap.Len →
        (exHeap.obj (exHeap.elem ((k - 1) / 2))).fireT ≤ (exHeap.obj (exHeap.elem k)).fireT) ∧
      (∀ k, k < exHeap.Len →
        (exHeap.obj (exHeap.elem 0)).fireT ≤ (exHeap.obj (exHeap.elem k)).fireT) ∧
      (exHeap.Len ≠ 0 → ∃ h1, heap.Pop exHeap = some (h1, exHeap.elem 0)) ∧
      (∀ h1 r, heap.Pop exHeap = some (h1, r) →
        r = exHeap.elem 0 ∧ ∀ q, q ∈ h1.arr → (h1.obj r).fireT ≤ (h1.obj q).fireT) :=
  ⟨exHeap_reach, C9_min_heap exHeap exHeap_reach⟩

theorem expectedFrom_owner : ∀ (acts : List Action) (k : Nat) (j : Job),
    j ∈ expectedFrom k acts → k ≤ j.owner := by
  intro acts
  induction acts with
  | nil => intro k j hj; simp [expectedFrom] at hj
  | cons a as ih =>
    intro k j hj
    cases a with
    | call f timeout now =>
      cases f with
      | none =>
        simp only [expectedFrom] at hj
        exact Nat.le_of_succ_le (ih _ _ hj)
      | some g =>
        simp only [expectedFrom, List.mem_cons] at hj
        rcases hj with rfl | hj
        · exact Nat.le_refl _
        · exact Nat.le_of_succ_le (ih _ _ hj)
    | cancel fu => simp only [expectedFrom] at hj; exact ih _ _ hj
    | invoke w => simp only [expectedFrom] at hj; exact ih _ _ hj
    | lock w now => simp only [expectedFrom] at hj; exact ih _ _ hj
    | timer w => simp only [expectedFrom] at hj; exact ih _ _ hj
    | wake w => simp only [expectedFrom] at hj; exact ih _ _ hj

theorem expectedFrom_nodup : ∀ (acts : List Action) (k : Nat),
    ((expectedFrom k acts).map Job.owner).Nodup := by
  intro acts
  induction acts with
  | nil => intro k; simp [expectedFrom]
  | cons a as ih =>
    intro k
    cases a with
    | call f timeout now =>
      cases f with
      | none => simp only [expectedFrom]; exact ih _
      | some g =>
        simp only [expectedFrom, List.map_cons, List.nodup_cons]
        refine ⟨?_, ih _⟩
        intro hm
        obtain ⟨j, hj, e⟩ := List.mem_map.1 hm
        have := expectedFrom_owner as (k + 1) j hj
        simp only [Ptr] at *
        omega
    | cancel fu => simp only [expectedFrom]; exact ih _
    | invoke w => simp only [expectedFrom]; exact ih _
    | lock w now => simp only [expectedFrom]; exact ih _
    | timer w => simp only [expectedFrom]; exact ih _
    | wake w => simp only [expectedFrom]; exact ih _

/-- A watcher's critical section allocates nothing and changes no callback field. -/
theorem lock_keeps {s s1 : State} (hi : Inv s) (w : Nat) (now : Int)
    (h : step s (Action.lock w now) = some s1) :
    s1.next = s.next ∧ ∀ q, (s1.obj q).f = (s.obj q).f := by
  simp only [step] at h
  split at h
  · rename_i mis hx
    rcases watcherLocked_cases hi mis now with ⟨e, _, _⟩ | ⟨m, t, e, _⟩ | ⟨h1, g, hr, _, _, _, e⟩
    · rw [e] at h
      simp only [Option.some.injEq] at h
      subst h
      exact ⟨rfl, fun _ => rfl⟩
    · rw [e] at h
      simp only [Option.some.injEq] at h
      subst h
      exact ⟨rfl, fun _ => rfl⟩
    · rw [e] at h
      obtain ⟨f1, _, f3, _⟩ := popResult_fields s h1
      by_cases hc : s.cc.watchers < watcherCap
      · simp only [hc, decide_True, Option.some.injEq] at h
        subst h
        refine ⟨f3, fun q => ?_⟩
        show ((popResult s h1).obj q).f = _
        rw [f1]; exact hr.f q
      · simp only [hc, decide_False, Option.some.injEq] at h
        subst h
        refine ⟨f3, fun q => ?_⟩
        show ((popResult s h1).obj q).f = _
        rw [f1]; exact hr.f q
  all_goals (cases h; exact ⟨rfl, fun _ => rfl⟩)

theorem Call_f {s : State} (hi : Inv s) (f : Option Fn) (d t0 : Int) :
    (Call s f d t0).1.next = s.next + 1 ∧ ((Call s f d t0).1.obj s.next).f = f ∧
      ∀ q, q < s.next → ((Call s f d t0).1.obj q).f = (s.obj q).f := by
  cases f with
  | none =>
    rw [Call_none]
    refine ⟨rfl, by simp [allocState, allocObj], ?_⟩
    intro q hq
    show (allocObj s none (t0 + d) q).f = _
    simp [allocObj, Nat.ne_of_lt hq]
  | some g =>
    rw [Call_some]
    have had := Call_added hi g (t0 + d)
    refine ⟨by simp only [add_next]; rfl, ?_, ?_⟩
    · show ((add (allocState s (some g) (t0 + d)) s.next).obj s.next).f = some g
      rw [add_obj, had.f]
      simp [allocObj]
    · intro q hq
      show ((add (allocState s (some g) (t0 + d)) s.next).obj q).f = _
      rw [add_obj, had.f]
      simp [allocObj, Nat.ne_of_lt hq]

/-- Without a `Cancel`, the callbacks stored in the entries are those given to `Call`. -/
theorem run_expected : ∀ (acts : List Action) {s s1 : State}, Inv s → run s acts = some s1 →
    (∀ a, a ∈ acts → a.isCancel = false) →
    (∀ q, q < s.next → (s1.obj q).f = (s.obj q).f) ∧
      ∀ j, j ∈ expectedFrom s.next acts ↔
        (s.next ≤ j.owner ∧ j.owner < s1.next ∧ (s1.obj j.owner).f = some j.fn) := by
  intro acts
  induction acts with
  | nil =>
    intro s s1 _ h _
    simp only [run, Option.some.injEq] at h
    subst h
    refine ⟨fun _ _ => rfl, fun j => ?_⟩
    simp only [expectedFrom, List.not_mem_nil, false_iff]
    intro hc
    simp only [Ptr] at *
    omega
  | cons a as ih =>
    intro s s1 hi h hno
    simp only [run] at h
    cases hs : step s a with
    | none => rw [hs] at h; simp at h
    | some s0 =>
      rw [hs] at h
      simp only [Option.some_bind] at h
      obtain ⟨i0, f0⟩ := step_spec hi a hs
      obtain ⟨k1, k2⟩ := ih i0 h (fun b hb => hno b (List.mem_cons_of_mem _ hb))
      have ha := hno a (List.mem_cons_self _ _)
      have same : ∀ {s0 : State}, s0.next = s.next → (∀ q, (s0.obj q).f = (s.obj q).f) →
          (∀ q, q < s0.next → (s1.obj q).f = (s0.obj q).f) →
          (∀ j, j ∈ expectedFrom s0.next as ↔
            (s0.next ≤ j.owner ∧ j.owner < s1.next ∧ (s1.obj j.owner).f = some j.fn)) →
          (∀ q, q < s.next → (s1.obj q).f = (s.obj q).f) ∧
          ∀ j, j ∈ expectedFrom s.next as ↔
            (s.next ≤ j.owner ∧ j.owner < s1.next ∧ (s1.obj j.owner).f = some j.fn) := by
        intro s0 hn hf k1 k2
        refine ⟨fun q hq => (k1 q (by rw [hn]; exact hq)).trans (hf q), ?_⟩
        intro j
        rw [← hn]
        exact k2 j
      cases a with
      | call f timeout now =>
        simp only [step, Option.some.injEq] at hs
        obtain ⟨c1, c2, c3⟩ := Call_f hi f timeout now
        rw [hs] at c1 c2 c3
        have hroot : (s1.obj s.next).f = f := (k1 s.next (by rw [c1]; exact Nat.lt_succ_self _)).trans c2
        refine ⟨fun q hq => (k1 q (by rw [c1]; exact Nat.lt_succ_of_lt hq)).trans (c3 q hq), ?_⟩
        intro j
        rw [c1] at k2
        cases f with
        | none =>
          simp only [expectedFrom]
          rw [k2 j]
          constructor
          · rintro ⟨a1, a2, a3⟩
            exact ⟨by simp only [Ptr] at *; omega, a2, a3⟩
          · rintro ⟨a1, a2, a3⟩
            refine ⟨?_, a2, a3⟩
            by_contra hc
            have : j.owner = s.next := by simp only [Ptr] at *; omega
            rw [this, hroot] at a3
            exact Option.noConfusion a3
        | some g =>
          simp only [expectedFrom, List.mem_cons]
          rw [k2 j]
          have hlt : s.next < s1.next := by
            have := (run_spec as i0 h).2.next
            rw [c1] at this
            simp only [Ptr] at *
            omega
          constructor
          · rintro (rfl | ⟨a1, a2, a3⟩)
            · exact ⟨Nat.le_refl _, hlt, hroot⟩
            · exact ⟨by simp only [Ptr] at *; omega, a2, a3⟩
          · rintro ⟨a1, a2, a3⟩
            by_cases hc : j.owner = s.next
            · left
              rw [hc, hroot] at a3
              cases j
              simp only [Option.some.injEq] at a3
              simp only at hc
              rw [hc, a3]
            · right
              exact ⟨by simp only [Ptr] at *; omega, a2, a3⟩
      | cancel fu => simp [Action.isCancel] at ha
      | invoke w =>
        have hn : s0.next = s.next ∧ ∀ q, (s0.obj q).f = (s.obj q).f := by
          simp only [step] at hs
          split at hs <;> (cases hs; exact ⟨rfl, fun _ => rfl⟩)
        simp only [expectedFrom]
        exact same hn.1 hn.2 k1 k2
      | lock w now =>
        have hn := lock_keeps hi w now hs
        simp only [expectedFrom]
        exact same hn.1 hn.2 k1 k2
      | timer w =>
        have hn : s0.next = s.next ∧ ∀ q, (s0.obj q).f = (s.obj q).f := by
          simp only [step] at hs
          split at hs <;> (cases hs; exact ⟨rfl, fun _ => rfl⟩)
        simp only [expectedFrom]
        exact same hn.1 hn.2 k1 k2
      | wake w =>
        have hn : s0.next = s.next ∧ ∀ q, (s0.obj q).f = (s.obj q).f := by
          simp only [step] at hs
          split at hs
          · split at hs <;> (cases hs; exact ⟨rfl, fun _ => rfl⟩)
          all_goals (cases hs; exact ⟨rfl, fun _ => rfl⟩)
        simp only [expectedFrom]
        exact same hn.1 hn.2 k1 k2

/-- Accounting of a cancel-free execution whose Pending Set is empty: the
scheduled callbacks are, one record per entry, exactly those already run
together with those still in a watcher's hands. -/
theorem drained_accounts (acts : List Action) (s : State)
    (hrun : run init acts = some s) (hno : ∀ a, a ∈ acts → a.isCancel = false)
    (hempty : s.cc.futures = []) :
    (carried s.workers ++ s.calls).Perm (expectedFrom 0 acts) ∧
      ((carried s.workers ++ s.calls).map Job.owner).Nodup ∧
      (carried s.workers = [] →
        s.calls.Perm (expectedFrom 0 acts) ∧ (s.calls.map Job.owner).Nodup ∧
          s.calls.length = (expectedFrom 0 acts).length) := by
  obtain ⟨hi, _⟩ := run_spec acts Inv.init hrun
  obtain ⟨_, k2⟩ := run_expected acts Inv.init hrun hno
  have hnd : ((carried s.workers ++ s.calls).map Job.owner).Nodup := hi.nodup
  have hperm : (carried s.workers ++ s.calls).Perm (expectedFrom 0 acts) := by
    rw [List.perm_ext_iff_of_nodup (List.Nodup.of_map _ hnd)
      (List.Nodup.of_map _ (expectedFrom_nodup acts 0))]
    intro j
    have hk := k2 j
    have h0 : Timeout.init.next = 0 := rfl
    rw [h0] at hk
    rw [hk]
    constructor
    · intro hj
      obtain ⟨_, b, c⟩ := hi.out j hj
      exact ⟨Nat.zero_le _, b, c⟩
    · rintro ⟨_, b, c⟩
      have hm : j.owner ∈ s.owners :=
        hi.fired j.owner b (by rw [c]; exact fun e => Option.noConfusion e)
          (by rw [hempty]; exact List.not_mem_nil _)
      obtain ⟨j1, hj1, e1⟩ := List.mem_map.1 hm
      have c1 := (hi.out j1 hj1).2.2
      rw [e1, c] at c1
      have : j1 = j := by
        cases j1
        cases j
        simp only [Option.some.injEq] at c1
        simp only at e1
        rw [e1, c1]
      rw [← this]
      exact hj1
  refine ⟨hperm, hnd, ?_⟩
  intro hq
  rw [hq] at hperm hnd
  exact ⟨hperm, hnd, hperm.length_eq⟩

theorem add_watchers_eq (s : State) (fu : Ptr) :
    (add s fu).cc.watchers = if s.cc.watchers = 0 then 1 else s.cc.watchers := by
  unfold add
  simp only
  split
  · rename_i h0; simp [h0]
  · simp

theorem cancelResult_fields (s : State) (h1 : futures) :
    (cancelResult s h1).obj = h1.obj ∧ (cancelResult s h1).cc.futures = h1.arr ∧
      (cancelResult s h1).next = s.next ∧ (cancelResult s h1).calls = s.calls ∧
      (cancelResult s h1).workers = s.workers ∧
      (cancelResult s h1).cc.watchers = s.cc.watchers := by
  unfold cancelResult
  simp only
  split <;> simp

/-- A pending entry keeps at least one watcher alive across every step. -/
theorem step_served {s s1 : State} (hi : Inv s)
    (hs : s.cc.futures ≠ [] → 1 ≤ s.cc.watchers) (a : Action) (h : step s a = some s1) :
    s1.cc.futures ≠ [] → 1 ≤ s1.cc.watchers := by
  have hnn : 0 ≤ s.cc.watchers := by rw [hi.watchers]; exact Int.ofNat_nonneg _
  cases a with
  | call f timeout now =>
    simp only [step, Option.some.injEq] at h
    subst h
    cases f with
    | none => rw [Call_none]; exact hs
    | some g =>
      rw [Call_some]
      intro _
      show 1 ≤ (add (allocState s (some g) (now + timeout)) s.next).cc.watchers
      rw [add_watchers_eq]
      show 1 ≤ if s.cc.watchers = 0 then 1 else s.cc.watchers
      split <;> omega
  | cancel fu =>
    simp only [step] at h
    split at h
    · by_cases hp : (s.obj fu).idx < 0
      · rw [cancel_detached s hp] at h
        cases h
        exact hs
      · obtain ⟨h1, hr, e⟩ := cancel_charged hi (p := fu) (by omega)
        rw [e] at h
        cases h
        obtain ⟨_, _, _, _, _, f6⟩ := cancelResult_fields s h1
        intro _
        rw [f6]
        apply hs
        intro he
        have := hr.perm.length_eq
        simp only [he, List.length_nil, List.length_cons] at this
        omega
    · cases h
      exact hs
  | invoke w =>
    simp only [step] at h
    split at h <;> (cases h; exact hs)
  | lock w now =>
    simp only [step] at h
    split at h
    · rename_i mis hx
      rcases watcherLocked_cases hi mis now with ⟨e, c1, c2⟩ | ⟨m, t, e, _⟩ | ⟨h1, g, hr, hl, _, _, e⟩
      · rw [e] at h
        simp only [Option.some.injEq] at h
        subst h
        intro hne
        show 1 ≤ s.cc.watchers - 1
        have hne' : s.cc.futures ≠ [] := hne
        have hl : s.heap.Len ≠ 0 := by
          intro h0
          exact hne' (List.length_eq_zero.1 h0)
        rcases c2 with c2 | ⟨c2, _⟩
        · omega
        · exact absurd c2 hl
      · rw [e] at h
        simp only [Option.some.injEq] at h
        subst h
        exact hs
      · rw [e] at h
        obtain ⟨_, _, _, _, _, f6, _⟩ := popResult_fields s h1
        have h1w : 1 ≤ s.cc.watchers := by
          apply hs
          intro he
          apply hl
          show s.cc.futures.length = 0
          rw [he]; rfl
        have hge : s.cc.watchers ≤ (popResult s h1).cc.watchers := by
          rw [f6]; split <;> omega
        by_cases hc : s.cc.watchers < watcherCap
        · simp only [hc, decide_True, Option.some.injEq] at h
          subst h
          intro _
          show 1 ≤ (popResult s h1).cc.watchers
          omega
        · simp only [hc, decide_False, Option.some.injEq] at h
          subst h
          intro _
          show 1 ≤ (popResult s h1).cc.watchers
          omega
    all_goals (cases h; exact hs)
  | timer w =>
    simp only [step] at h
    split at h <;> (cases h; exact hs)
  | wake w =>
    simp only [step] at h
    split at h
    · split at h <;> (cases h; exact hs)
    all_goals (cases h; exact hs)

theorem Reachable.served {s : State} (hr : Reachable s) :
    s.cc.futures ≠ [] → 1 ≤ s.cc.watchers := by
  induction hr with
  | init => intro h; exact absurd rfl h
  | step a hr0 h ih => exact step_served hr0.inv ih a h

/-- Claim C20: no pending entry is ever left without a worker. In every state
reachable from the initial state, a non-empty Pending Set comes with an
active-worker count of at least 1; and a watcher's critical section that
lowers the count does so only when the Pending Set is empty or the count was
above 1. -/
theorem C20_pending_has_worker (s : State) (hs : Reachable s) :
    (s.cc.futures ≠ [] → 1 ≤ s.cc.watchers) ∧
      ∀ (w : Nat) (now : Int) (s1 : State), step s (Action.lock w now) = some s1 →
        s1.cc.watchers < s.cc.watchers → s.cc.futures = [] ∨ 1 < s.cc.watchers := by
  refine ⟨hs.served, ?_⟩
  intro w now s1 h hlt
  have hi := hs.inv
  simp only [step] at h
  split at h
  · rename_i mis hx
    rcases watcherLocked_cases hi mis now with ⟨e, _, c2⟩ | ⟨m, t, e, _⟩ | ⟨h1, g, hr, hl, _, _, e⟩
    · rcases c2 with c2 | ⟨c2, _⟩
      · exact Or.inr c2
      · exact Or.inl (List.length_eq_zero.1 c2)
    · rw [e] at h
      simp only [Option.some.injEq] at h
      subst h
      exact absurd hlt (lt_irrefl _)
    · rw [e] at h
      obtain ⟨_, _, _, _, _, f6, _⟩ := popResult_fields s h1
      have hge : s.cc.watchers ≤ (popResult s h1).cc.watchers := by
        rw [f6]; split <;> omega
      by_cases hc : s.cc.watchers < watcherCap
      · simp only [hc, decide_True, Option.some.injEq] at h
        subst h
        have hlt' : (popResult s h1).cc.watchers < s.cc.watchers := hlt
        omega
      · simp only [hc, decide_False, Option.some.injEq] at h
        subst h
        have hlt' : (popResult s h1).cc.watchers < s.cc.watchers := hlt
        omega
  all_goals (cases h; exact absurd hlt (lt_irrefl _))

theorem C20_pending_has_worker_witness :
    Reachable exOne ∧ exOne.cc.futures ≠ [] ∧ 1 ≤ exOne.cc.watchers :=
  ⟨exOne_reachable, by decide, (C20_pending_has_worker exOne exOne_reachable).1 (by decide)⟩

/-- Claim C13: in every state reachable by `Call`, `Cancel` and watcher steps,
an entry created by `Call` has `idx = -1` if and only if it is not in the
Pending Set; and an entry that is not in the Pending Set has a nil callback
(it was created with one, or cancelled) or its callback was taken out by a
watcher that popped it for firing. -/
theorem C13_sentinel_iff_absent (s : State) (hs : Reachable s) (p : Ptr) (hp : p < s.next) :
    ((s.obj p).idx = -1 ↔ p ∉ s.cc.futures) ∧
      (p ∉ s.cc.futures → (s.obj p).f = none ∨ p ∈ s.owners) := by
  have hi := hs.inv
  refine ⟨⟨?_, hi.detached p⟩, ?_⟩
  · intro hidx hm
    obtain ⟨k, hk, e⟩ := (mem_iff_elem s.heap p).1 hm
    have := hi.pos k hk
    rw [e] at this
    have h2 : (s.obj p).idx = (k : Int) := this
    omega
  · intro hn
    by_cases hf : (s.obj p).f = none
    · exact Or.inl hf
    · exact Or.inr (hi.fired p hp hf hn)

theorem C13_sentinel_iff_absent_witness :
    Reachable exPopped ∧ 0 < exPopped.next ∧
      ((exPopped.obj 0).idx = -1 ↔ 0 ∉ exPopped.cc.futures) ∧
      (0 ∉ exPopped.cc.futures → (exPopped.obj 0).f = none ∨ 0 ∈ exPopped.owners) :=
  ⟨Reachable.step (Action.lock 0 9) exLocking_reachable rfl, by decide,
    C13_sentinel_iff_absent exPopped (Reachable.step (Action.lock 0 9) exLocking_reachable rfl)
      0 (by decide)⟩

/-- Claim C16: for every state and every entry, `add` pushes the entry into
the Pending Set, which becomes the old one with that entry added. If the
active-worker count was 0 it becomes 1, one watcher is started carrying no
callback, and no wake signal is sent. Otherwise the count and the goroutines
are unchanged and one wake signal is enqueued, unless the buffer already holds
100 signals, in which case the send is dropped and the buffer is unchanged. -/
theorem C16_add_spawns_or_wakes (s : State) (fu : Ptr) :
    (add s fu).cc.futures = (heap.Push s.heap fu).arr ∧
      (add s fu).cc.futures.Perm (fu :: s.cc.futures) ∧
      (s.cc.watchers = 0 →
        (add s fu).cc.watchers = 1 ∧
          (add s fu).workers = s.workers ++ [goroutine.top none false] ∧
          (add s fu).cc.wakeCh = s.cc.wakeCh) ∧
      (s.cc.watchers ≠ 0 →
        (add s fu).cc.watchers = s.cc.watchers ∧ (add s fu).workers = s.workers ∧
          (add s fu).cc.wakeCh = if s.cc.wakeCh < 100 then s.cc.wakeCh + 1 else s.cc.wakeCh) := by
  refine ⟨add_futures s fu, ?_, ?_, ?_⟩
  · rw [add_futures]
    exact (Push_spec s.heap fu).perm
  · intro h0
    simp [add, h0]
  · intro h0
    unfold add
    simp only
    rw [if_neg h0]
    unfold notifyWatcher
    simp only [wakeCap]
    split <;> simp

/-- Claim C19: `cancel` removes exactly the entry it is given. In a reachable
state, `cancel` of a charged entry `e` returns a state whose Pending Set
holds exactly the other entries it held before (the old set is the new one
plus `e`), every other entry keeps its callback and its `fireT`, and the
position invariant and the heap order still hold. -/
theorem C19_cancel_frame (s : State) (hs : Reachable s) (e : Ptr) (hc : 0 ≤ (s.obj e).idx) :
    ∃ s1, cancel s e = some s1 ∧ s.cc.futures.Perm (e :: s1.cc.futures) ∧
      e ∉ s1.cc.futures ∧
      (∀ q, q ≠ e → (s1.obj q).f = (s.obj q).f ∧ (s1.obj q).fireT = (s.obj q).fireT) ∧
      (∀ k, k < s1.cc.futures.length → (s1.obj (s1.cc.futures.getD k 0)).idx = (k : Int)) ∧
      (∀ k, 0 < k → k < s1.cc.futures.length →
        (s1.obj (s1.cc.futures.getD ((k - 1) / 2) 0)).fireT
          ≤ (s1.obj (s1.cc.futures.getD k 0)).fireT) := by
  have hi := hs.inv
  obtain ⟨h1, hr, e1⟩ := cancel_charged hi hc
  obtain ⟨s1, e2, i1, _, hperm, hn, _, _⟩ := cancel_charged_spec hi hc
  have hs1 : s1 = cancelResult s h1 := by
    rw [e1] at e2
    exact (Option.some.inj e2).symm
  obtain ⟨f1, _⟩ := cancelResult_fields s h1
  refine ⟨s1, e2, hperm, hn, ?_, i1.pos, i1.ord⟩
  intro q hq
  rw [hs1, f1, hr.f, hr.fireT]
  exact ⟨by show (clearF s.obj e q).f = _; rw [clearF_ne _ hq],
    by show (clearF s.obj e q).fireT = _; rw [clearF_ne _ hq]⟩

/-- Two charged entries: `exOne` after a second `Call` with delay 3 at clock 1. -/
theorem exTwo_reachable : Reachable (Call exOne (some 9) 3 1).1 :=
  Reachable.step (Action.call (some 9) 3 1) exOne_reachable rfl

theorem C19_cancel_frame_witness :
    Reachable (Call exOne (some 9) 3 1).1 ∧ 0 ≤ ((Call exOne (some 9) 3 1).1.obj 0).idx ∧
      ∃ s1, cancel (Call exOne (some 9) 3 1).1 0 = some s1 ∧
        (Call exOne (some 9) 3 1).1.cc.futures.Perm (0 :: s1.cc.futures) ∧
        0 ∉ s1.cc.futures ∧
        (∀ q, q ≠ 0 → (s1.obj q).f = ((Call exOne (some 9) 3 1).1.obj q).f ∧
          (s1.obj q).fireT = ((Call exOne (some 9) 3 1).1.obj q).fireT) ∧
        (∀ k, k < s1.cc.futures.length → (s1.obj (s1.cc.futures.getD k 0)).idx = (k : Int)) ∧
        (∀ k, 0 < k → k < s1.cc.futures.length →
          (s1.obj (s1.cc.futures.getD ((k - 1) / 2) 0)).fireT
            ≤ (s1.obj (s1.cc.futures.getD k 0)).fireT) :=
  ⟨exTwo_reachable, by decide,
    C19_cancel_frame (Call exOne (some 9) 3 1).1 exTwo_reachable 0 (by decide)⟩

theorem rawPush_pos {h : futures} (hp : Pos h) {x : Ptr} (hx : x ∉ h.arr) : Pos (h.Push x) := by
  have hL : (h.Push x).Len = h.Len + 1 := by simp [futures.Push, futures.Len]
  intro k hk
  rw [hL] at hk
  by_cases hkl : k = h.Len
  · subst hkl
    have hell : (h.Push x).elem h.Len = x := by
      simp [futures.elem, futures.Push, futures.Len]
    rw [hell]
    exact setIdx_same _ _ _
  · have hk' : k < h.Len := by omega
    have helt : (h.Push x).elem k = h.elem k := by
      unfold futures.Len at hk'
      simp [futures.elem, futures.Push, List.getElem?_append_left, hk']
    rw [helt]
    show (setIdx h.obj x h.Len (h.elem k)).idx = k
    rw [setIdx_ne _ _ (fun e => hx (by rw [← e]; exact elem_mem h hk'))]
    exact hp k hk'

theorem rawPop_pos {h : futures} (hp : Pos h) (hl : h.Len ≠ 0) : Pos h.Pop.1 := by
  obtain ⟨n, hn⟩ : ∃ n, h.Len = n + 1 := ⟨h.Len - 1, by omega⟩
  exact (@removed_of h h n (h.elem n) (Same.refl h) id hn rfl
    (fun hord => by rw [hn] at hord; exact hord.mono (by omega))).1.pos hp

theorem PosReach.positions {h : futures} (hr : PosReach h) : Pos h := by
  induction hr with
  | empty obj => exact fun k hk => absurd hk (Nat.not_lt_zero _)
  | rawPush x _ hx ih => exact rawPush_pos ih hx
  | swap i j _ hi hj ih => exact Swap_pos ih hi hj
  | rawPop _ hl ih => exact rawPop_pos ih hl
  | push x _ hx ih => exact (Push_spec _ x).pos ih hx
  | pop _ e ih => exact (Pop_some e).2.pos ih
  | remove i _ e ih =>
    obtain ⟨k, _, _, _, this⟩ := Remove_some e
    exact this.pos ih

/-- The states `heap.up` passes through are reached by `Swap` steps. -/
theorem PosReach.upLoop (fuel : Nat) : ∀ (h : futures) (j : Nat), PosReach h → j < h.Len →
    PosReach (heap.upLoop fuel h j) := by
  induction fuel with
  | zero => intro h j hr _; exact hr
  | succ fuel ih =>
    intro h j hr hj
    unfold heap.upLoop
    simp only
    split
    · exact hr
    · have hi : (j - 1) / 2 < h.Len := by omega
      exact ih _ _ (PosReach.swap _ _ hr hi hj) (by rw [Swap_Len]; exact hi)

/-- The states `heap.down` passes through are reached by `Swap` steps. -/
theorem PosReach.downLoop (n : Nat) (fuel : Nat) : ∀ (h : futures) (i : Nat), PosReach h →
    n ≤ h.Len → PosReach (heap.downLoop fuel h i n).1 := by
  induction fuel with
  | zero => intro h i hr _; exact hr
  | succ fuel ih =>
    intro h i hr hn
    unfold heap.downLoop
    simp only
    split
    · exact hr
    · rename_i hj1
      generalize hjd : (if 2 * i + 1 + 1 < n ∧ h.Less (2 * i + 1 + 1) (2 * i + 1) = true
        then 2 * i + 1 + 1 else 2 * i + 1) = j
      obtain ⟨hjr, hjn, _⟩ := minChild h n i hj1 j hjd
      split
      · exact hr
      · exact ih _ _ (PosReach.swap _ _ hr (by omega) (by omega)) (by rw [Swap_Len]; exact hn)

theorem exHeap_posReach : PosReach exHeap :=
  PosReach.push 2 (PosReach.push 1 (PosReach.push 0 (PosReach.empty _) (by decide))
    (by decide)) (by decide)

/-- Claim C12: position invariant. In every Pending Set reached from the empty
slice by `heap.Push` of an entry not yet pending, `heap.Pop` and `heap.Remove`
at any position, including the states between the `Swap` steps inside those
operations, and likewise in the Pending Set of every reachable program state,
the entry stored in slot `i` has `idx = i`, for every `i < Len`. -/
theorem C12_position_invariant (h : futures)
    (hr : PosReach h ∨ ∃ s, Reachable s ∧ h = s.heap) :
    ∀ i, i < h.arr.length → (h.obj (h.arr.getD i 0)).idx = (i : Int) := by
  rcases hr with hr | ⟨s, hs, e⟩
  · exact hr.positions
  · rw [e]
    exact hs.inv.pos

theorem C12_position_invariant_witness :
    PosReach (exHeap.Swap 0 2) ∧
      ∀ i, i < (exHeap.Swap 0 2).arr.length →
        ((exHeap.Swap 0 2).obj ((exHeap.Swap 0 2).arr.getD i 0)).idx = (i : Int) :=
  ⟨PosReach.swap 0 2 exHeap_posReach (by decide) (by decide),
    C12_position_invariant (exHeap.Swap 0 2)
      (Or.inl (PosReach.swap 0 2 exHeap_posReach (by decide) (by decide)))⟩

/-- With one entry due at 5 pending and the clock reading exactly 5, the sole
watcher does not pop: its critical section leaves the Pending Set as it is and
the watcher waits, for a duration of 0. -/
theorem C14_counterexample :
    Reachable exLocking ∧ exLocking.workers.getD 0 goroutine.done = goroutine.locking false ∧
      exLocking.cc.futures ≠ [] ∧ (exLocking.obj (exLocking.heap.elem 0)).fireT ≤ 5 ∧
      (watcherLocked exLocking false 5).map (fun r => (r.1.cc.futures, r.2))
        = some (exLocking.cc.futures, Outcome.wait false 0) ∧
      (step exLocking (Action.lock 0 5)).map (fun s => (s.cc.futures, s.workers))
        = some (exLocking.cc.futures, [goroutine.waiting false 0]) :=
  ⟨exLocking_reachable, by decide, by decide, by decide, by decide, by decide⟩

/-- Claim C14, amended: take a watcher iteration in a reachable state whose
Pending Set is non-empty. If the earliest fire time is strictly before `now`, the critical section pops the
entry of slot 0, which has the least `fireT` of all pending entries, and the
watcher continues its loop with that entry's callback instead of waiting. If
the earliest fire time equals `now`, nothing is popped in that iteration: the
watcher returns (count above 1) or waits, for a duration of 0. -/
theorem C14_pops_when_past (s : State) (hs : Reachable s) (mis : Bool) (now : Int)
    (hne : s.cc.futures ≠ []) :
    ((s.obj (s.heap.elem 0)).fireT < now →
        ∃ s1 g b, watcherLocked s mis now
            = some (s1, Outcome.cont (some { owner := s.heap.elem 0, fn := g }) b) ∧
          s.cc.futures.Perm (s.heap.elem 0 :: s1.cc.futures) ∧
          s.heap.elem 0 ∉ s1.cc.futures ∧
          ∀ q, q ∈ s.cc.futures → (s.obj (s.heap.elem 0)).fireT ≤ (s.obj q).fireT) ∧
      ((s.obj (s.heap.elem 0)).fireT = now →
        ∃ s1 o, watcherLocked s mis now = some (s1, o) ∧ s1.cc.futures = s.cc.futures ∧
          (o = Outcome.exit ∨ o = Outcome.wait false 0)) := by
  have hi := hs.inv
  have hl : s.heap.Len ≠ 0 := fun h0 => hne (List.length_eq_zero.1 h0)
  constructor
  · intro hlt
    rcases watcherLocked_cases hi mis now with ⟨_, c1, _⟩ | ⟨m, t, _, c1⟩ | ⟨h1, g, hr, _, _, _, e⟩
    · rcases c1 with c1 | c1
      · exact absurd c1 hl
      · exact absurd hlt c1
    · rcases c1 with c1 | c1
      · exact absurd c1 hl
      · exact absurd hlt c1
    · obtain ⟨_, f2, _⟩ := popResult_fields s h1
      have hnd : (s.heap.elem 0 :: h1.arr).Nodup := hr.perm.nodup hi.pos.nodup
      refine ⟨popResult s h1, g, _, e, ?_, ?_, ?_⟩
      · rw [f2]; exact hr.perm
      · rw [f2]; exact (List.nodup_cons.1 hnd).1
      · intro q hq
        obtain ⟨k, hk, ek⟩ := (mem_iff_elem s.heap q).1 hq
        rw [← ek]
        exact hi.ord.root_le k hk
  · intro heq
    have hnlt : ¬ (s.obj (s.heap.elem 0)).fireT < now := by omega
    unfold watcherLocked
    rw [if_neg hl]
    simp only
    rw [if_neg hnlt]
    by_cases hc : s.cc.watchers > 1
    · rw [if_pos hc]
      exact ⟨_, _, rfl, rfl, Or.inl rfl⟩
    · rw [if_neg hc]
      refine ⟨_, _, rfl, rfl, Or.inr ?_⟩
      rw [heq]
      simp

theorem C14_pops_when_past_witness :
    Reachable exLocking ∧ exLocking.cc.futures ≠ [] ∧
      (exLocking.obj (exLocking.heap.elem 0)).fireT < 9 ∧
      ∃ s1 g b, watcherLocked exLocking false 9
          = some (s1, Outcome.cont (some { owner := exLocking.heap.elem 0, fn := g }) b) ∧
        exLocking.cc.futures.Perm (exLocking.heap.elem 0 :: s1.cc.futures) ∧
        exLocking.heap.elem 0 ∉ s1.cc.futures ∧
        ∀ q, q ∈ exLocking.cc.futures →
          (exLocking.obj (exLocking.heap.elem 0)).fireT ≤ (exLocking.obj q).fireT :=
  ⟨exLocking_reachable, by decide, by decide,
    (C14_pops_when_past exLocking exLocking_reachable false 9 (by decide)).1 (by decide)⟩

/-- After a watcher has popped entry 0 for firing, the entry is out of the
Pending Set with `idx = -1`, and its callback field still holds the callback. -/
theorem C15_counterexample :
    Reachable exLocking ∧ 0 ≤ (exLocking.obj 0).idx ∧ 0 ∈ exLocking.cc.futures ∧
      step exLocking (Action.lock 0 9) = some exPopped ∧ 0 ∉ exPopped.cc.futures ∧
      (exPopped.obj 0).idx = -1 ∧ (exPopped.obj 0).f = some 7 :=
  ⟨exLocking_reachable, by decide, by decide, rfl, by decide, by decide, by decide⟩

/-- Claim C15, amended: a charged entry reaches a terminal state, out of the
Pending Set with `idx = -1`, on both paths, but its callback field is cleared
only by `cancel`. After a watcher pops the entry for firing the field still
holds the callback, unchanged and not nil (the watcher sets only its own
variable to nil); after the entry is cancelled the field is nil. -/
theorem C15_terminal_states (s : State) (hs : Reachable s) (p : Ptr)
    (hin : p ∈ s.cc.futures) :
    (∀ (w : Nat) (now : Int) (s1 : State), step s (Action.lock w now) = some s1 →
        p ∉ s1.cc.futures →
        (s1.obj p).idx = -1 ∧ (s1.obj p).f = (s.obj p).f ∧ (s1.obj p).f ≠ none) ∧
      ∃ s1, cancel s p = some s1 ∧ p ∉ s1.cc.futures ∧ (s1.obj p).idx = -1 ∧
        (s1.obj p).f = none := by
  have hi := hs.inv
  constructor
  · intro w now s1 hstep hout
    obtain ⟨i1, _⟩ := step_spec hi _ hstep
    obtain ⟨_, hf⟩ := lock_keeps hi w now hstep
    refine ⟨i1.detached p hout, hf p, ?_⟩
    rw [hf p]
    exact hi.nonnil p hin
  · have hc : 0 ≤ (s.obj p).idx := by
      obtain ⟨k, hk, e⟩ := (mem_iff_elem s.heap p).1 hin
      have := hi.pos k hk
      rw [e] at this
      have h2 : (s.obj p).idx = (k : Int) := this
      omega
    obtain ⟨s1, h1, _, _, _, hn, hf, hx⟩ := cancel_charged_spec hi hc
    exact ⟨s1, h1, hn, hx, hf⟩

theorem C15_terminal_states_witness :
    Reachable exLocking ∧ 0 ∈ exLocking.cc.futures ∧
      step exLocking (Action.lock 0 9) = some exPopped ∧ 0 ∉ exPopped.cc.futures ∧
      ((exPopped.obj 0).idx = -1 ∧ (exPopped.obj 0).f = (exLocking.obj 0).f ∧
        (exPopped.obj 0).f ≠ none) :=
  ⟨exLocking_reachable, by decide, rfl, by decide,
    (C15_terminal_states exLocking exLocking_reachable 0 (by decide)).1 0 9 exPopped rfl
      (by decide)⟩

theorem getD_set_same {ws : List goroutine} {w : Nat} (y : goroutine) (hw : w < ws.length) :
    (ws.set w y).getD w goroutine.done = y := by
  simp [List.getElem?_set, hw]

theorem getD_set_other {ws : List goroutine} {w v : Nat} (y : goroutine) (h : w ≠ v) :
    (ws.set w y).getD v goroutine.done = ws.getD v goroutine.done := by
  simp [List.getElem?_set, h]

theorem exIdle_reachable : Reachable exIdle :=
  Reachable.run [Action.call (some 7) 5 0, Action.invoke 0, Action.lock 0 9, Action.invoke 1,
    Action.invoke 0, Action.lock 0 10, Action.lock 1 11] Reachable.init rfl

theorem timer_step (s : State) (w : Nat) {m : Bool} {t : Int}
    (hx : s.workers.getD w goroutine.done = goroutine.waiting m t) :
    step s (Action.timer w) = some (s.setWorker w (goroutine.top none m)) := by
  simp only [step, hx]
  rfl

theorem invoke_idle_step (s : State) (w : Nat) {m : Bool}
    (hx : s.workers.getD w goroutine.done = goroutine.top none m) :
    step s (Action.invoke w) = some (s.setWorker w (goroutine.locking m)) := by
  simp only [step, hx]
  simp [State.setWorker]

theorem lock_exit_step (s s1 : State) (w : Nat) (now : Int) {m : Bool}
    (hx : s.workers.getD w goroutine.done = goroutine.locking m)
    (he : watcherLocked s m now = some (s1, Outcome.exit)) :
    step s (Action.lock w now) = some (s1.setWorker w goroutine.done) := by
  simp only [step, hx, he]
  rfl

theorem lock_wait_step (s s1 : State) (w : Nat) (now : Int) {m m1 : Bool} {t : Int}
    (hx : s.workers.getD w goroutine.done = goroutine.locking m)
    (he : watcherLocked s m now = some (s1, Outcome.wait m1 t)) :
    step s (Action.lock w now) = some (s1.setWorker w (goroutine.waiting m1 t)) := by
  simp only [step, hx, he]
  rfl

theorem run_three {s sa sb sc : State} {a b c : Action} (h1 : step s a = some sa)
    (h2 : step sa b = some sb) (h3 : step sb c = some sc) : run s [a, b, c] = some sc := by
  simp only [run, h1, h2, h3, Option.some_bind]

theorem setWorker_getD (s : State) (w : Nat) (g : goroutine) (hw : w < s.workers.length) :
    (s.setWorker w g).workers.getD w goroutine.done = g ∧
      w < (s.setWorker w g).workers.length := by
  constructor
  · exact getD_set_same g hw
  · simpa [State.setWorker] using hw

theorem watcherLocked_empty (s : State) (mis : Bool) (now : Int) (hempty : s.cc.futures = []) :
    watcherLocked s mis now
      = if 1 < s.cc.watchers ∨ mis = true then some (exitResult s, Outcome.exit)
        else some (s, Outcome.wait true idleTimeout) := by
  have hl : s.heap.Len = 0 := by
    show s.cc.futures.length = 0
    rw [hempty]; rfl
  unfold watcherLocked
  rw [if_pos hl]
  rfl

/-- Claim C17: take a watcher iteration that finds the Pending Set empty. If
the active-worker count is above 1, or the watcher's previous observation was
also empty with no wake signal in between (`misCount`), the critical section
lowers the count by one and the watcher returns; otherwise it leaves the state
as it is, notes the empty observation and waits up to the idle threshold of
30 s. Hence a sole watcher whose idle wait ends by the timer and that finds
the set still empty returns, leaving the active-worker count at exactly 0. -/
theorem C17_idle_exit (s : State) (mis : Bool) (now : Int) (hempty : s.cc.futures = []) :
    (watcherLocked s mis now
        = if 1 < s.cc.watchers ∨ mis = true then some (exitResult s, Outcome.exit)
          else some (s, Outcome.wait true idleTimeout)) ∧
      (exitResult s).cc.watchers = s.cc.watchers - 1 ∧
      (exitResult s).cc.futures = s.cc.futures ∧
      idleTimeout = 30 * 1000000000 ∧
      ∀ (w : Nat) (t : Int), s.workers.getD w goroutine.done = goroutine.waiting true t →
        s.cc.watchers = 1 →
        ∃ s1, run s [Action.timer w, Action.invoke w, Action.lock w now] = some s1 ∧
          s1.cc.watchers = 0 ∧ s1.workers.getD w goroutine.done = goroutine.done ∧
          s1.cc.futures = [] := by
  refine ⟨watcherLocked_empty s mis now hempty, rfl, rfl, rfl, ?_⟩
  intro w t hx h1
  have hw : w < s.workers.length :=
    getD_lt (by rw [hx]; exact fun e => goroutine.noConfusion e)
  have e1 := timer_step s w hx
  obtain ⟨g1, l1⟩ := setWorker_getD s w (goroutine.top none true) hw
  have e2 := invoke_idle_step _ w g1
  obtain ⟨g2, l2⟩ := setWorker_getD _ w (goroutine.locking true) l1
  have hemp2 : ((s.setWorker w (goroutine.top none true)).setWorker w
      (goroutine.locking true)).cc.futures = [] := hempty
  have e3 := lock_exit_step _ _ w now g2
    ((watcherLocked_empty _ true now hemp2).trans (if_pos (Or.inr rfl)))
  refine ⟨_, run_three e1 e2 e3, ?_, ?_, ?_⟩
  · show s.cc.watchers - 1 = 0
    omega
  · exact (setWorker_getD _ w goroutine.done l2).1
  · exact hempty

theorem C17_idle_exit_witness :
    Reachable exIdle ∧ exIdle.cc.futures = [] ∧
      exIdle.workers.getD 1 goroutine.done = goroutine.waiting true idleTimeout ∧
      exIdle.cc.watchers = 1 ∧
      ∃ s1, run exIdle [Action.timer 1, Action.invoke 1, Action.lock 1 40000000000] = some s1 ∧
        s1.cc.watchers = 0 ∧ s1.workers.getD 1 goroutine.done = goroutine.done ∧
        s1.cc.futures = [] :=
  ⟨exIdle_reachable, by decide, by decide, by decide,
    (C17_idle_exit exIdle false 40000000000 (by decide)).2.2.2.2 1 idleTimeout (by decide)
      (by decide)⟩

theorem watcherLocked_future (s : State) (mis : Bool) (now : Int) (hne : s.cc.futures ≠ [])
    (hle : now ≤ (s.obj (s.heap.elem 0)).fireT) :
    watcherLocked s mis now
      = if 1 < s.cc.watchers then some (exitResult s, Outcome.exit)
        else some (s, Outcome.wait false ((s.obj (s.heap.elem 0)).fireT - now)) := by
  have hl : s.heap.Len ≠ 0 := fun h0 => hne (List.length_eq_zero.1 h0)
  have hnlt : ¬ (s.obj (s.heap.elem 0)).fireT < now := by omega
  unfold watcherLocked
  rw [if_neg hl]
  simp only
  rw [if_neg hnlt]
  rfl

/-- A critical section that finds only entries still to come: the Pending Set
and the store stay as they are, only the goroutine taking the step changes,
and the count drops by one exactly when it was above 1. -/
theorem lock_future_step (s : State) (w : Nat) (now : Int) {m : Bool}
    (hx : s.workers.getD w goroutine.done = goroutine.locking m)
    (hne : s.cc.futures ≠ []) (hle : now ≤ (s.obj (s.heap.elem 0)).fireT) :
    ∃ s1 g, step s (Action.lock w now) = some s1 ∧ s1.cc.futures = s.cc.futures ∧
      s1.obj = s.obj ∧ s1.workers = s.workers.set w g ∧
      s1.cc.watchers = if 1 < s.cc.watchers then s.cc.watchers - 1 else s.cc.watchers := by
  have e := watcherLocked_future s m now hne hle
  by_cases hc : 1 < s.cc.watchers
  · rw [if_pos hc] at e
    exact ⟨_, goroutine.done, lock_exit_step s _ w now hx e, rfl, rfl, rfl, by rw [if_pos hc]; rfl⟩
  · rw [if_neg hc] at e
    exact ⟨_, _, lock_wait_step s _ w now hx e, rfl, rfl, rfl, by rw [if_neg hc]; rfl⟩

/-- Watchers that take their critical sections one after the other while only
entries still to come are pending bring the count down to 1. -/
theorem collapse : ∀ (l : List (Nat × Int)) (s : State), s.cc.futures ≠ [] →
    1 ≤ s.cc.watchers → (l.map Prod.fst).Nodup →
    (∀ p, p ∈ l → (∃ m, s.workers.getD p.1 goroutine.done = goroutine.locking m) ∧
      p.2 ≤ (s.obj (s.heap.elem 0)).fireT) →
    s.cc.watchers ≤ (l.length : Int) + 1 →
    ∃ s1, run s (lockActs l) = some s1 ∧ s1.cc.watchers = 1 ∧
      s1.cc.futures = s.cc.futures ∧ s1.obj = s.obj := by
  intro l
  induction l with
  | nil =>
    intro s _ h1 _ _ hn
    refine ⟨s, rfl, ?_, rfl, rfl⟩
    simp only [List.length_nil, Nat.cast_zero, zero_add] at hn
    omega
  | cons a l ih =>
    intro s hne h1 hnd hall hn
    obtain ⟨⟨m, hx⟩, hle⟩ := hall a (List.mem_cons_self _ _)
    obtain ⟨s1, g, e, ef, eo, ew, ec⟩ := lock_future_step s a.1 a.2 hx hne hle
    have hh : s1.heap = s.heap := by simp [State.heap, ef, eo]
    simp only [List.map_cons, List.nodup_cons] at hnd
    have hrest : ∀ p, p ∈ l →
        (∃ m, s1.workers.getD p.1 goroutine.done = goroutine.locking m) ∧
          p.2 ≤ (s1.obj (s1.heap.elem 0)).fireT := by
      intro p hp
      obtain ⟨⟨m1, hx1⟩, hle1⟩ := hall p (List.mem_cons_of_mem _ hp)
      have hpa : a.1 ≠ p.1 := by
        intro e1
        exact hnd.1 (e1 ▸ List.mem_map_of_mem Prod.fst hp)
      refine ⟨⟨m1, ?_⟩, ?_⟩
      · rw [ew, getD_set_other _ hpa]; exact hx1
      · rw [hh, eo]; exact hle1
    have hc1 : 1 ≤ s1.cc.watchers := by
      rw [ec]; split <;> omega
    have hc2 : s1.cc.watchers ≤ (l.length : Int) + 1 := by
      rw [ec]
      simp only [List.length_cons, Nat.cast_add, Nat.cast_one] at hn
      split <;> omega
    obtain ⟨s2, r2, w2, f2, o2⟩ := ih s1 (by rw [ef]; exact hne) hc1 hnd.2 hrest hc2
    refine ⟨s2, ?_, w2, f2.trans ef, o2.trans eo⟩
    show run s (Action.lock a.1 a.2 :: lockActs l) = some s2
    simp only [run, e, Option.some_bind]
    exact r2

theorem exBurst_reachable : Reachable exBurst :=
  Reachable.run [Action.call (some 7) 1 0, Action.call (some 8) 100 0, Action.invoke 0,
    Action.lock 0 5, Action.invoke 0, Action.invoke 1] Reachable.init rfl

/-- Claim C18: take a watcher iteration in a reachable state that finds the
Pending Set non-empty with the earliest fire time not before `now`. If the
active-worker count is above 1 the critical section lowers it by one and the
watcher returns, nothing popped; otherwise the state is left as it is and the
watcher waits for exactly `fireT - now` (or a wake signal). Hence, once only
entries still to come remain, watchers taking their critical sections one
after the other, all but at most one of those counted, leave the count at
exactly 1 and the Pending Set untouched. -/
theorem C18_future_only (s : State) (hs : Reachable s) (hne : s.cc.futures ≠ []) :
    (∀ (mis : Bool) (now : Int), now ≤ (s.obj (s.heap.elem 0)).fireT →
        watcherLocked s mis now
          = if 1 < s.cc.watchers then some (exitResult s, Outcome.exit)
            else some (s, Outcome.wait false ((s.obj (s.heap.elem 0)).fireT - now))) ∧
      (exitResult s).cc.watchers = s.cc.watchers - 1 ∧
      (exitResult s).cc.futures = s.cc.futures ∧
      ∀ l : List (Nat × Int), (l.map Prod.fst).Nodup →
        (∀ p, p ∈ l → (∃ m, s.workers.getD p.1 goroutine.done = goroutine.locking m) ∧
          p.2 ≤ (s.obj (s.heap.elem 0)).fireT) →
        s.cc.watchers ≤ (l.length : Int) + 1 →
        ∃ s1, run s (lockActs l) = some s1 ∧ s1.cc.watchers = 1 ∧
          s1.cc.futures = s.cc.futures := by
  refine ⟨fun mis now hle => watcherLocked_future s mis now hne hle, rfl, rfl, ?_⟩
  intro l hnd hall hn
  obtain ⟨s1, r, w, f, _⟩ := collapse l s hne (hs.served hne) hnd hall hn
  exact ⟨s1, r, w, f⟩

theorem C18_future_only_witness :
    Reachable exBurst ∧ exBurst.cc.futures ≠ [] ∧ exBurst.cc.watchers = 2 ∧
      ∃ s1, run exBurst (lockActs [(0, 6), (1, 7)]) = some s1 ∧ s1.cc.watchers = 1 ∧
        s1.cc.futures = exBurst.cc.futures :=
  ⟨exBurst_reachable, by decide, by decide,
    (C18_future_only exBurst exBurst_reachable (by decide)).2.2.2 [(0, 6), (1, 7)]
      (by decide) (by decide) (by decide)⟩

theorem run_append : ∀ (a b : List Action) (s : State),
    run s (a ++ b) = (run s a).bind (fun x => run x b) := by
  intro a
  induction a with
  | nil => intro b s; simp [run]
  | cons x a ih =>
    intro b s
    simp only [List.cons_append, run]
    cases h : step s x with
    | none => simp
    | some s1 => simp [ih]

theorem run_append_some {a b : List Action} {s s1 s2 : State} (h1 : run s a = some s1)
    (h2 : run s1 b = some s2) : run s (a ++ b) = some s2 := by
  rw [run_append, h1]
  exact h2

theorem run_cons_some {a : Action} {b : List Action} {s s1 s2 : State}
    (h1 : step s a = some s1) (h2 : run s1 b = some s2) : run s (a :: b) = some s2 := by
  simp only [run, h1, Option.some_bind]
  exact h2

theorem isWorkerAt_isWorker (now : Int) (a : Action) (h : a.isWorkerAt now = true) :
    a.isWorker = true := by
  cases a <;> simp_all [Action.isWorkerAt, Action.isWorker]

theorem isWorker_not_cancel (a : Action) (h : a.isWorker = true) : a.isCancel = false := by
  cases a <;> simp_all [Action.isWorker, Action.isCancel]

theorem expectedFrom_workers : ∀ (b : List Action) (k : Nat),
    (∀ a, a ∈ b → a.isWorker = true) → expectedFrom k b = [] := by
  intro b
  induction b with
  | nil => intro k _; rfl
  | cons x b ih =>
    intro k h
    have hx := h x (List.mem_cons_self _ _)
    have hb := ih k (fun a ha => h a (List.mem_cons_of_mem _ ha))
    cases x with
    | call f timeout now => simp [Action.isWorker] at hx
    | cancel fu => simp [Action.isWorker] at hx
    | invoke w => simp only [expectedFrom]; exact hb
    | lock w now => simp only [expectedFrom]; exact hb
    | timer w => simp only [expectedFrom]; exact hb
    | wake w => simp only [expectedFrom]; exact hb

theorem expectedFrom_append : ∀ (a b : List Action) (k : Nat),
    (∀ x, x ∈ b → x.isWorker = true) → expectedFrom k (a ++ b) = expectedFrom k a := by
  intro a
  induction a with
  | nil =>
    intro b k h
    rw [List.nil_append, expectedFrom_workers b k h]
    rfl
  | cons x a ih =>
    intro b k h
    cases x with
    | call f timeout now =>
      cases f with
      | none => simp only [List.cons_append, expectedFrom]; exact ih b _ h
      | some g =>
        simp only [List.cons_append, expectedFrom]
        exact congrArg _ (ih b _ h)
    | cancel fu => simp only [List.cons_append, expectedFrom]; exact ih b _ h
    | invoke w => simp only [List.cons_append, expectedFrom]; exact ih b _ h
    | lock w now => simp only [List.cons_append, expectedFrom]; exact ih b _ h
    | timer w => simp only [List.cons_append, expectedFrom]; exact ih b _ h
    | wake w => simp only [List.cons_append, expectedFrom]; exact ih b _ h

/-- A watcher at the top of its loop runs what it carries and reaches its critical section. -/
theorem invoke_step (s : State) (w : Nat) {f : Option Job} {m : Bool}
    (hx : s.workers.getD w goroutine.done = goroutine.top f m) :
    ∃ s1, step s (Action.invoke w) = some s1 ∧ s1.cc = s.cc ∧ s1.obj = s.obj ∧
      s1.next = s.next ∧ s1.workers = s.workers.set w (goroutine.locking m) ∧
      s1.calls = s.calls ++ f.toList := by
  simp only [step, hx]
  exact ⟨_, rfl, rfl, rfl, rfl, rfl, rfl⟩

/-- A watcher that has not returned can be brought to its critical section by
its own steps, the coordinator and the store untouched. -/
theorem to_locking (s : State) (w : Nat) (now : Int)
    (hw : s.workers.getD w goroutine.done ≠ goroutine.done) :
    ∃ acts s1 m, (∀ a, a ∈ acts → a.isWorkerAt now = true) ∧ run s acts = some s1 ∧
      s1.cc = s.cc ∧ s1.obj = s.obj ∧
      s1.workers.getD w goroutine.done = goroutine.locking m := by
  have hlen := getD_lt hw
  cases hx : s.workers.getD w goroutine.done with
  | done => exact absurd hx hw
  | locking m =>
    exact ⟨[], s, m, fun a ha => absurd ha (List.not_mem_nil _), rfl, rfl, rfl, hx⟩
  | top f m =>
    obtain ⟨s1, e, c, o, _, ws, _⟩ := invoke_step s w hx
    refine ⟨[Action.invoke w], s1, m, ?_, run_cons_some e rfl, c, o, ?_⟩
    · intro a ha
      rw [List.mem_singleton] at ha
      rw [ha]; rfl
    · rw [ws]; exact getD_set_same _ hlen
  | waiting m t =>
    have e1 := timer_step s w hx
    obtain ⟨g1, l1⟩ := setWorker_getD s w (goroutine.top none m) hlen
    have e2 := invoke_idle_step _ w g1
    obtain ⟨g2, _⟩ := setWorker_getD _ w (goroutine.locking m) l1
    refine ⟨[Action.timer w, Action.invoke w], _, m, ?_,
      run_cons_some e1 (run_cons_some e2 rfl), rfl, rfl, g2⟩
    intro a ha
    simp only [List.mem_cons, List.mem_singleton, List.not_mem_nil, or_false] at ha
    rcases ha with ha | ha <;> (rw [ha]; rfl)

/-- With the root due before the clock reading, a watcher's critical section pops it. -/
theorem lock_pops {s : State} (hi : Inv s) (w : Nat) (now : Int) {m : Bool}
    (hx : s.workers.getD w goroutine.done = goroutine.locking m)
    (hne : s.cc.futures ≠ []) (hlt : (s.obj (s.heap.elem 0)).fireT < now) :
    ∃ s1, step s (Action.lock w now) = some s1 ∧
      s.cc.futures.Perm (s.heap.elem 0 :: s1.cc.futures) := by
  have hl : s.heap.Len ≠ 0 := fun h0 => hne (List.length_eq_zero.1 h0)
  rcases watcherLocked_cases hi m now with ⟨_, c1, _⟩ | ⟨m1, t, _, c1⟩ | ⟨h1, g, hr, _, _, _, e⟩
  · rcases c1 with c1 | c1
    · exact absurd c1 hl
    · exact absurd hlt c1
  · rcases c1 with c1 | c1
    · exact absurd c1 hl
    · exact absurd hlt c1
  · obtain ⟨_, f2, _⟩ := popResult_fields s h1
    have hex : ∃ s1, step s (Action.lock w now) = some s1 ∧
        s1.cc.futures = (popResult s h1).cc.futures := by
      simp only [step, hx, e]
      by_cases hc : s.cc.watchers < watcherCap
      · simp only [hc, decide_True]
        exact ⟨_, rfl, rfl⟩
      · simp only [hc, decide_False]
        exact ⟨_, rfl, rfl⟩
    obtain ⟨s1, e1, e2⟩ := hex
    refine ⟨s1, e1, ?_⟩
    rw [e2, f2]
    exact hr.perm

/-- The watchers can run every callback they carry: steps of the watchers alone
lead to a state in which none carries a callback, the coordinator untouched. -/
theorem flush (now : Int) : ∀ (n : Nat) (s : State), (carried s.workers).length = n →
    ∃ acts s1, (∀ a, a ∈ acts → a.isWorkerAt now = true) ∧ run s acts = some s1 ∧
      s1.cc = s.cc ∧ carried s1.workers = [] := by
  intro n
  induction n with
  | zero =>
    intro s h
    exact ⟨[], s, fun a ha => absurd ha (List.not_mem_nil _), rfl, rfl,
      List.length_eq_zero.1 h⟩
  | succ n ih =>
    intro s h
    have hne : carried s.workers ≠ [] := by
      intro e; rw [e] at h; simp at h
    obtain ⟨j, hj⟩ := List.exists_mem_of_ne_nil _ hne
    unfold carried at hj
    rw [List.mem_filterMap] at hj
    obtain ⟨g, hg, hgj⟩ := hj
    obtain ⟨w, hw, ew⟩ := List.getElem_of_mem hg
    have hx : s.workers.getD w goroutine.done = g := by rw [getD_getElem hw]; exact ew
    cases g with
    | top f m =>
      obtain ⟨s1, e, c, _, _, ws, _⟩ := invoke_step s w hx
      have hperm := carried_set s.workers w (goroutine.locking m) hw
      rw [ew] at hperm
      have hf : f = some j := hgj
      have hlen := hperm.length_eq
      simp only [goroutine.job, hf, Option.toList, List.length_append, List.length_cons,
        List.length_nil] at hlen
      have h1 : (carried s1.workers).length = n := by
        rw [ws]; omega
      obtain ⟨acts, s2, ha, r, c2, q⟩ := ih s1 h1
      refine ⟨Action.invoke w :: acts, s2, ?_, run_cons_some e r, c2.trans c, q⟩
      intro a hm
      rw [List.mem_cons] at hm
      rcases hm with hm | hm
      · rw [hm]; rfl
      · exact ha a hm
    | locking m => simp [goroutine.job] at hgj
    | waiting m t => simp [goroutine.job] at hgj
    | done => simp [goroutine.job] at hgj

/-- With the clock past every fire time the watchers can empty the Pending
Set: steps of the watchers alone lead to a state with nothing pending. -/
theorem drain_pending (now : Int) : ∀ (n : Nat) (s : State), Reachable s →
    s.cc.futures.length = n → (∀ q, q ∈ s.cc.futures → (s.obj q).fireT < now) →
    ∃ acts s1, (∀ a, a ∈ acts → a.isWorkerAt now = true) ∧ run s acts = some s1 ∧
      s1.cc.futures = [] := by
  intro n
  induction n with
  | zero =>
    intro s _ h _
    exact ⟨[], s, fun a ha => absurd ha (List.not_mem_nil _), rfl, List.length_eq_zero.1 h⟩
  | succ n ih =>
    intro s hs h hpast
    have hne : s.cc.futures ≠ [] := by
      intro e; rw [e] at h; simp at h
    have hserved := hs.served hne
    have hlive : 0 < liveCount s.workers := by
      have := hs.inv.watchers
      omega
    unfold liveCount at hlive
    rw [List.countP_pos_iff] at hlive
    obtain ⟨g, hg, hgl⟩ := hlive
    obtain ⟨w, hw, ew⟩ := List.getElem_of_mem hg
    have hx : s.workers.getD w goroutine.done ≠ goroutine.done := by
      rw [getD_getElem hw, ew]
      intro e; rw [e] at hgl; exact absurd hgl (by decide)
    obtain ⟨acts1, sa, m, ha1, r1, c1, o1, x1⟩ := to_locking s w now hx
    have hsa : Reachable sa := Reachable.run acts1 hs r1
    have hha : sa.heap = s.heap := by simp [State.heap, c1, o1]
    have hnea : sa.cc.futures ≠ [] := by rw [c1]; exact hne
    have hroot : (sa.obj (sa.heap.elem 0)).fireT < now := by
      rw [hha, o1]
      apply hpast
      apply elem_mem s.heap
      show 0 < s.cc.futures.length
      omega
    obtain ⟨sb, e, hperm⟩ := lock_pops hsa.inv w now x1 hnea hroot
    have hsb : Reachable sb := Reachable.step _ hsa e
    have hfr := (step_spec hsa.inv _ e).2
    have hlen : sb.cc.futures.length = n := by
      have := hperm.length_eq
      rw [c1, h] at this
      simp only [List.length_cons] at this
      omega
    have hpb : ∀ q, q ∈ sb.cc.futures → (sb.obj q).fireT < now := by
      intro q hq
      have hqa : q ∈ sa.cc.futures := hperm.mem_iff.2 (List.mem_cons_of_mem _ hq)
      rw [hfr.fireT q (hsa.inv.bound q hqa), o1]
      apply hpast
      rw [← c1]; exact hqa
    obtain ⟨acts2, sc, ha2, r2, q2⟩ := ih sb hsb hlen hpb
    refine ⟨acts1 ++ Action.lock w now :: acts2, sc, ?_,
      run_append_some r1 (run_cons_some e r2), q2⟩
    intro a hm
    rw [List.mem_append, List.mem_cons] at hm
    rcases hm with hm | hm | hm
    · exact ha1 a hm
    · rw [hm]; simp [Action.isWorkerAt]
    · exact ha2 a hm

/-- In a cancel-free execution, right after the watcher has popped the only
entry, due at 5, with the clock at 9, the Pending Set is empty and the
scheduled callback has not been run: the watcher still holds it. -/
theorem C4_counterexample :
    run init [Action.call (some 7) 5 0, Action.invoke 0, Action.lock 0 9] = some exPopped ∧
      (∀ a, a ∈ [Action.call (some 7) 5 0, Action.invoke 0, Action.lock 0 9] →
        a.isCancel = false) ∧
      expectedFrom 0 [Action.call (some 7) 5 0, Action.invoke 0, Action.lock 0 9]
        = [{ owner := 0, fn := 7 }] ∧
      exPopped.cc.futures = [] ∧ exPopped.calls = [] ∧
      carried exPopped.workers = [{ owner := 0, fn := 7 }] :=
  ⟨rfl, by decide, rfl, by decide, by decide, by decide⟩

/-- Claim C4, amended: take any execution from the initial state without a
`Cancel`, in which `N` of the `Call` events were given a callback that is not
nil, and a clock reading past every pending fire time. Steps of the watchers
at that clock reading can always be run until the Pending Set is empty and
every watcher has run the callback it popped or was handed, and then the
record of invocations is a rearrangement of the `N` scheduled callbacks, one
record per entry: each has run exactly once. For every run of watcher steps
that empties the Pending Set, the `N` callbacks are exactly those already run
together with those still in a watcher's hands, so none is lost or repeated;
once no watcher holds one, each has run exactly once. -/
theorem C4_drain_each_once (acts : List Action) (s : State)
    (hrun : run init acts = some s) (hno : ∀ a, a ∈ acts → a.isCancel = false)
    (now : Int) (hpast : ∀ q, q ∈ s.cc.futures → (s.obj q).fireT < now) :
    (∃ ws s1, (∀ a, a ∈ ws → a.isWorkerAt now = true) ∧ run s ws = some s1 ∧
        s1.cc.futures = [] ∧ carried s1.workers = [] ∧
        s1.calls.Perm (expectedFrom 0 acts) ∧ (s1.calls.map Job.owner).Nodup ∧
        s1.calls.length = (expectedFrom 0 acts).length) ∧
      ∀ ws s1, (∀ a, a ∈ ws → a.isWorker = true) → run s ws = some s1 →
        s1.cc.futures = [] →
        (carried s1.workers ++ s1.calls).Perm (expectedFrom 0 acts) ∧
          ((carried s1.workers ++ s1.calls).map Job.owner).Nodup ∧
          (carried s1.workers = [] →
            s1.calls.Perm (expectedFrom 0 acts) ∧ (s1.calls.map Job.owner).Nodup ∧
              s1.calls.length = (expectedFrom 0 acts).length) := by
  have huniv : ∀ ws s1, (∀ a, a ∈ ws → a.isWorker = true) → run s ws = some s1 →
      s1.cc.futures = [] →
      (carried s1.workers ++ s1.calls).Perm (expectedFrom 0 acts) ∧
        ((carried s1.workers ++ s1.calls).map Job.owner).Nodup ∧
        (carried s1.workers = [] →
          s1.calls.Perm (expectedFrom 0 acts) ∧ (s1.calls.map Job.owner).Nodup ∧
            s1.calls.length = (expectedFrom 0 acts).length) := by
    intro ws s1 hws r he
    have hno2 : ∀ a, a ∈ acts ++ ws → a.isCancel = false := by
      intro a ha
      rw [List.mem_append] at ha
      rcases ha with ha | ha
      · exact hno a ha
      · exact isWorker_not_cancel a (hws a ha)
    have := drained_accounts (acts ++ ws) s1 (run_append_some hrun r) hno2 he
    rw [expectedFrom_append acts ws 0 hws] at this
    exact this
  refine ⟨?_, huniv⟩
  have hs : Reachable s := Reachable.run acts Reachable.init hrun
  obtain ⟨w1, sa, ha1, r1, q1⟩ := drain_pending now _ s hs rfl hpast
  obtain ⟨w2, sb, ha2, r2, c2, q2⟩ := flush now _ sa rfl
  have hall : ∀ a, a ∈ w1 ++ w2 → a.isWorkerAt now = true := by
    intro a ha
    rw [List.mem_append] at ha
    rcases ha with ha | ha
    · exact ha1 a ha
    · exact ha2 a ha
  have hrun2 := run_append_some r1 r2
  have hemp : sb.cc.futures = [] := by rw [c2]; exact q1
  obtain ⟨_, _, h3⟩ := huniv (w1 ++ w2) sb
    (fun a ha => isWorkerAt_isWorker now a (hall a ha)) hrun2 hemp
  obtain ⟨p1, p2, p3⟩ := h3 q2
  exact ⟨w1 ++ w2, sb, hall, hrun2, hemp, q2, p1, p2, p3⟩

theorem C4_drain_each_once_witness :
    run init exSchedule = some ((run init exSchedule).getD init) ∧
      (∀ a, a ∈ exSchedule → a.isCancel = false) ∧
      (∀ q, q ∈ ((run init exSchedule).getD init).cc.futures →
        (((run init exSchedule).getD init).obj q).fireT < 5) ∧
      ((run init exSchedule).getD init).cc.futures.length = 2 ∧
      expectedFrom 0 exSchedule = [{ owner := 0, fn := 7 }, { owner := 1, fn := 8 }] ∧
      ∃ ws s1, (∀ a, a ∈ ws → a.isWorkerAt 5 = true) ∧
        run ((run init exSchedule).getD init) ws = some s1 ∧
        s1.cc.futures = [] ∧ carried s1.workers = [] ∧
        s1.calls.Perm (expectedFrom 0 exSchedule) ∧ (s1.calls.map Job.owner).Nodup ∧
        s1.calls.length = (expectedFrom 0 exSchedule).length :=
  ⟨rfl, by decide, by decide, by decide, rfl,
    (C4_drain_each_once exSchedule _ rfl (by decide) 5 (by decide)).1⟩

end Timeout
